import Mathlib

/-!
Shallow embedding of the chess rules engine in `src/chess.py` (class `Chess`),
together with proofs settling the specification claims.

Modelling conventions:
* Python strings are modelled as `List Char`.
* The numpy 8x8 `uint8` board is modelled as `List (List Nat)` (8 rows of 8).
  numpy integer indexing semantics are preserved: indices in `[-8, -1]` wrap
  around (index `i` means `8 + i`), indices outside `[-8, 7]` raise `IndexError`.
* Python exceptions are modelled by the error type `Err`; functions that can
  raise return `Except Err _`.  Functions that mutate `self` in place are
  modelled by explicit state passing `Chess -> Chess × Except Err _`; when an
  exception escapes mid-way the partially mutated state is returned, exactly
  as the Python object would be left partially mutated.
* Python dicts used by the code (`moves`) are modelled as association lists
  where updating an existing key replaces the stored value in place (Python
  dicts keep insertion order on update, so the multiset/order of `.values()`
  is preserved by this modelling).
-/

deriving instance DecidableEq for Except

namespace ChessSpec

/-- A square coordinate `(rank, file)` as used by the Python code: a plain
pair of Python ints (may be negative or out of range; numpy indexing decides
what that means). -/
abbrev Sq := Int × Int

/-- The board: 8 rows (rank 0 first) of 8 cell values. -/
abbrev Board := List (List Nat)

/-- Colour enum (`Colour` in chess.py): WHITE = 0, BLACK = 64. -/
inductive Colour where
  | white
  | black
deriving DecidableEq, Repr

/-- Numeric value of a colour flag (`Colour.WHITE = 0`, `Colour.BLACK = 64`). -/
def colourVal : Colour → Nat
  | Colour.white => 0
  | Colour.black => 64

/-- `Colour.opposite` from chess.py. -/
def Colour.opposite : Colour → Colour
  | Colour.white => Colour.black
  | Colour.black => Colour.white

/-- Reasons distinguishing the three `DrawException` messages raised by
`Chess.move`. -/
inductive DrawReason where
  | repetition
  | stalemate
  | fiftyMove
deriving DecidableEq, Repr

/-- Python exceptions that the embedded code can raise. -/
inductive Err where
  | indexError      -- numpy / list IndexError
  | keyError        -- dict KeyError
  | valueError      -- int() ValueError
  | chessErr        -- generic ChessException ('Invalid FEN', bad piece value, ...)
  | noPiecePresent
  | notYourTurn
  | illegalMove
  | invalidSquare
  | draw (r : DrawReason)
  | checkmate
deriving DecidableEq, Repr

/-- numpy index resolution on an axis of length 8: values in `[0,7]` are used
directly, values in `[-8,-1]` wrap around, anything else is an `IndexError`. -/
def idxWrap (i : Int) : Option Nat :=
  if 0 ≤ i ∧ i < 8 then some i.toNat
  else if -8 ≤ i ∧ i < 0 then some (i + 8).toNat
  else none

/-- `self.board[sq]` (read). -/
def boardGetE (b : Board) (sq : Sq) : Except Err Nat :=
  match idxWrap sq.1, idxWrap sq.2 with
  | some r, some f =>
    match b.get? r with
    | some row =>
      match row.get? f with
      | some v => Except.ok v
      | none => Except.error Err.indexError
    | none => Except.error Err.indexError
  | _, _ => Except.error Err.indexError

/-- `self.board[sq] = v` (write). -/
def boardSetE (b : Board) (sq : Sq) (v : Nat) : Except Err Board :=
  match idxWrap sq.1, idxWrap sq.2 with
  | some r, some f =>
    match b.get? r with
    | some row =>
      if f < row.length then Except.ok (b.set r (row.set f v))
      else Except.error Err.indexError
    | none => Except.error Err.indexError
  | _, _ => Except.error Err.indexError

/-- Total board read used for modelling `np.where` scans over the array
(those only ever touch indices 0..7, which always exist on a well-formed
board; out-of-shape reads yield 0, i.e. empty). -/
def boardGetD (b : Board) (r f : Nat) : Nat :=
  match b.get? r with
  | some row => (row.get? f).getD 0
  | none => 0

/-- Piece kind flag values (`Piece` IntFlag in chess.py). -/
def pawnV : Nat := 1
def knightV : Nat := 2
def bishopV : Nat := 4
def rookV : Nat := 8
def queenV : Nat := 16
def kingV : Nat := 32

/-- The six piece kind flags, in `Piece.__members__` order. -/
def pieceKinds : List Nat := [1, 2, 4, 8, 16, 32]

/-- `pieceValues` dict: FEN letter to packed cell value. -/
def pieceValue : Char → Option Nat
  | 'P' => some 1
  | 'N' => some 2
  | 'B' => some 4
  | 'R' => some 8
  | 'Q' => some 16
  | 'K' => some 32
  | 'p' => some 65
  | 'n' => some 66
  | 'b' => some 68
  | 'r' => some 72
  | 'q' => some 80
  | 'k' => some 96
  | _ => none

/-- `valuePieces` dict: packed cell value to FEN letter. -/
def valuePiece : Nat → Option Char
  | 1 => some 'P'
  | 2 => some 'N'
  | 4 => some 'B'
  | 8 => some 'R'
  | 16 => some 'Q'
  | 32 => some 'K'
  | 65 => some 'p'
  | 66 => some 'n'
  | 68 => some 'b'
  | 72 => some 'r'
  | 80 => some 'q'
  | 96 => some 'k'
  | _ => none

/-- `Chess.val_to_piece`: 0 means no piece; values above 64 are black;
the remainder after removing the colour offset must be one of the six kind
flags, otherwise `ChessException('Invalid piece value')`. -/
def valToPiece (value : Nat) : Except Err (Option (Nat × Colour)) :=
  if value = 0 then Except.ok none
  else
    let c := if value > 64 then Colour.black else Colour.white
    let v := value - colourVal c
    if v ∈ pieceKinds then Except.ok (some (v, c))
    else Except.error Err.chessErr

/-- `Chess.piece_to_val`. -/
def pieceToVal (p : Nat) (c : Colour) : Nat := p + colourVal c

/-- `files` dict: file letter to index. -/
def fileIdx : Char → Option Nat
  | 'A' => some 0
  | 'B' => some 1
  | 'C' => some 2
  | 'D' => some 3
  | 'E' => some 4
  | 'F' => some 5
  | 'G' => some 6
  | 'H' => some 7
  | _ => none

/-- `ranks` dict: rank digit to index. -/
def rankIdx : Char → Option Nat
  | '1' => some 0
  | '2' => some 1
  | '3' => some 2
  | '4' => some 3
  | '5' => some 4
  | '6' => some 5
  | '7' => some 6
  | '8' => some 7
  | _ => none

/-- Reverse lookup used by `coor_to_str`: index to rank digit. -/
def rankChar : Int → Option Char
  | 0 => some '1'
  | 1 => some '2'
  | 2 => some '3'
  | 3 => some '4'
  | 4 => some '5'
  | 5 => some '6'
  | 6 => some '7'
  | 7 => some '8'
  | _ => none

/-- Reverse lookup used by `coor_to_str`: index to file letter. -/
def fileChar : Int → Option Char
  | 0 => some 'A'
  | 1 => some 'B'
  | 2 => some 'C'
  | 3 => some 'D'
  | 4 => some 'E'
  | 5 => some 'F'
  | 6 => some 'G'
  | 7 => some 'H'
  | _ => none

/-- `Chess.str_to_coor`: reads characters 0 and 1 of the string (IndexError
if absent, uncaught by the Python code); a failed dict lookup (KeyError) is
turned into `InvalidSquare`.  Returns `(rank, file)`. -/
def strToCoor (s : List Char) : Except Err Sq :=
  match s with
  | c0 :: c1 :: _ =>
    match fileIdx c0.toUpper, rankIdx c1 with
    | some f, some r => Except.ok ((r : Int), (f : Int))
    | _, _ => Except.error Err.invalidSquare
  | _ => Except.error Err.indexError

/-- `Chess.coor_to_str`: first rank/file letter whose index matches; an
unmatched coordinate raises IndexError (the `[0]` on an empty list; the
`except KeyError` in the source never fires). -/
def coorToStr (c : Sq) : Except Err (List Char) :=
  match rankChar c.1, fileChar c.2 with
  | some rc, some fc => Except.ok [fc, rc]
  | _, _ => Except.error Err.indexError

/-- Decimal digit character for `str(n)`. -/
def digitChar (d : Nat) : Char := Char.ofNat (48 + d)

/-- `str(n)` helper, structurally recursive on a fuel bound (`fuel > n`
always holds at call sites, so the `0` case is unreachable). -/
def repNatAux : Nat → Nat → List Char
  | 0, _ => []
  | fuel + 1, n =>
    if n < 10 then [digitChar n]
    else repNatAux fuel (n / 10) ++ [digitChar (n % 10)]

/-- `str(n)` for a natural number. -/
def repNat (n : Nat) : List Char := repNatAux (n + 1) n

/-- `str(n)` for a Python int. -/
def repInt (n : Int) : List Char :=
  if n < 0 then '-' :: repNat (-n).toNat else repNat n.toNat

/-- Digit-fold helper for `int(s)`. -/
def parseNatGo : List Char → Nat → Option Nat
  | [], acc => some acc
  | c :: rest, acc =>
    if c.isDigit then parseNatGo rest (acc * 10 + (c.toNat - 48)) else none

/-- `int(s)` on a non-negative decimal numeral. -/
def parseNat (s : List Char) : Option Nat :=
  match s with
  | [] => none
  | _ => parseNatGo s 0

/-- `int(s)` on a decimal numeral with optional leading minus sign
(canonical `str(int)` output round-trips; other junk raises ValueError). -/
def parseInt (s : List Char) : Except Err Int :=
  match s with
  | '-' :: rest =>
    match parseNat rest with
    | some n => Except.ok (-(n : Int))
    | none => Except.error Err.valueError
  | _ =>
    match parseNat s with
    | some n => Except.ok ((n : Int))
    | none => Except.error Err.valueError

/-- Python `str.split(sep)` semantics (keeps empty segments), helper. -/
def splitOnCharGo (sep : Char) : List Char → List Char → List (List Char)
  | [], cur => [cur.reverse]
  | c :: rest, cur =>
    if c = sep then cur.reverse :: splitOnCharGo sep rest []
    else splitOnCharGo sep rest (c :: cur)

/-- Python `s.split(sep)` for a single-character separator. -/
def splitOnChar (sep : Char) (s : List Char) : List (List Char) :=
  splitOnCharGo sep s []

/-- Whitespace test for Python `str.strip()`. -/
def isSpaceChar (c : Char) : Bool :=
  c = ' ' || c = '\t' || c = '\n' || c = '\r'

/-- Python `s.strip()`. -/
def trimChars (s : List Char) : List Char :=
  List.reverse (List.dropWhile isSpaceChar (List.reverse (List.dropWhile isSpaceChar s)))

/-- First-match lookup in the `moves` dict (modelled as an association list). -/
def lookupA : List (Int × List Char) → Int → Option (List Char)
  | [], _ => none
  | (k, v) :: rest, key => if k = key then some v else lookupA rest key

/-- Dict update `d[key] = val`: replace in place if the key exists (keeping
its position, as Python dicts do), else append. -/
def insertA : List (Int × List Char) → Int → List Char → List (Int × List Char)
  | [], key, val => [(key, val)]
  | (k, v) :: rest, key, val =>
    if k = key then (key, val) :: rest else (k, v) :: insertA rest key val

/-- The full mutable state of a `Chess` instance. -/
structure Chess where
  board : Board
  toMove : Colour
  enPassantTarget : Option Sq
  longCastleW : Bool
  longCastleB : Bool
  shortCastleW : Bool
  shortCastleB : Bool
  halfMoveClock : Int
  moveCounter : Int
  moves : List (Int × List Char)
  lastFen : List Char
deriving DecidableEq, Repr

/-- `self.long_castle[c]`. -/
def longCastle (s : Chess) : Colour → Bool
  | Colour.white => s.longCastleW
  | Colour.black => s.longCastleB

/-- `self.short_castle[c]`. -/
def shortCastle (s : Chess) : Colour → Bool
  | Colour.white => s.shortCastleW
  | Colour.black => s.shortCastleB

/-- `self.long_castle[c] = b`. -/
def setLongCastle (s : Chess) (c : Colour) (v : Bool) : Chess :=
  match c with
  | Colour.white => {s with longCastleW := v}
  | Colour.black => {s with longCastleB := v}

/-- `self.short_castle[c] = b`. -/
def setShortCastle (s : Chess) (c : Colour) (v : Bool) : Chess :=
  match c with
  | Colour.white => {s with shortCastleW := v}
  | Colour.black => {s with shortCastleB := v}

/-- `Chess._half_move_counter`. -/
def hmc (s : Chess) : Int :=
  if s.toMove = Colour.white then (s.moveCounter - 1) * 2
  else (s.moveCounter - 1) * 2 + 1

/-- FEN rank run-length encoding, one row (`get_fen` inner loop);
`zeros` is the pending count of consecutive empty squares. -/
def encRowGo : List Nat → Nat → List Char
  | [], zeros => if zeros > 0 then repNat zeros else []
  | v :: rest, zeros =>
    match valuePiece v with
    | some ch => (if zeros > 0 then repNat zeros else []) ++ ch :: encRowGo rest 0
    | none => encRowGo rest (zeros + 1)

/-- FEN encoding of one board row. -/
def encRow (row : List Nat) : List Char := encRowGo row 0

/-- `sep.join(blocks)` (Python `str.join` over a single-character
separator). -/
def joinSep (sep : Char) : List (List Char) → List Char
  | [] => []
  | [x] => x
  | x :: rest => x ++ sep :: joinSep sep rest

/-- FEN board block: ranks from index 7 down to 0, joined by `'/'`. -/
def encBoard (b : Board) : List Char :=
  joinSep '/' (List.map encRow b.reverse)

/-- Castling-availability FEN block. -/
def castleBlock (s : Chess) : List Char :=
  let cs := (if s.shortCastleW then ['K'] else []) ++
            (if s.longCastleW then ['Q'] else []) ++
            (if s.shortCastleB then ['k'] else []) ++
            (if s.longCastleB then ['q'] else [])
  if cs = [] then ['-'] else cs

/-- `Chess.get_fen` (raises only from `coor_to_str` on an unrepresentable
en-passant target). -/
def getFenE (s : Chess) : Except Err (List Char) :=
  match (match s.enPassantTarget with
         | none => Except.ok ['-']
         | some c => coorToStr c : Except Err (List Char)) with
  | Except.error e => Except.error e
  | Except.ok epBlock =>
    Except.ok (encBoard s.board ++
      ' ' :: (if s.toMove = Colour.white then ['w'] else ['b']) ++
      ' ' :: castleBlock s ++
      ' ' :: epBlock ++
      ' ' :: repInt s.halfMoveClock ++
      ' ' :: repInt s.moveCounter)

/-- All-zero fresh board (`np.zeros((8, 8))`). -/
def zeroBoard : Board := List.replicate 8 (List.replicate 8 0)

/-- `set_fen` board-block inner loop over one rank's characters; returns the
partially written board when a KeyError / IndexError escapes. -/
def parseRowGo (b : Board) (rank : Nat) : List Char → Nat → Board × Option Err
  | [], _ => (b, none)
  | c :: rest, file =>
    if c.isDigit then parseRowGo b rank rest (file + (c.toNat - 48))
    else
      match pieceValue c with
      | some v =>
        match boardSetE b ((rank : Int), (file : Int)) v with
        | Except.ok b2 => parseRowGo b2 rank rest (file + 1)
        | Except.error e => (b, some e)
      | none => (b, some Err.keyError)

/-- `set_fen` board-block outer loop (`for r in reversed(fen_ranks)`). -/
def parseRanksGo (b : Board) : List (List Char) → Nat → Board × Option Err
  | [], _ => (b, none)
  | r :: rest, rank =>
    match parseRowGo b rank r 0 with
    | (b2, none) => parseRanksGo b2 rest (rank + 1)
    | (b2, some e) => (b2, some e)

/-- `Chess.set_fen`.  Mutations are committed in source order, so an
exception leaves the fields already assigned in their new state. -/
def setFenE (s : Chess) (fen : List Char) : Chess × Except Err Unit :=
  match splitOnChar ' ' (trimChars fen) with
  | [b0, b1, b2, b3, b4, b5] =>
    match parseRanksGo zeroBoard (splitOnChar '/' b0).reverse 0 with
    | (bd, some e) => ({s with board := bd}, Except.error e)
    | (bd, none) =>
      let s1 : Chess := {s with board := bd}
      let s2 : Chess :=
        if b1 = ['w'] then {s1 with toMove := Colour.white}
        else if b1 = ['b'] then {s1 with toMove := Colour.black}
        else s1
      let s3 : Chess := {s2 with shortCastleW := b2.contains 'K',
                                 longCastleW := b2.contains 'Q',
                                 shortCastleB := b2.contains 'k',
                                 longCastleB := b2.contains 'q'}
      match (if b3 = ['-'] then Except.ok none
             else match strToCoor b3 with
                  | Except.ok c => Except.ok (some c)
                  | Except.error e => Except.error e : Except Err (Option Sq)) with
      | Except.error e => (s3, Except.error e)
      | Except.ok ep =>
        let s4 : Chess := {s3 with enPassantTarget := ep}
        match parseInt b4 with
        | Except.error e => (s4, Except.error e)
        | Except.ok h =>
          let s5 : Chess := {s4 with halfMoveClock := h}
          match parseInt b5 with
          | Except.error e => (s5, Except.error e)
          | Except.ok m =>
            let s6 : Chess := {s5 with moveCounter := m}
            ({s6 with moves := insertA s6.moves (hmc s6) fen}, Except.ok ())
  | _ => (s, Except.error Err.chessErr)

/-- The standard starting FEN used by `load_start`. -/
def startFen : List Char :=
  ("rnbqkbnr/pppppppp/8/8/8/8/PPPPPPPP/RNBQKBNR w KQkq - 0 1").toList

/-- `Chess.load_start`. -/
def loadStartE (s : Chess) : Chess × Except Err Unit := setFenE s startFen

/-- Bounds test `tar[0] in ranks.values() and tar[1] in files.values()`. -/
def onBoard (sq : Sq) : Bool :=
  decide (0 ≤ sq.1 ∧ sq.1 < 8 ∧ 0 ≤ sq.2 ∧ sq.2 < 8)

/-- `Chess._pawn_fields`. -/
def pawnFields (b : Board) (ep : Option Sq) (start : Sq) (colour : Colour) :
    Except Err (List Sq) :=
  let inFront : Sq :=
    if colour = Colour.white then (start.1 + 1, start.2) else (start.1 - 1, start.2)
  let inFront2 : Sq :=
    if colour = Colour.white then (start.1 + 2, start.2) else (start.1 - 2, start.2)
  let startRank : Int := if colour = Colour.white then 1 else 6
  match boardGetE b inFront with
  | Except.error e => Except.error e
  | Except.ok vf =>
    match (if vf = 0 then
             if start.1 = startRank then
               match boardGetE b inFront2 with
               | Except.error e => Except.error e
               | Except.ok v2 =>
                 Except.ok (if v2 = 0 then [inFront, inFront2] else [inFront])
             else Except.ok [inFront]
           else Except.ok [] : Except Err (List Sq)) with
    | Except.error e => Except.error e
    | Except.ok fwd =>
      let diag1 : Sq := (inFront.1, inFront.2 - 1)
      let diag2 : Sq := (inFront.1, inFront.2 + 1)
      match (if inFront.2 > 0 then
               match boardGetE b diag1 with
               | Except.error e => Except.error e
               | Except.ok v =>
                 if v > 0 then
                   match valToPiece v with
                   | Except.error e => Except.error e
                   | Except.ok none => Except.ok []
                   | Except.ok (some pc) =>
                     Except.ok (if pc.2 ≠ colour then [diag1] else [])
                 else Except.ok []
             else Except.ok [] : Except Err (List Sq)) with
      | Except.error e => Except.error e
      | Except.ok d1 =>
        match (if inFront.2 < 7 then
                 match boardGetE b diag2 with
                 | Except.error e => Except.error e
                 | Except.ok v =>
                   if v > 0 then
                     match valToPiece v with
                     | Except.error e => Except.error e
                     | Except.ok none => Except.ok []
                     | Except.ok (some pc) =>
                       Except.ok (if pc.2 ≠ colour then [diag2] else [])
                   else Except.ok []
               else Except.ok [] : Except Err (List Sq)) with
        | Except.error e => Except.error e
        | Except.ok d2 =>
          let epl : List Sq :=
            match ep with
            | some t => if t = diag1 ∨ t = diag2 then [t] else []
            | none => []
          Except.ok (fwd ++ d1 ++ d2 ++ epl)

/-- The eight knight offsets, in source order. -/
def knightOffsets : List (Int × Int) :=
  [(2, 1), (2, -1), (-2, 1), (-2, -1), (1, 2), (-1, 2), (1, -2), (-1, -2)]

/-- `Chess._knight_fields` loop. -/
def knightGo (b : Board) (colour : Colour) (start : Sq) :
    List (Int × Int) → Except Err (List Sq)
  | [] => Except.ok []
  | k :: rest =>
    let tar : Sq := (start.1 + k.1, start.2 + k.2)
    if onBoard tar then
      match boardGetE b tar with
      | Except.error e => Except.error e
      | Except.ok v =>
        if v > 0 then
          match valToPiece v with
          | Except.error e => Except.error e
          | Except.ok none => knightGo b colour start rest
          | Except.ok (some pc) =>
            if pc.2 = colour then knightGo b colour start rest
            else
              match knightGo b colour start rest with
              | Except.error e => Except.error e
              | Except.ok l => Except.ok (tar :: l)
        else
          match knightGo b colour start rest with
          | Except.error e => Except.error e
          | Except.ok l => Except.ok (tar :: l)
    else knightGo b colour start rest

/-- `Chess._knight_fields`. -/
def knightFields (b : Board) (colour : Colour) (start : Sq) : Except Err (List Sq) :=
  knightGo b colour start knightOffsets

/-- One sliding-ray walk (`while True` loop of `_bishop_fields` /
`_rook_fields`).  The fuel bound 32 strictly exceeds the number of steps any
ray can take before leaving the board. -/
def rayGo (b : Board) (colour : Colour) (d : Int × Int) :
    Nat → Sq → Except Err (List Sq)
  | 0, _ => Except.ok []
  | Nat.succ fuel, cur =>
    let nxt : Sq := (cur.1 + d.1, cur.2 + d.2)
    if onBoard nxt then
      match boardGetE b nxt with
      | Except.error e => Except.error e
      | Except.ok v =>
        if v > 0 then
          match valToPiece v with
          | Except.error e => Except.error e
          | Except.ok none => Except.ok []
          | Except.ok (some pc) =>
            if pc.2 = colour then Except.ok [] else Except.ok [nxt]
        else
          match rayGo b colour d fuel nxt with
          | Except.error e => Except.error e
          | Except.ok l => Except.ok (nxt :: l)
    else Except.ok []

/-- Walk several rays in order, concatenating their fields. -/
def raysGo (b : Board) (colour : Colour) (start : Sq) :
    List (Int × Int) → Except Err (List Sq)
  | [] => Except.ok []
  | d :: rest =>
    match rayGo b colour d 32 start with
    | Except.error e => Except.error e
    | Except.ok l =>
      match raysGo b colour start rest with
      | Except.error e => Except.error e
      | Except.ok l2 => Except.ok (l ++ l2)

/-- `Chess._bishop_fields`. -/
def bishopFields (b : Board) (colour : Colour) (start : Sq) : Except Err (List Sq) :=
  raysGo b colour start [(1, 1), (1, -1), (-1, 1), (-1, -1)]

/-- `Chess._rook_fields`. -/
def rookFields (b : Board) (colour : Colour) (start : Sq) : Except Err (List Sq) :=
  raysGo b colour start [(0, 1), (0, -1), (1, 0), (-1, 0)]

/-- `range(lo, lo + k)` over Python ints. -/
def intRangeAux (lo : Int) : Nat → List Int
  | 0 => []
  | k + 1 => lo :: intRangeAux (lo + 1) k

/-- `range(lo, hi)` over Python ints. -/
def intRange (lo hi : Int) : List Int := intRangeAux lo (hi - lo).toNat

/-- `Chess._king_fields` inner loop over one rank stripe. -/
def kingRowGo (b : Board) (colour : Colour) (i : Int) :
    List Int → Except Err (List Sq)
  | [] => Except.ok []
  | j :: rest =>
    match boardGetE b (i, j) with
    | Except.error e => Except.error e
    | Except.ok v =>
      if v > 0 then
        match valToPiece v with
        | Except.error e => Except.error e
        | Except.ok none =>
          match kingRowGo b colour i rest with
          | Except.error e => Except.error e
          | Except.ok l => Except.ok ((i, j) :: l)
        | Except.ok (some pc) =>
          if pc.2 = colour then kingRowGo b colour i rest
          else
            match kingRowGo b colour i rest with
            | Except.error e => Except.error e
            | Except.ok l => Except.ok ((i, j) :: l)
      else
        match kingRowGo b colour i rest with
        | Except.error e => Except.error e
        | Except.ok l => Except.ok ((i, j) :: l)

/-- `Chess._king_fields` outer loop. -/
def kingGo (b : Board) (colour : Colour) (start : Sq) :
    List Int → Except Err (List Sq)
  | [] => Except.ok []
  | i :: rest =>
    match kingRowGo b colour i
        (intRange (max (start.2 - 1) 0) (min (start.2 + 2) 8)) with
    | Except.error e => Except.error e
    | Except.ok l =>
      match kingGo b colour start rest with
      | Except.error e => Except.error e
      | Except.ok l2 => Except.ok (l ++ l2)

/-- `Chess._king_fields`. -/
def kingFields (b : Board) (colour : Colour) (start : Sq) : Except Err (List Sq) :=
  kingGo b colour start (intRange (max (start.1 - 1) 0) (min (start.1 + 2) 8))

/-- `Chess._reachable_fields` (reads only `self.board` and
`self.enPassantTarget`, which are passed explicitly). -/
def reachableFields (b : Board) (ep : Option Sq) (coordinate : Sq) :
    Except Err (List Sq) :=
  match boardGetE b coordinate with
  | Except.error e => Except.error e
  | Except.ok v =>
    match valToPiece v with
    | Except.error e => Except.error e
    | Except.ok none => Except.ok []
    | Except.ok (some p) =>
      if p.1 = pawnV then pawnFields b ep coordinate p.2
      else if p.1 = knightV then knightFields b p.2 coordinate
      else if p.1 = bishopV then bishopFields b p.2 coordinate
      else if p.1 = rookV then rookFields b p.2 coordinate
      else if p.1 = queenV then
        match bishopFields b p.2 coordinate with
        | Except.error e => Except.error e
        | Except.ok l1 =>
          match rookFields b p.2 coordinate with
          | Except.error e => Except.error e
          | Except.ok l2 => Except.ok (l1 ++ l2)
      else if p.1 = kingV then kingFields b p.2 coordinate
      else Except.ok []

/-- `Chess._get_pieces_by_colour`: row-major scan for values strictly between
`colour` and `colour + 64` (`np.where`). -/
def piecesScan (b : Board) (colour : Colour) : List Sq :=
  List.flatten ((List.range 8).map (fun r =>
    (List.range 8).filterMap (fun f =>
      let v := boardGetD b r f
      if colourVal colour < v ∧ v < colourVal colour + 64 then
        some ((r : Int), (f : Int))
      else none)))

/-- Row-major scan for the king of a colour (`np.where(board == KING + colour)`). -/
def kingScan (b : Board) (colour : Colour) : List Sq :=
  List.flatten ((List.range 8).map (fun r =>
    (List.range 8).filterMap (fun f =>
      if boardGetD b r f = kingV + colourVal colour then
        some ((r : Int), (f : Int))
      else none)))

/-- `Chess.in_check` scan over the opposing pieces; stops at the first
attacker that reaches the king square. -/
def inCheckGo (b : Board) (ep : Option Sq) (kc : Sq) :
    List Sq → Except Err Bool
  | [] => Except.ok false
  | c :: rest =>
    match reachableFields b ep c with
    | Except.error e => Except.error e
    | Except.ok rf =>
      if kc ∈ rf then Except.ok true else inCheckGo b ep kc rest

/-- `Chess.in_check` (an absent king raises IndexError via `i[0]`). -/
def inCheckE (b : Board) (ep : Option Sq) (colour : Colour) : Except Err Bool :=
  match (kingScan b colour).head? with
  | none => Except.error Err.indexError
  | some kc => inCheckGo b ep kc (piecesScan b colour.opposite)

/-- Sequence two partial board mutations. -/
def bstep (r : Board × Option Err) (f : Board → Board × Option Err) :
    Board × Option Err :=
  match r with
  | (b, some e) => (b, some e)
  | (b, none) => f b

/-- One board write, keeping the unmodified board on IndexError. -/
def bset (b : Board) (sq : Sq) (v : Nat) : Board × Option Err :=
  match boardSetE b sq v with
  | Except.ok b2 => (b2, none)
  | Except.error e => (b, some e)

/-- The board mutations of `Chess._push_move` (everything after the
`lastFen` snapshot line; reads `self.enPassantTarget` as `ep`). -/
def pushBoard (b0 : Board) (ep : Option Sq) (start dst : Sq)
    (p : Nat × Colour) (promo : Nat) : Board × Option Err :=
  let r1 : Board × Option Err :=
    if p.1 = pawnV ∧ ep = some dst then bset b0 (start.1, dst.2) 0
    else (b0, none)
  bstep r1 (fun b1 =>
    let r2 : Board × Option Err :=
      if p.1 = kingV ∧ dst.2 - start.2 = 2 then
        match boardGetE b1 (start.1, 7) with
        | Except.error er => (b1, some er)
        | Except.ok v =>
          bstep (bset b1 (start.1, start.2 + 1) v) (fun bb => bset bb (start.1, 7) 0)
      else (b1, none)
    bstep r2 (fun b2 =>
      let r3 : Board × Option Err :=
        if p.1 = kingV ∧ dst.2 - start.2 = -2 then
          match boardGetE b2 (start.1, 0) with
          | Except.error er => (b2, some er)
          | Except.ok v =>
            bstep (bset b2 (start.1, start.2 - 1) v) (fun bb => bset bb (start.1, 0) 0)
        else (b2, none)
      bstep r3 (fun b3 =>
        match boardGetE b3 start with
        | Except.error er => (b3, some er)
        | Except.ok sv =>
          bstep (bset b3 dst sv) (fun b4 =>
            bstep (bset b4 start 0) (fun b5 =>
              if p.1 = pawnV ∧ (dst.1 = 0 ∨ dst.1 = 7) then
                bset b5 dst (pieceToVal promo p.2)
              else (b5, none))))))

/-- `Chess._push_move`: snapshot the FEN into `lastFen`, then mutate the
board. -/
def pushMoveOp (s : Chess) (start dst : Sq) (p : Nat × Colour) (promo : Nat) :
    Chess × Except Err Unit :=
  match getFenE s with
  | Except.error e => (s, Except.error e)
  | Except.ok f =>
    match pushBoard s.board s.enPassantTarget start dst p promo with
    | (b2, some e) => ({s with lastFen := f, board := b2}, Except.error e)
    | (b2, none) => ({s with lastFen := f, board := b2}, Except.ok ())

/-- `Chess._pop_move`. -/
def popMoveOp (s : Chess) : Chess × Except Err Unit := setFenE s s.lastFen

/-- The short-castling condition block of `legal_moves` (`and`
short-circuits, so board squares are only read while the previous conditions
held). -/
def castleShortE (s : Chess) (c : Sq) (p : Nat × Colour) : Except Err (List Sq) :=
  if shortCastle s p.2 then
    match boardGetE s.board (c.1, c.2 + 1) with
    | Except.error e => Except.error e
    | Except.ok v1 =>
      if v1 = 0 then
        match boardGetE s.board (c.1, c.2 + 2) with
        | Except.error e => Except.error e
        | Except.ok v2 =>
          Except.ok (if v2 = 0 then [((c.1, c.2 + 2) : Sq)] else [])
      else Except.ok []
  else Except.ok []

/-- The long-castling condition block of `legal_moves`. -/
def castleLongE (s : Chess) (c : Sq) (p : Nat × Colour) : Except Err (List Sq) :=
  if longCastle s p.2 then
    match boardGetE s.board (c.1, c.2 - 1) with
    | Except.error e => Except.error e
    | Except.ok v1 =>
      if v1 = 0 then
        match boardGetE s.board (c.1, c.2 - 2) with
        | Except.error e => Except.error e
        | Except.ok v2 =>
          if v2 = 0 then
            match boardGetE s.board (c.1, c.2 - 3) with
            | Except.error e => Except.error e
            | Except.ok v3 =>
              Except.ok (if v3 = 0 then [((c.1, c.2 - 2) : Sq)] else [])
          else Except.ok []
      else Except.ok []
  else Except.ok []

/-- The castling candidates appended by `legal_moves` (short side first). -/
def castleAppend (s : Chess) (c : Sq) (p : Nat × Colour) : Except Err (List Sq) :=
  if p.1 ≠ kingV then Except.ok [] else
  match castleShortE s c p with
  | Except.error e => Except.error e
  | Except.ok sh =>
    match castleLongE s c p with
    | Except.error e => Except.error e
    | Except.ok lo => Except.ok (sh ++ lo)

/-- The simulate / check / restore loop of `legal_moves`:
`_push_move` (promotion defaulting to queen), `in_check`, `_pop_move`. -/
def simLoop (coordinate : Sq) (p : Nat × Colour) :
    List Sq → List Sq → Chess → Chess × Except Err (List Sq)
  | [], acc, s => (s, Except.ok acc)
  | f :: rest, acc, s =>
    match pushMoveOp s coordinate f p queenV with
    | (s1, Except.error e) => (s1, Except.error e)
    | (s1, Except.ok _) =>
      match inCheckE s1.board s1.enPassantTarget p.2 with
      | Except.error e => (s1, Except.error e)
      | Except.ok chk =>
        match setFenE s1 s1.lastFen with
        | (s2, Except.error e) => (s2, Except.error e)
        | (s2, Except.ok _) =>
          simLoop coordinate p rest (if chk then acc else acc ++ [f]) s2

/-- `Chess.legal_moves`. -/
def legalMovesE (coordinate : Sq) (s : Chess) : Chess × Except Err (List Sq) :=
  match reachableFields s.board s.enPassantTarget coordinate with
  | Except.error e => (s, Except.error e)
  | Except.ok rf =>
    match boardGetE s.board coordinate with
    | Except.error e => (s, Except.error e)
    | Except.ok v =>
      match valToPiece v with
      | Except.error e => (s, Except.error e)
      | Except.ok none => (s, Except.ok [])
      | Except.ok (some p) =>
        match castleAppend s coordinate p with
        | Except.error e => (s, Except.error e)
        | Except.ok cas =>
          match simLoop coordinate p (rf ++ cas) [] s with
          | (s2, Except.error e) => (s2, Except.error e)
          | (s2, Except.ok lm) =>
            if p.1 = kingV then
              let lm2 :=
                if (coordinate.1, coordinate.2 + 2) ∈ lm ∧
                    (coordinate.1, coordinate.2 + 1) ∉ lm then
                  lm.erase (coordinate.1, coordinate.2 + 2)
                else lm
              let lm3 :=
                if (coordinate.1, coordinate.2 - 2) ∈ lm2 ∧
                    (coordinate.1, coordinate.2 - 1) ∉ lm2 then
                  lm2.erase (coordinate.1, coordinate.2 - 2)
                else lm2
              (s2, Except.ok lm3)
            else (s2, Except.ok lm)

/-- `Chess._repetition`: counts occurrences of the current snapshot's first
three space-separated fields (board, side, castling — the counters *and the
en-passant field* are not compared) among all recorded snapshots. -/
def repetitionE (s : Chess) : Except Err Bool :=
  match lookupA s.moves (hmc s) with
  | none => Except.error Err.keyError
  | some cur =>
    Except.ok (decide (2 <
      (s.moves.map (fun kv => (splitOnChar ' ' kv.2).take 3)).count
        ((splitOnChar ' ' cur).take 3)))

/-- The legal-move counting loop of `Chess.move` (checkmate / stalemate
detection). -/
def countLoop : List Sq → Nat → Chess → Chess × Except Err Nat
  | [], acc, s => (s, Except.ok acc)
  | c :: rest, acc, s =>
    match legalMovesE c s with
    | (s1, Except.error e) => (s1, Except.error e)
    | (s1, Except.ok lm) => countLoop rest (acc + lm.length) s1

/-- `Chess.move`: the two conditional en-passant-target assignments. -/
def epUpd (s3 : Chess) (start dst : Sq) (p : Nat × Colour) : Chess :=
  if p.1 = pawnV ∧ dst.1 - start.1 = 2 then
    {s3 with enPassantTarget := some (start.1 + 1, start.2)}
  else if p.1 = pawnV ∧ dst.1 - start.1 = -2 then
    {s3 with enPassantTarget := some (start.1 - 1, start.2)}
  else s3

/-- `Chess.move`: clearing both castling rights when the king moves. -/
def kingCastleUpd (s4 : Chess) (p : Nat × Colour) : Chess :=
  if p.1 = kingV then setShortCastle (setLongCastle s4 p.2 false) p.2 false
  else s4

/-- `Chess.move`: `start in map(str_to_coor, ('A1','A8'))` clears the
mover's queenside right. -/
def cornerLongUpd (s5 : Chess) (start : Sq) (p : Nat × Colour) : Chess :=
  if start = ((0 : Int), (0 : Int)) ∨ start = ((7 : Int), (0 : Int)) then
    setLongCastle s5 p.2 false
  else s5

/-- `Chess.move`: `start in map(str_to_coor, ('H1','H8'))` clears the
mover's kingside right. -/
def cornerShortUpd (s6 : Chess) (start : Sq) (p : Nat × Colour) : Chess :=
  if start = ((0 : Int), (7 : Int)) ∨ start = ((7 : Int), (7 : Int)) then
    setShortCastle s6 p.2 false
  else s6

/-- `Chess.move`: the half-move clock update. -/
def clockUpd (s8 : Chess) (p : Nat × Colour) (capV : Nat) : Chess :=
  if capV ≠ 0 ∨ p.1 = pawnV then {s8 with halfMoveClock := 0}
  else {s8 with halfMoveClock := s8.halfMoveClock + 1}

/-- `Chess.move`: the full-move counter update. -/
def counterUpd (s9 : Chess) : Chess :=
  if s9.toMove = Colour.white then {s9 with moveCounter := s9.moveCounter + 1}
  else s9

/-- The field-update block of `Chess.move` after `_push_move`: clearing and
re-adding the en-passant target, castling-right bookkeeping, flipping the
side to move, and the two clocks, in source order. -/
def moveUpdates (s2 : Chess) (start dst : Sq) (p : Nat × Colour) (capV : Nat) :
    Chess :=
  counterUpd (clockUpd
    ({cornerShortUpd (cornerLongUpd (kingCastleUpd
        (epUpd {s2 with enPassantTarget := none} start dst p) p) start p) start p
      with toMove :=
        (cornerShortUpd (cornerLongUpd (kingCastleUpd
          (epUpd {s2 with enPassantTarget := none} start dst p) p) start p)
          start p).toMove.opposite}) p capV)

/-- The tail of `Chess.move` once the move has been accepted: `_push_move`,
the field updates, the history record, and the draw / mate detections. -/
def moveApply (s1 : Chess) (start dst : Sq) (p : Nat × Colour) (promo : Nat)
    (capV : Nat) : Chess × Except Err (Sq × Sq) :=
  match pushMoveOp s1 start dst p promo with
  | (s2, Except.error e) => (s2, Except.error e)
  | (s2, Except.ok _) =>
    let s10 : Chess := moveUpdates s2 start dst p capV
    match getFenE s10 with
    | Except.error e => (s10, Except.error e)
    | Except.ok fenNew =>
      let s11 : Chess := {s10 with moves := insertA s10.moves (hmc s10) fenNew}
      match repetitionE s11 with
      | Except.error e => (s11, Except.error e)
      | Except.ok rep =>
        if rep then (s11, Except.error (Err.draw DrawReason.repetition))
        else
          match countLoop (piecesScan s11.board s11.toMove) 0 s11 with
          | (s12, Except.error e) => (s12, Except.error e)
          | (s12, Except.ok n) =>
            if n = 0 then
              match inCheckE s12.board s12.enPassantTarget s12.toMove with
              | Except.error e => (s12, Except.error e)
              | Except.ok chk =>
                if chk then (s12, Except.error Err.checkmate)
                else (s12, Except.error (Err.draw DrawReason.stalemate))
            else if s12.halfMoveClock ≥ 50 then
              (s12, Except.error (Err.draw DrawReason.fiftyMove))
            else (s12, Except.ok (start, dst))

/-- `Chess.move`. -/
def moveFn (s : Chess) (start dst : Sq) (promo : Nat) :
    Chess × Except Err (Sq × Sq) :=
  match boardGetE s.board start with
  | Except.error e => (s, Except.error e)
  | Except.ok v =>
    match valToPiece v with
    | Except.error e => (s, Except.error e)
    | Except.ok none => (s, Except.error Err.noPiecePresent)
    | Except.ok (some p) =>
      if p.2 ≠ s.toMove then (s, Except.error Err.notYourTurn)
      else
        match legalMovesE start s with
        | (s1, Except.error e) => (s1, Except.error e)
        | (s1, Except.ok lm) =>
          if dst ∉ lm then (s1, Except.error Err.illegalMove)
          else
            match boardGetE s1.board dst with
            | Except.error e => (s1, Except.error e)
            | Except.ok capV => moveApply s1 start dst p promo capV

/-- `Chess.revert_move`. -/
def revertMoveE (s : Chess) : Chess × Except Err Unit :=
  match lookupA s.moves (hmc s - 1) with
  | some f => setFenE s f
  | none => loadStartE s

/-- `Chess.get_piece` (catches IndexError only, returning `None`). -/
def getPieceE (s : Chess) (coordinate : Sq) : Except Err (Option (Nat × Colour)) :=
  match boardGetE s.board coordinate with
  | Except.error Err.indexError => Except.ok none
  | Except.error e => Except.error e
  | Except.ok v => valToPiece v

/-- A freshly constructed `Chess()` (the class-attribute defaults). -/
def chessInit : Chess :=
  { board := zeroBoard
    toMove := Colour.white
    enPassantTarget := none
    longCastleW := true
    longCastleB := true
    shortCastleW := true
    shortCastleB := true
    halfMoveClock := 0
    moveCounter := 1
    moves := []
    lastFen := [] }

/-! ### Validity, pure characterizations and auxiliary notions used by the
theorems. -/

/-- A cell is empty or holds one of the twelve encoded pieces. -/
def validCellB (v : Nat) : Bool := v == 0 || (valuePiece v).isSome

/-- An 8x8 board whose cells are all valid. -/
def validBoardB (b : Board) : Bool :=
  b.length == 8 && b.all (fun row => row.length == 8 && row.all validCellB)

/-- The en-passant target, if set, is a real square. -/
def validEpB : Option Sq → Bool
  | none => true
  | some (r, f) => decide (0 ≤ r ∧ r < 8 ∧ 0 ≤ f ∧ f < 8)

/-- A valid position: the notion of "position" the specification's claims
quantify over (always true of states built by `set_fen` / reached by play). -/
def validB (s : Chess) : Bool :=
  validBoardB s.board && validEpB s.enPassantTarget

/-- Equality of the six FEN-visible field groups (everything `get_fen`
reads). -/
def CoreEq (s t : Chess) : Prop :=
  s.board = t.board ∧ s.toMove = t.toMove ∧ s.enPassantTarget = t.enPassantTarget ∧
  s.longCastleW = t.longCastleW ∧ s.longCastleB = t.longCastleB ∧
  s.shortCastleW = t.shortCastleW ∧ s.shortCastleB = t.shortCastleB ∧
  s.halfMoveClock = t.halfMoveClock ∧ s.moveCounter = t.moveCounter

/-- The net state effect of one simulate-and-restore cycle of `legal_moves`
on a valid state: `lastFen` holds the snapshot and the history entry for the
current ply is (re)written with the canonical FEN. -/
def stab (s : Chess) (fenS : List Char) : Chess :=
  {s with lastFen := fenS, moves := insertA s.moves (hmc s) fenS}

/-- The board produced by simulating candidate `f` from square `c`
(promotion defaulting to queen, as in `legal_moves`). -/
def pushedBoard (s : Chess) (c f : Sq) (p : Nat × Colour) : Board × Option Err :=
  pushBoard s.board s.enPassantTarget c f p queenV

/-- The outcome of checking one candidate move: simulate it on the board and
ask whether the mover is then in check. -/
def candCheck (s : Chess) (c : Sq) (p : Nat × Colour) (f : Sq) : Except Err Bool :=
  match pushedBoard s c f p with
  | (_, some e) => Except.error e
  | (b2, none) => inCheckE b2 s.enPassantTarget p.2

/-- The castling post-filter of `legal_moves` (two sequential conditional
`remove` calls). -/
def postFilter (c : Sq) (lm : List Sq) : List Sq :=
  let lm2 :=
    if (c.1, c.2 + 2) ∈ lm ∧ (c.1, c.2 + 1) ∉ lm then lm.erase (c.1, c.2 + 2)
    else lm
  if (c.1, c.2 - 2) ∈ lm2 ∧ (c.1, c.2 - 1) ∉ lm2 then lm2.erase (c.1, c.2 - 2)
  else lm2

/-- Pure value of `legal_moves` on a valid state, given the piece and the
candidate list. -/
def pureLM (s : Chess) (c : Sq) (p : Nat × Colour) (cands : List Sq) : List Sq :=
  let lm := cands.filter (fun f => decide (candCheck s c p f = Except.ok false))
  if p.1 = kingV then postFilter c lm else lm

/-- `move` results that mean the move was accepted and fully applied
(normal return, or one of the game-ending conditions raised after the state
transition). -/
def goodOutcome (r : Except Err (Sq × Sq)) : Prop :=
  (∃ a, r = Except.ok a) ∨ r = Except.error Err.checkmate ∨
  r = Except.error (Err.draw DrawReason.stalemate) ∨
  r = Except.error (Err.draw DrawReason.fiftyMove) ∨
  r = Except.error (Err.draw DrawReason.repetition)

/-- Positions reachable from the standard start through accepted moves
(promotion restricted to real piece kinds). -/
inductive Reachable : Chess → Prop where
  | start : Reachable (loadStartE chessInit).1
  | step {s s2 : Chess} {a b : Sq} {promo : Nat} {r : Except Err (Sq × Sq)} :
      Reachable s → promo ∈ pieceKinds → moveFn s a b promo = (s2, r) →
      goodOutcome r → Reachable s2

/-- First three space-separated fields of a FEN record
(board, side to move, castling rights). -/
def prefix3 (f : List Char) : List (List Char) := (splitOnChar ' ' f).take 3

/-- First four space-separated fields of a FEN record
(board, side to move, castling rights, en-passant target). -/
def prefix4 (f : List Char) : List (List Char) := (splitOnChar ' ' f).take 4

/-! ### Concrete positions used as counterexamples and witnesses. -/

/-- All-empty rank. -/
def z8 : List Nat := List.replicate 8 0

/-- The engine right after `load_start()`. -/
def sStart : Chess := (loadStartE chessInit).1

/-- A FEN accepted by `set_fen` whose half-move field `00` is not in the
canonical form `get_fen` would produce. -/
def fenInjC2 : List Char := ("4k3/8/8/8/8/8/8/4K2R w K - 00 1").toList

/-- State obtained by feeding `fenInjC2` to `set_fen`. -/
def sC2 : Chess := (setFenE chessInit fenInjC2).1

/-- White Ke1 and Rh1 with the white kingside right, black Re8 pinning the
white king on the open e-file, black Ka8: white is in check yet castling
kingside is offered. -/
def sC3 : Chess :=
  { board := [[0, 0, 0, 0, 32, 0, 0, 8], z8, z8, z8, z8, z8, z8,
              [96, 0, 0, 0, 72, 0, 0, 0]]
    toMove := Colour.white
    enPassantTarget := none
    longCastleW := false
    longCastleB := false
    shortCastleW := true
    shortCastleB := false
    halfMoveClock := 0
    moveCounter := 1
    moves := []
    lastFen := [] }

/-- Position (set via `set_fen`) with a black pawn on e4 and the en-passant
target injected as e3: the straight advance e4-e3 lands on the target. -/
def fenC4 : List Char := ("4k3/8/8/8/4p3/8/8/4K3 b - e3 0 1").toList

/-- State obtained by feeding `fenC4` to `set_fen`. -/
def sC4 : Chess := (setFenE chessInit fenC4).1

/-- History snapshot whose en-passant field is `e6`. -/
def f1C5 : List Char := ("4k3/8/8/8/8/8/7R/4K3 b - e6 0 1").toList

/-- History snapshot equal to `f1C5` in board/side/castling but with an
empty en-passant field. -/
def f2C5 : List Char := ("4k3/8/8/8/8/8/7R/4K3 b - - 1 2").toList

/-- White Ke1/Rh1 vs black Ke8, with a history containing `f1C5` and
`f2C5`: after Rh1-h2 the board/side/castling fields recur a third time even
though `f1C5` differs in its en-passant field. -/
def sC5 : Chess :=
  { board := [[0, 0, 0, 0, 32, 0, 0, 8], z8, z8, z8, z8, z8, z8,
              [0, 0, 0, 0, 96, 0, 0, 0]]
    toMove := Colour.white
    enPassantTarget := none
    longCastleW := false
    longCastleB := false
    shortCastleW := false
    shortCastleB := false
    halfMoveClock := 0
    moveCounter := 2
    moves := [(0, f1C5), (1, f2C5)]
    lastFen := [] }

/-- White Ke1/Rh2 vs black Ke8 with the half-move clock at 49 plies. -/
def sC6 : Chess :=
  { board := [[0, 0, 0, 0, 32, 0, 0, 0], [0, 0, 0, 0, 0, 0, 0, 8],
              z8, z8, z8, z8, z8, [0, 0, 0, 0, 96, 0, 0, 0]]
    toMove := Colour.white
    enPassantTarget := none
    longCastleW := false
    longCastleB := false
    shortCastleW := false
    shortCastleB := false
    halfMoveClock := 49
    moveCounter := 40
    moves := []
    lastFen := [] }

/-- Black rook on a1 (white's corner), black king e8, white king h1, with
black still holding its queenside castling right. -/
def sC7 : Chess :=
  { board := [[72, 0, 0, 0, 0, 0, 0, 32], z8, z8, z8, z8, z8, z8,
              [0, 0, 0, 0, 96, 0, 0, 0]]
    toMove := Colour.black
    enPassantTarget := none
    longCastleW := false
    longCastleB := true
    shortCastleW := false
    shortCastleB := false
    halfMoveClock := 0
    moveCounter := 5
    moves := []
    lastFen := [] }

/-- The en-passant block computed inside `get_fen`. -/
def epBlockOf (s : Chess) : Except Err (List Char) :=
  match s.enPassantTarget with
  | none => Except.ok ['-']
  | some c => coorToStr c

/-- Overlay the cells of `row` onto `curr` starting at `pos`, skipping the
cells that do not encode a piece (the decoder leaves those file positions
untouched). -/
def overlay (curr : List Nat) : Nat → List Nat → List Nat
  | _, [] => curr
  | pos, v :: rest =>
    match valuePiece v with
    | some _ => overlay (curr.set pos v) (pos + 1) rest
    | none => overlay curr (pos + 1) rest

/-- Replace the rows of `B` from index `k` on by `rows`. -/
def replaceFrom (B : Board) : Nat → List (List Nat) → Board
  | _, [] => B
  | k, r :: rest => replaceFrom (B.set k r) (k + 1) rest

/-- Errors that model Python system exceptions (IndexError, KeyError,
ValueError, ChessException base, InvalidSquare) as opposed to the game
outcomes `move` itself raises. -/
def sysErrB : Err → Bool
  | Err.indexError => true
  | Err.keyError => true
  | Err.valueError => true
  | Err.chessErr => true
  | Err.invalidSquare => true
  | _ => false

/-- The state right after `_push_move` inside an accepted `move` call on a
valid position: the `legal_moves` net effect (`stab`), the new `lastFen`
snapshot and the mutated board. -/
def midState (s : Chess) (fenS : List Char) (bpush : Board) : Chess :=
  {stab s fenS with lastFen := fenS, board := bpush}

/-- The state at the history-record point of an accepted `move` call (after
the field updates and `self.moves[...] = self.get_fen()`). -/
def postMove (s : Chess) (fenS : List Char) (bpush : Board) (start dst : Sq)
    (p : Nat × Colour) (capV : Nat) (fenNew : List Char) : Chess :=
  {moveUpdates (midState s fenS bpush) start dst p capV with
    moves :=
      insertA (moveUpdates (midState s fenS bpush) start dst p capV).moves
        (hmc (moveUpdates (midState s fenS bpush) start dst p capV)) fenNew}

/-! ### Numeral round-trip lemmas (`str` / `int`). -/

theorem digitChar_isDigit (d : Nat) (h : d < 10) : (digitChar d).isDigit = true := by
  interval_cases d <;> decide

theorem digitChar_toNat (d : Nat) (h : d < 10) : (digitChar d).toNat = 48 + d := by
  interval_cases d <;> decide

theorem digitChar_ne_dash (d : Nat) (h : d < 10) : digitChar d ≠ '-' := by
  interval_cases d <;> decide

theorem isDigit_ne_space {c : Char} (h : c.isDigit = true) : c ≠ ' ' := by
  rintro rfl; simp at h

theorem isDigit_ne_slash {c : Char} (h : c.isDigit = true) : c ≠ '/' := by
  rintro rfl; simp at h

theorem repNatAux_digits :
    ∀ fuel n, n < fuel → ∀ c ∈ repNatAux fuel n, c.isDigit = true := by
  intro fuel
  induction fuel with
  | zero => intro n h; omega
  | succ fuel ih =>
    intro n h c hc
    by_cases h10 : n < 10
    · simp only [repNatAux, if_pos h10, List.mem_singleton] at hc
      subst hc; exact digitChar_isDigit n h10
    · simp only [repNatAux, if_neg h10, List.mem_append, List.mem_singleton] at hc
      rcases hc with hc | hc
      · exact ih (n / 10) (by omega) c hc
      · subst hc; exact digitChar_isDigit (n % 10) (by omega)

theorem repNatAux_ne_nil (fuel n : Nat) (h : n < fuel) : repNatAux fuel n ≠ [] := by
  cases fuel with
  | zero => omega
  | succ fuel =>
    by_cases h10 : n < 10 <;> simp [repNatAux, h10]

theorem parseNatGo_digit (d : Nat) (h : d < 10) (rest : List Char) (acc : Nat) :
    parseNatGo (digitChar d :: rest) acc = parseNatGo rest (acc * 10 + d) := by
  simp [parseNatGo, digitChar_isDigit d h, digitChar_toNat d h]

theorem parseNatGo_append (a b : List Char) (acc : Nat) :
    parseNatGo (a ++ b) acc = (parseNatGo a acc).bind (fun m => parseNatGo b m) := by
  induction a generalizing acc with
  | nil => simp [parseNatGo]
  | cons c rest ih =>
    by_cases hc : c.isDigit = true
    · simp [parseNatGo, hc, ih]
    · simp [parseNatGo, hc]

theorem repNatAux_parse (fuel : Nat) :
    ∀ n acc, n < fuel →
      parseNatGo (repNatAux fuel n) acc =
        some (acc * 10 ^ (repNatAux fuel n).length + n) := by
  induction fuel with
  | zero => intro n acc h; omega
  | succ fuel ih =>
    intro n acc h
    by_cases h10 : n < 10
    · simp only [repNatAux, if_pos h10]
      rw [parseNatGo_digit n h10]
      simp [parseNatGo]
    · simp only [repNatAux, if_neg h10]
      have hdiv : n / 10 < fuel := by
        have := Nat.div_lt_self (by omega : 0 < n) (by omega : 1 < 10)
        omega
      rw [parseNatGo_append, ih (n / 10) acc hdiv, Option.some_bind,
        parseNatGo_digit (n % 10) (by omega)]
      simp only [parseNatGo, List.length_append, List.length_singleton]
      have hn : 10 * (n / 10) + n % 10 = n := Nat.div_add_mod n 10
      generalize (repNatAux fuel (n / 10)).length = k
      congr 1
      calc (acc * 10 ^ k + n / 10) * 10 + n % 10
          = acc * 10 ^ (k + 1) + (10 * (n / 10) + n % 10) := by ring
        _ = acc * 10 ^ (k + 1) + n := by rw [hn]

theorem parseNat_repNat (n : Nat) : parseNat (repNat n) = some n := by
  have hne := repNatAux_ne_nil (n + 1) n (by omega)
  have hp := repNatAux_parse (n + 1) n 0 (by omega)
  unfold repNat parseNat
  match hrep : repNatAux (n + 1) n with
  | [] => exact absurd hrep hne
  | c :: rest =>
    rw [hrep] at hp
    simpa using hp

theorem repNat_head_digit (n : Nat) :
    ∃ d rest, repNat n = digitChar d :: rest ∧ d < 10 := by
  unfold repNat
  generalize hk : n + 1 = fuel
  have h : n < fuel := by omega
  clear hk
  induction fuel generalizing n with
  | zero => omega
  | succ fuel ih =>
    by_cases h10 : n < 10
    · exact ⟨n, [], by simp [repNatAux, h10], h10⟩
    · obtain ⟨d, rest, hd, hdlt⟩ := ih (n / 10) (by
        have := Nat.div_lt_self (by omega : 0 < n) (by omega : 1 < 10)
        omega)
      refine ⟨d, rest ++ [digitChar (n % 10)], ?_, hdlt⟩
      simp [repNatAux, h10, hd]

theorem parseInt_dash (rest : List Char) :
    parseInt ('-' :: rest) =
      match parseNat rest with
      | some n => Except.ok (-(n : Int))
      | none => Except.error Err.valueError := rfl

theorem parseInt_nodash (s : List Char) (h : ∀ rest, s ≠ '-' :: rest) :
    parseInt s =
      match parseNat s with
      | some n => Except.ok ((n : Int))
      | none => Except.error Err.valueError := by
  unfold parseInt
  split
  · exact absurd rfl (h _)
  · rfl

theorem parseInt_repInt (n : Int) : parseInt (repInt n) = Except.ok n := by
  by_cases hn : n < 0
  · rw [show repInt n = '-' :: repNat (-n).toNat by simp [repInt, hn]]
    rw [parseInt_dash, parseNat_repNat]
    show Except.ok (-(((-n).toNat : Nat) : Int)) = Except.ok n
    have h2 : (((-n).toNat : Nat) : Int) = -n := by omega
    rw [h2]
    simp
  · rw [show repInt n = repNat n.toNat by simp [repInt, hn]]
    obtain ⟨d, rest, hd, hdlt⟩ := repNat_head_digit n.toNat
    rw [parseInt_nodash _ (by
      intro r hr
      rw [hd] at hr
      have : digitChar d = '-' := (List.cons_eq_cons.mp hr).1
      exact digitChar_ne_dash d hdlt this)]
    rw [parseNat_repNat]
    show Except.ok ((n.toNat : Nat) : Int) = Except.ok n
    have h2 : ((n.toNat : Nat) : Int) = n := by omega
    rw [h2]

/-! ### Split / join / strip lemmas. -/

theorem splitOnCharGo_no_sep (sep : Char) :
    ∀ (x s2 cur : List Char), (∀ c ∈ x, c ≠ sep) →
      splitOnCharGo sep (x ++ s2) cur = splitOnCharGo sep s2 (x.reverse ++ cur) := by
  intro x
  induction x with
  | nil => intro s2 cur _; simp
  | cons c rest ih =>
    intro s2 cur h
    have hc : c ≠ sep := h c (by simp)
    simp only [List.cons_append, splitOnCharGo, if_neg hc, List.append_eq]
    rw [ih s2 (c :: cur) (fun d hd => h d (by simp [hd]))]
    simp

theorem splitOnChar_block (sep : Char) (x rest : List Char)
    (h : ∀ c ∈ x, c ≠ sep) :
    splitOnChar sep (x ++ sep :: rest) = x :: splitOnChar sep rest := by
  unfold splitOnChar
  rw [splitOnCharGo_no_sep sep x (sep :: rest) [] h]
  simp [splitOnCharGo]

theorem splitOnChar_single (sep : Char) (x : List Char) (h : ∀ c ∈ x, c ≠ sep) :
    splitOnChar sep x = [x] := by
  have := splitOnCharGo_no_sep sep x [] [] h
  unfold splitOnChar
  rw [← List.append_nil x]
  rw [this]
  simp [splitOnCharGo]

/-- `'/'.join` (the join used by `get_fen` for the rank blocks). -/
theorem splitOnChar_joinSep (sep : Char) :
    ∀ (ls : List (List Char)), ls ≠ [] → (∀ l ∈ ls, ∀ c ∈ l, c ≠ sep) →
      splitOnChar sep (joinSep sep ls) = ls := by
  intro ls
  induction ls with
  | nil => intro h; exact absurd rfl h
  | cons x rest ih =>
    intro _ h
    cases rest with
    | nil =>
      exact splitOnChar_single sep x (h x (by simp))
    | cons y rest2 =>
      have hx : ∀ c ∈ x, c ≠ sep := h x (by simp)
      rw [show joinSep sep (x :: y :: rest2) = x ++ sep :: joinSep sep (y :: rest2) from rfl]
      rw [splitOnChar_block sep x _ hx]
      rw [ih (by simp) (fun l hl => h l (by simp [hl]))]

theorem dropWhile_eq_self_of_head (p : Char → Bool) (l : List Char)
    (h : ∀ c, l.head? = some c → p c = false) : l.dropWhile p = l := by
  cases l with
  | nil => rfl
  | cons c rest => simp [List.dropWhile, h c rfl]

theorem trimChars_eq_self (s : List Char)
    (h1 : ∀ c, s.head? = some c → isSpaceChar c = false)
    (h2 : ∀ c, s.getLast? = some c → isSpaceChar c = false) :
    trimChars s = s := by
  unfold trimChars
  rw [dropWhile_eq_self_of_head _ s h1]
  rw [dropWhile_eq_self_of_head _ s.reverse (fun c hc => h2 c (by
    rwa [List.head?_reverse] at hc))]
  simp

/-! ### Character classification of the generated FEN blocks. -/

theorem valuePiece_char (v : Nat) (ch : Char) (h : valuePiece v = some ch) :
    ch ≠ ' ' ∧ ch ≠ '/' ∧ ch.isDigit = false := by
  unfold valuePiece at h
  split at h <;> simp_all <;> subst h <;> decide

theorem repNat_chars (n : Nat) : ∀ c ∈ repNat n, c ≠ ' ' ∧ c ≠ '/' := by
  intro c hc
  have hd := repNatAux_digits (n + 1) n (by omega) c hc
  exact ⟨isDigit_ne_space hd, isDigit_ne_slash hd⟩

theorem repInt_chars (n : Int) : ∀ c ∈ repInt n, c ≠ ' ' ∧ c ≠ '/' := by
  intro c hc
  by_cases hn : n < 0
  · rw [show repInt n = '-' :: repNat (-n).toNat by simp [repInt, hn]] at hc
    rcases List.mem_cons.mp hc with hc | hc
    · subst hc; exact ⟨by decide, by decide⟩
    · exact repNat_chars _ c hc
  · rw [show repInt n = repNat n.toNat by simp [repInt, hn]] at hc
    exact repNat_chars _ c hc

theorem encRowGo_chars :
    ∀ (row : List Nat) (z : Nat), ∀ c ∈ encRowGo row z, c ≠ ' ' ∧ c ≠ '/' := by
  intro row
  induction row with
  | nil =>
    intro z c hc
    by_cases hz : z > 0
    · simp only [encRowGo, if_pos hz] at hc
      exact repNat_chars z c hc
    · simp [encRowGo, hz] at hc
  | cons v rest ih =>
    intro z c hc
    cases hch : valuePiece v with
    | some ch =>
      have he : encRowGo (v :: rest) z =
          (if z > 0 then repNat z else []) ++ ch :: encRowGo rest 0 := by
        simp only [encRowGo, hch]
      rw [he] at hc
      simp only [List.mem_append, List.mem_cons] at hc
      rcases hc with hc | hc | hc
      · by_cases hz : z > 0
        · rw [if_pos hz] at hc; exact repNat_chars z c hc
        · rw [if_neg hz] at hc; simp at hc
      · subst hc
        have := valuePiece_char v c hch
        exact ⟨this.1, this.2.1⟩
      · exact ih 0 c hc
    | none =>
      have he : encRowGo (v :: rest) z = encRowGo rest (z + 1) := by
        simp only [encRowGo, hch]
      rw [he] at hc
      exact ih (z + 1) c hc

theorem encRowGo_ne_nil :
    ∀ (row : List Nat) (z : Nat), row ≠ [] ∨ 0 < z → encRowGo row z ≠ [] := by
  intro row
  induction row with
  | nil =>
    intro z h
    rcases h with h | h
    · exact absurd rfl h
    · simp only [encRowGo, if_pos h]
      exact repNatAux_ne_nil (z + 1) z (by omega)
  | cons v rest ih =>
    intro z _
    simp only [encRowGo]
    split
    · simp
    · exact ih (z + 1) (Or.inr (by omega))

theorem encRow_chars (row : List Nat) : ∀ c ∈ encRow row, c ≠ ' ' ∧ c ≠ '/' :=
  encRowGo_chars row 0

theorem joinSep_chars (sep : Char) :
    ∀ (ls : List (List Char)), (∀ l ∈ ls, ∀ c ∈ l, c ≠ ' ') → sep ≠ ' ' →
      ∀ c ∈ joinSep sep ls, c ≠ ' ' := by
  intro ls
  induction ls with
  | nil => intro _ _ c hc; simp [joinSep] at hc
  | cons x rest ih =>
    intro h hsep c hc
    cases rest with
    | nil => exact h x (by simp) c hc
    | cons y rest2 =>
      rw [show joinSep sep (x :: y :: rest2) = x ++ sep :: joinSep sep (y :: rest2)
        from rfl] at hc
      simp only [List.mem_append, List.mem_cons] at hc
      rcases hc with hc | hc | hc
      · exact h x (by simp) c hc
      · subst hc; exact hsep
      · exact ih (fun l hl => h l (by simp [hl])) hsep c hc

theorem encBoard_chars (b : Board) : ∀ c ∈ encBoard b, c ≠ ' ' := by
  intro c hc
  unfold encBoard at hc
  refine joinSep_chars '/' _ ?_ (by decide) c hc
  intro l hl d hd
  simp only [List.mem_map] at hl
  obtain ⟨row, _, hrow⟩ := hl
  subst hrow
  exact (encRow_chars row d hd).1

theorem castleBlock_chars (s : Chess) : ∀ c ∈ castleBlock s, c ≠ ' ' := by
  unfold castleBlock
  generalize s.shortCastleW = a
  generalize s.longCastleW = b
  generalize s.shortCastleB = c
  generalize s.longCastleB = d
  cases a <;> cases b <;> cases c <;> cases d <;> decide

theorem rankChar_ne_space {x : Int} {ch : Char} (h : rankChar x = some ch) :
    ch ≠ ' ' := by
  unfold rankChar at h
  split at h <;>
    first
      | (injection h with h2; subst h2; decide)
      | exact Option.noConfusion h

theorem fileChar_ne_space {x : Int} {ch : Char} (h : fileChar x = some ch) :
    ch ≠ ' ' := by
  unfold fileChar at h
  split at h <;>
    first
      | (injection h with h2; subst h2; decide)
      | exact Option.noConfusion h

theorem coorToStr_chars {sq : Sq} {l : List Char} (h : coorToStr sq = Except.ok l) :
    ∀ c ∈ l, c ≠ ' ' := by
  unfold coorToStr at h
  split at h
  · rename_i rc fc hrc hfc
    cases h
    intro c hc
    simp only [List.mem_cons, List.mem_singleton] at hc
    rcases hc with hc | hc | hc
    · subst hc; exact fileChar_ne_space hfc
    · subst hc; exact rankChar_ne_space hrc
    · simp at hc
  · cases h

/-! ### Shape of the generated FEN and its six-block decomposition. -/

theorem coorToStr_shape {sq : Sq} {l : List Char} (h : coorToStr sq = Except.ok l) :
    ∃ fc rc, l = [fc, rc] ∧ rankChar sq.1 = some rc ∧ fileChar sq.2 = some fc := by
  unfold coorToStr at h
  split at h
  · rename_i rc fc hrc hfc
    cases h
    exact ⟨fc, rc, rfl, hrc, hfc⟩
  · cases h

theorem getFen_eq_blocks (s : Chess) (epB : List Char)
    (hep : epBlockOf s = Except.ok epB) :
    getFenE s = Except.ok
      (encBoard s.board ++ ' ' ::
        ((if s.toMove = Colour.white then ['w'] else ['b']) ++ ' ' ::
          (castleBlock s ++ ' ' ::
            (epB ++ ' ' ::
              (repInt s.halfMoveClock ++ ' ' :: repInt s.moveCounter))))) := by
  unfold getFenE
  unfold epBlockOf at hep
  rw [hep]
  simp [List.append_assoc]

theorem epBlock_chars {s : Chess} {epB : List Char} (hep : epBlockOf s = Except.ok epB) :
    (∀ c ∈ epB, c ≠ ' ') ∧ epB ≠ [] := by
  unfold epBlockOf at hep
  cases hs : s.enPassantTarget with
  | none =>
    rw [hs] at hep
    cases hep
    exact ⟨by decide, by decide⟩
  | some c =>
    rw [hs] at hep
    obtain ⟨fc, rc, hl, hrc, hfc⟩ := coorToStr_shape hep
    subst hl
    refine ⟨?_, by simp⟩
    intro d hd
    simp only [List.mem_cons, List.mem_singleton] at hd
    rcases hd with hd | hd | hd
    · subst hd; exact fileChar_ne_space hfc
    · subst hd; exact rankChar_ne_space hrc
    · simp at hd

theorem joinSep_head (sep : Char) (x : List Char) (rest : List (List Char))
    (hx : x ≠ []) : (joinSep sep (x :: rest)).head? = x.head? := by
  cases rest with
  | nil => rfl
  | cons y r2 =>
    rw [show joinSep sep (x :: y :: r2) = x ++ sep :: joinSep sep (y :: r2) from rfl]
    exact List.head?_append_of_ne_nil x hx

theorem getLast?_cons_of_ne_nil {a : Char} {l : List Char} (h : l ≠ []) :
    (a :: l).getLast? = l.getLast? := by
  cases l with
  | nil => exact absurd rfl h
  | cons b r => exact List.getLast?_cons_cons

theorem repNat_getLast (n : Nat) :
    ∃ d, d < 10 ∧ (repNat n).getLast? = some (digitChar d) := by
  unfold repNat
  generalize hk : n + 1 = fuel
  have h : n < fuel := by omega
  clear hk
  induction fuel generalizing n with
  | zero => omega
  | succ fuel ih =>
    by_cases h10 : n < 10
    · exact ⟨n, h10, by simp [repNatAux, h10]⟩
    · refine ⟨n % 10, by omega, ?_⟩
      simp only [repNatAux, if_neg h10]
      rw [List.getLast?_append_of_ne_nil _ (by simp)]
      rfl

theorem repInt_getLast (n : Int) :
    ∃ d, d < 10 ∧ (repInt n).getLast? = some (digitChar d) := by
  by_cases hn : n < 0
  · rw [show repInt n = '-' :: repNat (-n).toNat by simp [repInt, hn]]
    obtain ⟨d, hd, hl⟩ := repNat_getLast (-n).toNat
    refine ⟨d, hd, ?_⟩
    have hne : repNat (-n).toNat ≠ [] :=
      repNatAux_ne_nil ((-n).toNat + 1) ((-n).toNat) (by omega)
    rw [getLast?_cons_of_ne_nil hne]
    exact hl
  · rw [show repInt n = repNat n.toNat by simp [repInt, hn]]
    exact repNat_getLast n.toNat

theorem isDigit_isSpace {c : Char} (h : c.isDigit = true) : isSpaceChar c = false := by
  have h1 : c ≠ ' ' := by rintro rfl; simp at h
  have h2 : c ≠ '\t' := by rintro rfl; simp at h
  have h3 : c ≠ '\n' := by rintro rfl; simp at h
  have h4 : c ≠ '\r' := by rintro rfl; simp at h
  simp [isSpaceChar, h1, h2, h3, h4]

theorem valuePiece_isSpace (v : Nat) (ch : Char) (h : valuePiece v = some ch) :
    isSpaceChar ch = false := by
  unfold valuePiece at h
  split at h <;> simp_all <;> subst h <;> decide

theorem encRowGo_isSpace :
    ∀ (row : List Nat) (z : Nat), ∀ c ∈ encRowGo row z, isSpaceChar c = false := by
  intro row
  induction row with
  | nil =>
    intro z c hc
    by_cases hz : z > 0
    · simp only [encRowGo, if_pos hz] at hc
      exact isDigit_isSpace (repNatAux_digits (z + 1) z (by omega) c hc)
    · simp [encRowGo, hz] at hc
  | cons v rest ih =>
    intro z c hc
    cases hch : valuePiece v with
    | some ch =>
      have he : encRowGo (v :: rest) z =
          (if z > 0 then repNat z else []) ++ ch :: encRowGo rest 0 := by
        simp only [encRowGo, hch]
      rw [he] at hc
      simp only [List.mem_append, List.mem_cons] at hc
      rcases hc with hc | hc | hc
      · by_cases hz : z > 0
        · rw [if_pos hz] at hc
          exact isDigit_isSpace (repNatAux_digits (z + 1) z (by omega) c hc)
        · rw [if_neg hz] at hc; simp at hc
      · subst hc
        exact valuePiece_isSpace v c hch
      · exact ih 0 c hc
    | none =>
      have he : encRowGo (v :: rest) z = encRowGo rest (z + 1) := by
        simp only [encRowGo, hch]
      rw [he] at hc
      exact ih (z + 1) c hc

theorem encBoard_head {s : Chess} (hlen : s.board.length = 8)
    (hrows : ∀ row ∈ s.board, row.length = 8) :
    ∃ c, (encBoard s.board).head? = some c ∧ isSpaceChar c = false := by
  unfold encBoard
  match hb : s.board.reverse with
  | [] =>
    have : s.board = [] := by simpa using congrArg List.reverse hb
    rw [this] at hlen; simp at hlen
  | row :: rest =>
    have hrow : row ∈ s.board := by
      have : row ∈ s.board.reverse := by rw [hb]; simp
      simpa using this
    have hrne : row ≠ [] := by
      intro hcon
      have := hrows row hrow
      rw [hcon] at this
      simp at this
    have hene : encRow row ≠ [] := encRowGo_ne_nil row 0 (Or.inl hrne)
    rw [List.map_cons]
    rw [joinSep_head '/' (encRow row) _ hene]
    match hh : (encRow row).head? with
    | none => rw [List.head?_eq_none_iff] at hh; exact absurd hh hene
    | some c =>
      exact ⟨c, rfl, encRowGo_isSpace row 0 c (List.mem_of_mem_head? hh)⟩

theorem repInt_ne_nil (n : Int) : repInt n ≠ [] := by
  by_cases hn : n < 0
  · simp [repInt, hn]
  · rw [show repInt n = repNat n.toNat by simp [repInt, hn]]
    exact repNatAux_ne_nil (n.toNat + 1) n.toNat (by omega)

/-- The six space-separated blocks of a FEN produced by `get_fen` on an
8x8-shaped board. -/
theorem fen_trim_split (s : Chess) (f epB : List Char)
    (hlen : s.board.length = 8) (hrows : ∀ row ∈ s.board, row.length = 8)
    (hep : epBlockOf s = Except.ok epB)
    (hf : getFenE s = Except.ok f) :
    splitOnChar ' ' (trimChars f) =
      [encBoard s.board, (if s.toMove = Colour.white then ['w'] else ['b']),
       castleBlock s, epB, repInt s.halfMoveClock, repInt s.moveCounter] := by
  have hfe := getFen_eq_blocks s epB hep
  rw [hf] at hfe
  have hfeq : f = encBoard s.board ++ ' ' ::
      ((if s.toMove = Colour.white then ['w'] else ['b']) ++ ' ' ::
        (castleBlock s ++ ' ' ::
          (epB ++ ' ' ::
            (repInt s.halfMoveClock ++ ' ' :: repInt s.moveCounter)))) := by
    injection hfe
  have htrim : trimChars f = f := by
    apply trimChars_eq_self
    · intro c hc
      rw [hfeq] at hc
      obtain ⟨c0, hc0, hc0sp⟩ := encBoard_head hlen hrows
      have hne : encBoard s.board ≠ [] := by
        intro hcon; rw [hcon] at hc0; simp at hc0
      rw [List.head?_append_of_ne_nil _ hne, hc0] at hc
      cases hc
      exact hc0sp
    · intro c hc
      rw [hfeq] at hc
      rw [List.getLast?_append_cons] at hc
      rw [getLast?_cons_of_ne_nil (by simp)] at hc
      rw [List.getLast?_append_cons] at hc
      rw [getLast?_cons_of_ne_nil (by simp)] at hc
      rw [List.getLast?_append_cons] at hc
      rw [getLast?_cons_of_ne_nil (by simp)] at hc
      rw [List.getLast?_append_cons] at hc
      rw [getLast?_cons_of_ne_nil (by simp)] at hc
      rw [List.getLast?_append_cons] at hc
      rw [getLast?_cons_of_ne_nil (repInt_ne_nil _)] at hc
      obtain ⟨d, hd, hdl⟩ := repInt_getLast s.moveCounter
      rw [hdl] at hc
      cases hc
      exact isDigit_isSpace (digitChar_isDigit d hd)
  rw [htrim, hfeq]
  rw [splitOnChar_block ' ' _ _ (encBoard_chars s.board)]
  rw [splitOnChar_block ' ' _ _ (by
    by_cases hw : s.toMove = Colour.white <;> simp [hw])]
  rw [splitOnChar_block ' ' _ _ (castleBlock_chars s)]
  rw [splitOnChar_block ' ' _ _ (epBlock_chars hep).1]
  rw [splitOnChar_block ' ' _ _ (fun c hc => (repInt_chars _ c hc).1)]
  rw [splitOnChar_single ' ' _ (fun c hc => (repInt_chars _ c hc).1)]

/-! ### Board encode / decode round-trip. -/

/-- 8x8 shape invariant. -/
def Shaped (B : Board) : Prop := B.length = 8 ∧ ∀ row ∈ B, row.length = 8

theorem list_take_set {α : Type} (l : List α) :
    ∀ (n : Nat) (v : α), (l.set n v).take n = l.take n := by
  induction l with
  | nil => intro n v; simp
  | cons x rest ih =>
    intro n v
    cases n with
    | zero => simp
    | succ m => simp [List.set_cons_succ, List.take_succ_cons, ih m v]

theorem list_set_self {α : Type} (l : List α) :
    ∀ (n : Nat) (x : α), l[n]? = some x → l.set n x = l := by
  induction l with
  | nil => intro n x h; simp at h
  | cons y rest ih =>
    intro n x h
    cases n with
    | zero => simp at h; simp [h]
    | succ m =>
      simp only [List.getElem?_cons_succ] at h
      simp [List.set_cons_succ, ih m x h]

theorem list_drop_set {α : Type} (l : List α) :
    ∀ (n m : Nat) (v : α), n < m → (l.set n v).drop m = l.drop m := by
  induction l with
  | nil => intro n m v _; simp
  | cons x rest ih =>
    intro n m v h
    cases n with
    | zero =>
      cases m with
      | zero => omega
      | succ m2 => simp [List.set_cons_zero, List.drop_succ_cons]
    | succ n2 =>
      cases m with
      | zero => omega
      | succ m2 =>
        simp only [List.set_cons_succ, List.drop_succ_cons]
        exact ih n2 m2 v (by omega)

theorem take_set_eq {α : Type} (l : List α) (n : Nat) (v : α) (h : n < l.length) :
    (l.set n v).take (n + 1) = l.take n ++ [v] := by
  rw [List.take_succ, list_take_set]
  have : (l.set n v)[n]? = some v := by
    simp [List.getElem?_set_self, h]
  rw [this]
  rfl

theorem shaped_validBoard {B : Board} (h : validBoardB B = true) : Shaped B := by
  unfold validBoardB at h
  simp only [Bool.and_eq_true, beq_iff_eq, List.all_eq_true] at h
  exact ⟨h.1, fun row hr => by
    have := h.2 row hr
    simp only [Bool.and_eq_true, beq_iff_eq] at this
    exact this.1⟩

theorem valuePiece_pieceValue (v : Nat) (ch : Char) (h : valuePiece v = some ch) :
    pieceValue ch = some v := by
  unfold valuePiece at h
  split at h <;> simp_all <;> subst h <;> decide

theorem idxWrap_nat (n : Nat) (h : n < 8) : idxWrap (n : Int) = some n := by
  unfold idxWrap
  rw [if_pos ⟨by omega, by exact_mod_cast h⟩]
  simp

theorem boardSetE_nat (B : Board) (r f : Nat) (v : Nat) (row : List Nat)
    (hr : r < 8) (hf : f < 8) (hrow : B[r]? = some row) (hrl : row.length = 8) :
    boardSetE B ((r : Int), (f : Int)) v = Except.ok (B.set r (row.set f v)) := by
  unfold boardSetE
  simp only [idxWrap_nat r hr, idxWrap_nat f hf, List.get?_eq_getElem?, hrow]
  rw [if_pos (by omega : f < row.length)]

theorem boardGetE_nat (B : Board) (r f : Nat) (row : List Nat) (v : Nat)
    (hr : r < 8) (hf : f < 8) (hrow : B[r]? = some row) (hv : row[f]? = some v) :
    boardGetE B ((r : Int), (f : Int)) = Except.ok v := by
  unfold boardGetE
  simp only [idxWrap_nat r hr, idxWrap_nat f hf, List.get?_eq_getElem?, hrow, hv]

theorem parseRowGo_piece_ok (B B2 : Board) (rank file : Nat) (ch : Char)
    (v : Nat) (cs : List Char) (hchd : ch.isDigit = false)
    (hpv : pieceValue ch = some v)
    (hset : boardSetE B ((rank : Int), (file : Int)) v = Except.ok B2) :
    parseRowGo B rank (ch :: cs) file = parseRowGo B2 rank cs (file + 1) := by
  simp only [parseRowGo, hchd, Bool.false_eq_true, if_false, hpv, hset]

theorem parseRowGo_digits (B : Board) (rank : Nat) (z : Nat) (hz : z < 10)
    (cs : List Char) (file : Nat) :
    parseRowGo B rank (repNat z ++ cs) file = parseRowGo B rank cs (file + z) := by
  rw [show repNat z = [digitChar z] by simp [repNat, repNatAux, hz]]
  simp only [List.cons_append, List.nil_append, parseRowGo,
    digitChar_isDigit z hz, if_pos]
  rw [digitChar_toNat z hz]
  congr 1
  omega

theorem rowRT (row : List Nat) :
    ∀ (z file : Nat) (B : Board) (rank : Nat) (curr : List Nat),
      Shaped B → rank < 8 → B[rank]? = some curr → curr.length = 8 →
      (∀ v ∈ row, validCellB v = true) →
      file + z + row.length ≤ 8 →
      parseRowGo B rank (encRowGo row z) file =
        (B.set rank (overlay curr (file + z) row), none) := by
  induction row with
  | nil =>
    intro z file B rank curr hB hrank hcurr _ _ hle
    have hz10 : z < 10 := by omega
    by_cases hz : z > 0
    · rw [show encRowGo [] z = repNat z by simp [encRowGo, hz]]
      rw [show repNat z = repNat z ++ [] from (List.append_nil _).symm]
      rw [parseRowGo_digits B rank z hz10 [] file]
      rw [show overlay curr (file + z) [] = curr from rfl]
      rw [list_set_self B rank curr hcurr]
      rfl
    · rw [show encRowGo [] z = [] by simp [encRowGo, hz]]
      rw [show overlay curr (file + z) [] = curr from rfl]
      rw [list_set_self B rank curr hcurr]
      rfl
  | cons v rest ih =>
    intro z file B rank curr hB hrank hcurr hcl hval hle
    have hz10 : z < 10 := by omega
    have hvval : validCellB v = true := hval v (by simp)
    cases hch : valuePiece v with
    | some ch =>
      have he : encRowGo (v :: rest) z =
          (if z > 0 then repNat z else []) ++ ch :: encRowGo rest 0 := by
        simp only [encRowGo, hch]
      rw [he]
      have hstep : parseRowGo B rank
          ((if z > 0 then repNat z else []) ++ ch :: encRowGo rest 0) file =
          parseRowGo B rank (ch :: encRowGo rest 0) (file + z) := by
        by_cases hz : z > 0
        · rw [if_pos hz, parseRowGo_digits B rank z hz10 _ file]
        · rw [if_neg hz, List.nil_append]
          congr 1
          omega
      rw [hstep]
      have hchd : ch.isDigit = false := (valuePiece_char v ch hch).2.2
      have hpv : pieceValue ch = some v := valuePiece_pieceValue v ch hch
      have hfz : file + z < 8 := by
        have hlen : (v :: rest).length = rest.length + 1 := by simp
        omega
      have hset := boardSetE_nat B rank (file + z) v curr hrank hfz hcurr hcl
      rw [parseRowGo_piece_ok B _ rank (file + z) ch v _ hchd hpv hset]
      have hrlen : rank < B.length := by rw [hB.1]; exact hrank
      have hIH := ih 0 (file + z + 1) (B.set rank (curr.set (file + z) v)) rank
        (curr.set (file + z) v) ?_ hrank ?_ (by simp [hcl]) ?_ ?_
      · rw [hIH]
        have hov : overlay curr (file + z) (v :: rest) =
            overlay (curr.set (file + z) v) (file + z + 1) rest := by
          simp only [overlay, hch]
        rw [hov]
        rw [List.set_set]
      · constructor
        · simp [hB.1]
        · intro row2 hrow2
          rcases List.mem_or_eq_of_mem_set hrow2 with h2 | h2
          · exact hB.2 row2 h2
          · rw [h2]; simp [hcl]
      · rw [List.getElem?_set_self]
        exact hrlen
      · intro w hw
        exact hval w (by simp [hw])
      · have hlen : (v :: rest).length = rest.length + 1 := by simp
        omega
    | none =>
      have he : encRowGo (v :: rest) z = encRowGo rest (z + 1) := by
        simp only [encRowGo, hch]
      rw [he]
      have hle2 : file + (z + 1) + rest.length ≤ 8 := by
        have hlen : (v :: rest).length = rest.length + 1 := by simp
        omega
      have hIH := ih (z + 1) file B rank curr hB hrank hcurr hcl
        (fun w hw => hval w (by simp [hw])) hle2
      rw [hIH]
      have hov : overlay curr (file + z) (v :: rest) =
          overlay curr (file + z + 1) rest := by
        simp only [overlay, hch]
      rw [hov]
      rw [show file + (z + 1) = file + z + 1 from by omega]

theorem overlay_full (row : List Nat) :
    ∀ (curr : List Nat) (pos : Nat),
      pos + row.length = curr.length →
      (∀ v ∈ row, validCellB v = true) →
      (∀ i, pos ≤ i → i < curr.length → curr[i]? = some 0) →
      overlay curr pos row = curr.take pos ++ row := by
  induction row with
  | nil =>
    intro curr pos hlen _ _
    simp only [List.length_nil, Nat.add_zero] at hlen
    rw [show overlay curr pos [] = curr from rfl, hlen, List.take_length, List.append_nil]
  | cons v rest ih =>
    intro curr pos hlen hval hzero
    have hpos : pos < curr.length := by
      have : (v :: rest).length = rest.length + 1 := by simp
      omega
    cases hch : valuePiece v with
    | some ch =>
      rw [show overlay curr pos (v :: rest) =
        overlay (curr.set pos v) (pos + 1) rest by simp only [overlay, hch]]
      rw [ih (curr.set pos v) (pos + 1)
        (by simp at hlen ⊢; omega)
        (fun w hw => hval w (by simp [hw]))
        (fun i hi hil => by
          rw [List.getElem?_set_ne (by omega : pos ≠ i)]
          exact hzero i (by omega) (by simpa using hil))]
      rw [take_set_eq curr pos v hpos]
      simp
    | none =>
      have hv0 : v = 0 := by
        have := hval v (by simp)
        unfold validCellB at this
        rw [hch] at this
        simpa using this
      rw [show overlay curr pos (v :: rest) =
        overlay curr (pos + 1) rest by simp only [overlay, hch]]
      rw [ih curr (pos + 1)
        (by simp at hlen ⊢; omega)
        (fun w hw => hval w (by simp [hw]))
        (fun i hi hil => hzero i (by omega) hil)]
      rw [List.take_succ]
      rw [hzero pos (by omega) hpos]
      subst hv0
      simp

theorem replaceFrom_spec (rows : List (List Nat)) :
    ∀ (B : Board) (k : Nat), k + rows.length ≤ B.length →
      replaceFrom B k rows = B.take k ++ rows ++ B.drop (k + rows.length) := by
  induction rows with
  | nil =>
    intro B k _
    rw [show replaceFrom B k [] = B from rfl]
    simp [List.take_append_drop]
  | cons r rest ih =>
    intro B k hle
    rw [show replaceFrom B k (r :: rest) = replaceFrom (B.set k r) (k + 1) rest
      from rfl]
    have hk : k < B.length := by
      have : (r :: rest).length = rest.length + 1 := by simp
      omega
    rw [ih (B.set k r) (k + 1) (by simp at hle ⊢; omega)]
    rw [take_set_eq B k r hk]
    rw [list_drop_set B k (k + 1 + rest.length) r (by omega)]
    rw [show k + 1 + rest.length = k + (r :: rest).length by simp; omega]
    simp

theorem ranksRT (rows : List (List Nat)) :
    ∀ (B : Board) (k : Nat),
      Shaped B → k + rows.length ≤ 8 →
      (∀ row ∈ rows, row.length = 8 ∧ ∀ v ∈ row, validCellB v = true) →
      (∀ i, k ≤ i → i < 8 → B[i]? = some (List.replicate 8 0)) →
      parseRanksGo B (List.map encRow rows) k = (replaceFrom B k rows, none) := by
  induction rows with
  | nil =>
    intro B k _ _ _ _
    rfl
  | cons row rest ih =>
    intro B k hB hle hval hzero
    have hk : k < 8 := by
      have : (row :: rest).length = rest.length + 1 := by simp
      omega
    have hrowv := hval row (by simp)
    have hcurr : B[k]? = some (List.replicate 8 0) := hzero k (by omega) hk
    have hrow := rowRT row 0 0 B k (List.replicate 8 0) hB hk hcurr (by simp)
      hrowv.2 (by rw [hrowv.1])
    have hovl : overlay (List.replicate 8 0) (0 + 0) row = row := by
      rw [show (0 + 0 : Nat) = 0 from rfl]
      rw [overlay_full row (List.replicate 8 0) 0
        (by simpa using hrowv.1)
        hrowv.2
        (fun i _ hil => by
          rw [List.getElem?_replicate, if_pos (by simpa using hil)])]
      simp
    rw [List.map_cons]
    rw [show parseRanksGo B (encRow row :: List.map encRow rest) k =
      (match parseRowGo B k (encRow row) 0 with
       | (b2, none) => parseRanksGo b2 (List.map encRow rest) (k + 1)
       | (b2, some e) => (b2, some e)) from rfl]
    rw [show encRow row = encRowGo row 0 from rfl] at *
    rw [hrow, hovl]
    have hIH := ih (B.set k row) (k + 1)
      ⟨by simp [hB.1], fun row2 hrow2 => by
        rcases List.mem_or_eq_of_mem_set hrow2 with h2 | h2
        · exact hB.2 row2 h2
        · rw [h2]; exact hrowv.1⟩
      (by simp at hle ⊢; omega)
      (fun r2 hr2 => hval r2 (by simp [hr2]))
      (fun i hi hil => by
        rw [List.getElem?_set_ne (by omega : k ≠ i)]
        exact hzero i (by omega) hil)
    show parseRanksGo (List.set B k row) (List.map encRow rest) (k + 1) =
      (replaceFrom B k (row :: rest), none)
    rw [hIH]
    rfl

/-- Decoding the board block produced by `get_fen` reproduces the board. -/
theorem boardRT (b : Board) (hlen : b.length = 8)
    (hval : ∀ row ∈ b, row.length = 8 ∧ ∀ v ∈ row, validCellB v = true) :
    parseRanksGo zeroBoard (splitOnChar '/' (encBoard b)).reverse 0 = (b, none) := by
  have hsplit : splitOnChar '/' (encBoard b) = List.map encRow b.reverse := by
    unfold encBoard
    apply splitOnChar_joinSep
    · intro hcon
      have h0 : b.reverse = [] := List.map_eq_nil_iff.mp hcon
      have hb0 : b = [] := by simpa using congrArg List.reverse h0
      rw [hb0] at hlen
      simp at hlen
    · intro l hl c hc
      simp only [List.mem_map] at hl
      obtain ⟨row, _, hrow⟩ := hl
      subst hrow
      exact (encRow_chars row c hc).2
  rw [hsplit, ← List.map_reverse, List.reverse_reverse]
  have hz : ∀ i, 0 ≤ i → i < 8 → zeroBoard[i]? = some (List.replicate 8 0) := by
    intro i _ hil
    unfold zeroBoard
    rw [List.getElem?_replicate, if_pos hil]
  have hsh : Shaped zeroBoard := by
    constructor
    · rfl
    · intro row hrow
      unfold zeroBoard at hrow
      rw [List.eq_of_mem_replicate hrow]
      simp
  rw [ranksRT b zeroBoard 0 hsh (by omega) hval hz]
  rw [replaceFrom_spec b zeroBoard 0 (by simp [hlen]; rfl)]
  rw [show (0 : Nat) + b.length = 8 by omega]
  rw [show (zeroBoard.drop 8) = [] from rfl]
  simp

/-! ### Full `set_fen (get_fen ())` round-trip on valid states. -/

theorem castleBlock_contains (s : Chess) :
    (castleBlock s).contains 'K' = s.shortCastleW ∧
    (castleBlock s).contains 'Q' = s.longCastleW ∧
    (castleBlock s).contains 'k' = s.shortCastleB ∧
    (castleBlock s).contains 'q' = s.longCastleB := by
  unfold castleBlock
  generalize s.shortCastleW = a
  generalize s.longCastleW = b
  generalize s.shortCastleB = c
  generalize s.longCastleB = d
  cases a <;> cases b <;> cases c <;> cases d <;> decide

theorem validBoard_rows {b : Board} (h : validBoardB b = true) :
    ∀ row ∈ b, row.length = 8 ∧ ∀ v ∈ row, validCellB v = true := by
  unfold validBoardB at h
  simp only [Bool.and_eq_true, beq_iff_eq, List.all_eq_true] at h
  intro row hr
  have h2 := h.2 row hr
  simp only [Bool.and_eq_true, beq_iff_eq, List.all_eq_true] at h2
  exact ⟨h2.1, h2.2⟩

theorem coorToStr_valid (r f : Int) (hr1 : 0 ≤ r) (hr2 : r < 8)
    (hf1 : 0 ≤ f) (hf2 : f < 8) :
    ∃ l, coorToStr (r, f) = Except.ok l ∧ strToCoor l = Except.ok (r, f) := by
  interval_cases r <;> interval_cases f <;> exact ⟨_, rfl, rfl⟩

/-- Decoding the FEN produced on a valid state restores board, side,
castling rights, en-passant target and both counters exactly; the `moves`
history of the state being written gains (or rewrites) the entry at the
restored ply, and `lastFen` is untouched. -/
theorem setFen_getFen (s : Chess) (f : List Char) (hv : validB s = true)
    (hf : getFenE s = Except.ok f) (base : Chess) :
    setFenE base f =
      ({ board := s.board, toMove := s.toMove,
         enPassantTarget := s.enPassantTarget,
         longCastleW := s.longCastleW, longCastleB := s.longCastleB,
         shortCastleW := s.shortCastleW, shortCastleB := s.shortCastleB,
         halfMoveClock := s.halfMoveClock, moveCounter := s.moveCounter,
         moves := insertA base.moves (hmc s) f, lastFen := base.lastFen },
       Except.ok ()) := by
  have hvb : validBoardB s.board = true := by
    unfold validB at hv
    exact (Bool.and_eq_true_iff.mp hv).1
  have hvep : validEpB s.enPassantTarget = true := by
    unfold validB at hv
    exact (Bool.and_eq_true_iff.mp hv).2
  have hshape := shaped_validBoard hvb
  have hrowsfull := validBoard_rows hvb
  have hep : ∃ epB, epBlockOf s = Except.ok epB ∧
      (if epB = ['-'] then Except.ok none
       else match strToCoor epB with
            | Except.ok c => Except.ok (some c)
            | Except.error e => Except.error e : Except Err (Option Sq)) =
        Except.ok s.enPassantTarget := by
    cases hE : s.enPassantTarget with
    | none => exact ⟨['-'], by simp [epBlockOf, hE], by simp⟩
    | some c =>
      obtain ⟨r, fl⟩ := c
      unfold validEpB at hvep
      rw [hE] at hvep
      simp only [decide_eq_true_eq] at hvep
      obtain ⟨l, hl1, hl2⟩ :=
        coorToStr_valid r fl hvep.1 hvep.2.1 hvep.2.2.1 hvep.2.2.2
      refine ⟨l, by simp [epBlockOf, hE, hl1], ?_⟩
      have hlen2 : l.length = 2 := by
        obtain ⟨fc, rc, hfc, _, _⟩ := coorToStr_shape hl1
        rw [hfc]; rfl
      rw [if_neg (by intro hcon; rw [hcon] at hlen2; simp at hlen2)]
      rw [hl2]
  obtain ⟨epB, hepB, hepParse⟩ := hep
  have hsplit := fen_trim_split s f epB hshape.1 hshape.2 hepB hf
  unfold setFenE
  rw [hsplit]
  have hboard := boardRT s.board hshape.1 hrowsfull
  have hcastle := castleBlock_contains s
  obtain ⟨hcK, hcQ, hck, hcq⟩ := hcastle
  simp only [hboard, hcK, hcQ, hck, hcq, hepParse, parseInt_repInt]
  cases hside : s.toMove with
  | white => simp [hmc, hside]
  | black => simp [hmc, hside]

/-! ### `get_fen` congruence and totality; history-dict and `stab` facts. -/

theorem epBlockOf_valid (s : Chess) (hvep : validEpB s.enPassantTarget = true) :
    ∃ epB, epBlockOf s = Except.ok epB := by
  cases hE : s.enPassantTarget with
  | none => exact ⟨['-'], by simp [epBlockOf, hE]⟩
  | some c =>
    obtain ⟨r, fl⟩ := c
    unfold validEpB at hvep
    rw [hE] at hvep
    simp only [decide_eq_true_eq] at hvep
    obtain ⟨l, hl1, _⟩ :=
      coorToStr_valid r fl hvep.1 hvep.2.1 hvep.2.2.1 hvep.2.2.2
    exact ⟨l, by simp [epBlockOf, hE, hl1]⟩

theorem getFen_total (s : Chess) (hv : validB s = true) :
    ∃ f, getFenE s = Except.ok f := by
  have hvep : validEpB s.enPassantTarget = true := by
    unfold validB at hv
    exact (Bool.and_eq_true_iff.mp hv).2
  obtain ⟨epB, hepB⟩ := epBlockOf_valid s hvep
  exact ⟨_, getFen_eq_blocks s epB hepB⟩

theorem getFen_congr (s t : Chess) (h : CoreEq s t) : getFenE s = getFenE t := by
  obtain ⟨h1, h2, h3, h4, h5, h6, h7, h8, h9⟩ := h
  unfold getFenE castleBlock
  rw [h1, h2, h3, h4, h5, h6, h7, h8, h9]

theorem lookupA_insertA_self (m : List (Int × List Char)) (k : Int) (v : List Char) :
    lookupA (insertA m k v) k = some v := by
  induction m with
  | nil => simp [insertA, lookupA]
  | cons kv rest ih =>
    obtain ⟨k2, v2⟩ := kv
    by_cases hk : k2 = k
    · simp [insertA, hk, lookupA]
    · simp [insertA, hk, lookupA, ih]

theorem lookupA_insertA_ne (m : List (Int × List Char)) (k k2 : Int) (v : List Char)
    (h : k ≠ k2) : lookupA (insertA m k v) k2 = lookupA m k2 := by
  induction m with
  | nil => simp [insertA, lookupA, h]
  | cons kv rest ih =>
    obtain ⟨k3, v3⟩ := kv
    by_cases hk : k3 = k
    · subst hk
      simp [insertA, lookupA, h]
    · simp [insertA, hk, lookupA, ih]

theorem insertA_insertA (m : List (Int × List Char)) (k : Int) (v : List Char) :
    insertA (insertA m k v) k v = insertA m k v := by
  induction m with
  | nil => simp [insertA]
  | cons kv rest ih =>
    obtain ⟨k2, v2⟩ := kv
    by_cases hk : k2 = k
    · simp [insertA, hk]
    · simp [insertA, hk, ih]

theorem insertA_lookup_self (m : List (Int × List Char)) (k : Int) (v : List Char)
    (h : lookupA m k = some v) : insertA m k v = m := by
  induction m with
  | nil => simp [lookupA] at h
  | cons kv rest ih =>
    obtain ⟨k2, v2⟩ := kv
    by_cases hk : k2 = k
    · subst hk
      simp only [lookupA, if_pos rfl] at h
      cases h
      simp [insertA]
    · simp only [lookupA, if_neg hk] at h
      simp [insertA, hk, ih h]

theorem coreEq_refl (s : Chess) : CoreEq s s :=
  ⟨rfl, rfl, rfl, rfl, rfl, rfl, rfl, rfl, rfl⟩

theorem coreEq_stab (s : Chess) (fenS : List Char) : CoreEq (stab s fenS) s :=
  ⟨rfl, rfl, rfl, rfl, rfl, rfl, rfl, rfl, rfl⟩

theorem validB_stab (s : Chess) (fenS : List Char) :
    validB (stab s fenS) = validB s := rfl

theorem hmc_stab (s : Chess) (fenS : List Char) : hmc (stab s fenS) = hmc s := rfl

theorem getFen_stab (s : Chess) (fenS : List Char) :
    getFenE (stab s fenS) = getFenE s :=
  getFen_congr _ _ (coreEq_stab s fenS)

theorem stab_stab (s : Chess) (fenS : List Char) :
    stab (stab s fenS) fenS = stab s fenS := by
  unfold stab
  rw [show hmc {s with lastFen := fenS, moves := insertA s.moves (hmc s) fenS} =
    hmc s from rfl]
  rw [insertA_insertA]

/-! ### The simulate / check / restore loop of `legal_moves`. -/

theorem pushMoveOp_valid (s0 : Chess) (fenS : List Char)
    (hfen : getFenE s0 = Except.ok fenS) (c f : Sq) (p : Nat × Colour)
    (promo : Nat) (b2 : Board) (eo : Option Err)
    (hpb : pushBoard s0.board s0.enPassantTarget c f p promo = (b2, eo)) :
    pushMoveOp s0 c f p promo =
      ({s0 with lastFen := fenS, board := b2},
       match eo with
       | some e => Except.error e
       | none => Except.ok ()) := by
  cases eo with
  | some e =>
    unfold pushMoveOp
    rw [hfen]
    dsimp only
    rw [hpb]
  | none =>
    unfold pushMoveOp
    rw [hfen]
    dsimp only
    rw [hpb]

theorem simLoop_cons (s : Chess) (fenS : List Char) (hv : validB s = true)
    (hfen : getFenE s = Except.ok fenS) (c : Sq) (p : Nat × Colour) (f : Sq)
    (rest acc : List Sq) (s0 : Chess) (h0 : s0 = s ∨ s0 = stab s fenS) :
    simLoop c p (f :: rest) acc s0 =
      match candCheck s c p f with
      | Except.error e =>
          ({s0 with lastFen := fenS, board := (pushedBoard s c f p).1},
           Except.error e)
      | Except.ok chk =>
          simLoop c p rest (if chk then acc else acc ++ [f]) (stab s fenS) := by
  rcases hpb : pushBoard s.board s.enPassantTarget c f p queenV with ⟨b2, eo⟩
  have hpb2 : pushedBoard s c f p = (b2, eo) := hpb
  rcases h0 with h0 | h0
  · rw [h0]
    simp only [simLoop]
    rw [pushMoveOp_valid s fenS hfen c f p queenV b2 eo hpb]
    cases eo with
    | some er =>
      have hcc : candCheck s c p f = Except.error er := by
        unfold candCheck
        rw [hpb2]
      rw [hcc, hpb2]
    | none =>
      have hcc : candCheck s c p f = inCheckE b2 s.enPassantTarget p.2 := by
        unfold candCheck
        rw [hpb2]
      rw [hcc]
      dsimp only
      cases hic : inCheckE b2 s.enPassantTarget p.2 with
      | error er =>
        rw [hpb2]
      | ok chk =>
        simp only [setFen_getFen s fenS hv hfen, stab, insertA_insertA]
  · rw [h0]
    have hfen0 : getFenE (stab s fenS) = Except.ok fenS := by
      rw [getFen_stab]; exact hfen
    have hpb0 : pushBoard (stab s fenS).board (stab s fenS).enPassantTarget
        c f p queenV = (b2, eo) := hpb
    simp only [simLoop]
    rw [pushMoveOp_valid (stab s fenS) fenS hfen0 c f p queenV b2 eo hpb0]
    cases eo with
    | some er =>
      have hcc : candCheck s c p f = Except.error er := by
        unfold candCheck
        rw [hpb2]
      rw [hcc, hpb2]
    | none =>
      have hcc : candCheck s c p f = inCheckE b2 s.enPassantTarget p.2 := by
        unfold candCheck
        rw [hpb2]
      rw [hcc]
      dsimp only
      rw [show inCheckE b2 (stab s fenS).enPassantTarget p.2 =
        inCheckE b2 s.enPassantTarget p.2 from rfl]
      cases hic : inCheckE b2 s.enPassantTarget p.2 with
      | error er =>
        rw [hpb2]
      | ok chk =>
        simp only [setFen_getFen s fenS hv hfen, stab, insertA_insertA]

theorem simLoop_complete (s : Chess) (fenS : List Char) (hv : validB s = true)
    (hfen : getFenE s = Except.ok fenS) (c : Sq) (p : Nat × Colour) :
    ∀ (cands acc : List Sq) (s0 : Chess), (s0 = s ∨ s0 = stab s fenS) →
      (∀ f ∈ cands, ∃ chk, candCheck s c p f = Except.ok chk) →
      simLoop c p cands acc s0 =
        ((if cands.isEmpty then s0 else stab s fenS),
         Except.ok (acc ++ cands.filter
           (fun f => decide (candCheck s c p f = Except.ok false)))) := by
  intro cands
  induction cands with
  | nil =>
    intro acc s0 _ _
    simp [simLoop]
  | cons f rest ih =>
    intro acc s0 h0 hok
    rw [simLoop_cons s fenS hv hfen c p f rest acc s0 h0]
    obtain ⟨chk, hchk⟩ := hok f (by simp)
    rw [hchk]
    dsimp only
    rw [ih (if chk then acc else acc ++ [f]) (stab s fenS) (Or.inr rfl)
      (fun g hg => hok g (by simp [hg]))]
    cases chk with
    | true => simp [List.filter_cons, hchk]
    | false => simp [List.filter_cons, hchk]

theorem simLoop_sound (s : Chess) (fenS : List Char) (hv : validB s = true)
    (hfen : getFenE s = Except.ok fenS) (c : Sq) (p : Nat × Colour) :
    ∀ (cands acc : List Sq) (s0 : Chess), (s0 = s ∨ s0 = stab s fenS) →
      ∀ (s2 : Chess) (lm : List Sq), simLoop c p cands acc s0 = (s2, Except.ok lm) →
        ∀ f ∈ cands, ∃ chk, candCheck s c p f = Except.ok chk := by
  intro cands
  induction cands with
  | nil =>
    intro acc s0 _ s2 lm _ f hf
    simp at hf
  | cons g rest ih =>
    intro acc s0 h0 s2 lm hrun f hf
    rw [simLoop_cons s fenS hv hfen c p g rest acc s0 h0] at hrun
    cases hg : candCheck s c p g with
    | error e =>
      rw [hg] at hrun
      simp at hrun
    | ok chk =>
      rw [hg] at hrun
      dsimp only at hrun
      rcases List.mem_cons.mp hf with hfe | hf2
      · subst hfe
        exact ⟨chk, hg⟩
      · exact ih _ _ (Or.inr rfl) s2 lm hrun f hf2

/-! ### `legal_moves` as a pure function of a valid state. -/

theorem legalMoves_eq (s : Chess) (c : Sq) (v : Nat) (p : Nat × Colour)
    (fenS : List Char) (rf cas : List Sq)
    (hv : validB s = true) (hfen : getFenE s = Except.ok fenS)
    (hget : boardGetE s.board c = Except.ok v)
    (hvp : valToPiece v = Except.ok (some p))
    (hrf : reachableFields s.board s.enPassantTarget c = Except.ok rf)
    (hcas : castleAppend s c p = Except.ok cas)
    (hchk : ∀ f ∈ rf ++ cas, ∃ chk, candCheck s c p f = Except.ok chk) :
    legalMovesE c s =
      ((if (rf ++ cas).isEmpty then s else stab s fenS),
       Except.ok (pureLM s c p (rf ++ cas))) := by
  unfold legalMovesE
  rw [hrf]
  dsimp only
  rw [hget]
  dsimp only
  rw [hvp]
  dsimp only
  rw [hcas]
  dsimp only
  rw [simLoop_complete s fenS hv hfen c p (rf ++ cas) [] s (Or.inl rfl) hchk]
  dsimp only
  unfold pureLM postFilter
  by_cases hking : p.1 = kingV
  · rw [if_pos hking, if_pos hking]
    simp
  · rw [if_neg hking, if_neg hking]
    simp

theorem legalMoves_inv (s : Chess) (c : Sq) (s2 : Chess) (lm : List Sq)
    (hv : validB s = true) (h : legalMovesE c s = (s2, Except.ok lm)) :
    ∃ v p2, boardGetE s.board c = Except.ok v ∧ valToPiece v = Except.ok p2 ∧
      ((p2 = none ∧ s2 = s ∧ lm = []) ∨
       (∃ p rf cas fenS, p2 = some p ∧ getFenE s = Except.ok fenS ∧
         reachableFields s.board s.enPassantTarget c = Except.ok rf ∧
         castleAppend s c p = Except.ok cas ∧
         (∀ f ∈ rf ++ cas, ∃ chk, candCheck s c p f = Except.ok chk) ∧
         lm = pureLM s c p (rf ++ cas) ∧
         s2 = (if (rf ++ cas).isEmpty then s else stab s fenS))) := by
  obtain ⟨fenS, hfen⟩ := getFen_total s hv
  have horig := h
  unfold legalMovesE at h
  cases hrf : reachableFields s.board s.enPassantTarget c with
  | error e => rw [hrf] at h; simp at h
  | ok rf =>
    rw [hrf] at h
    dsimp only at h
    cases hget : boardGetE s.board c with
    | error e => rw [hget] at h; simp at h
    | ok v =>
      rw [hget] at h
      dsimp only at h
      cases hvp : valToPiece v with
      | error e => rw [hvp] at h; simp at h
      | ok p2 =>
        rw [hvp] at h
        cases p2 with
        | none =>
          dsimp only at h
          refine ⟨v, none, rfl, hvp, Or.inl ?_⟩
          cases h
          exact ⟨rfl, rfl, rfl⟩
        | some p =>
          dsimp only at h
          cases hcas : castleAppend s c p with
          | error e => rw [hcas] at h; simp at h
          | ok cas =>
            rw [hcas] at h
            dsimp only at h
            rcases hsim : simLoop c p (rf ++ cas) [] s with ⟨s3, res⟩
            rw [hsim] at h
            cases res with
            | error e => simp at h
            | ok lm0 =>
              have hchk := simLoop_sound s fenS hv hfen c p (rf ++ cas) [] s
                (Or.inl rfl) s3 lm0 hsim
              rw [legalMoves_eq s c v p fenS rf cas hv hfen hget hvp hrf hcas hchk]
                at horig
              have hs2 : s2 = (if (rf ++ cas).isEmpty then s else stab s fenS) := by
                have h1 := congrArg Prod.fst horig
                simpa using h1.symm
              have hlm : lm = pureLM s c p (rf ++ cas) := by
                have h1 := congrArg Prod.snd horig
                simp only at h1
                cases h1
                rfl
              exact ⟨v, some p, rfl, hvp, Or.inr
                ⟨p, rf, cas, fenS, rfl, hfen, rfl, hcas, hchk, hlm, hs2⟩⟩

/-! ### Cell-value facts and check-detection congruence for promotion
choices. -/

theorem valToPiece_inv {v k : Nat} {pc : Colour}
    (h : valToPiece v = Except.ok (some (k, pc))) :
    k ∈ pieceKinds ∧ v = k + colourVal pc ∧ 0 < v := by
  unfold valToPiece at h
  by_cases hv0 : v = 0
  · rw [if_pos hv0] at h; simp at h
  · rw [if_neg hv0] at h
    dsimp only at h
    by_cases hgt : v > 64
    · rw [if_pos hgt] at h
      split at h
      · rename_i hmem
        injection h with h2
        injection h2 with h3
        obtain ⟨hk, hc⟩ := Prod.mk.injEq .. ▸ (by exact h3 : (v - colourVal Colour.black, Colour.black) = (k, pc))
        subst hk
        subst hc
        exact ⟨hmem, by simp only [colourVal]; omega, by omega⟩
      · simp at h
    · rw [if_neg hgt] at h
      split at h
      · rename_i hmem
        injection h with h2
        injection h2 with h3
        obtain ⟨hk, hc⟩ := Prod.mk.injEq .. ▸ (by exact h3 : (v - colourVal Colour.white, Colour.white) = (k, pc))
        subst hk
        subst hc
        exact ⟨hmem, by simp only [colourVal]; omega, by omega⟩
      · simp at h

theorem pieceKinds_cases {k : Nat} (h : k ∈ pieceKinds) :
    k = 1 ∨ k = 2 ∨ k = 4 ∨ k = 8 ∨ k = 16 ∨ k = 32 := by
  simp [pieceKinds] at h
  tauto

theorem valToPiece_pos {v k : Nat} {pc : Colour}
    (h : valToPiece v = Except.ok (some (k, pc))) : 0 < v :=
  (valToPiece_inv h).2.2

theorem cell_class {v k : Nat} {pc : Colour}
    (h : valToPiece v = Except.ok (some (k, pc))) (colr : Colour) :
    (colourVal colr < v ∧ v < colourVal colr + 64) ↔ pc = colr := by
  obtain ⟨hk, hval, _⟩ := valToPiece_inv h
  rcases pieceKinds_cases hk with rfl | rfl | rfl | rfl | rfl | rfl <;>
    cases pc <;> cases colr <;> simp [colourVal] at hval ⊢ <;> omega

theorem cell_not_king {v k : Nat} {pc : Colour}
    (h : valToPiece v = Except.ok (some (k, pc))) (hk : k ≠ kingV)
    (colr : Colour) : v ≠ kingV + colourVal colr := by
  obtain ⟨hkm, hval, _⟩ := valToPiece_inv h
  rcases pieceKinds_cases hkm with rfl | rfl | rfl | rfl | rfl | rfl <;>
    cases pc <;> cases colr <;>
      simp [colourVal, kingV] at hval hk ⊢ <;> omega

theorem site_cases {b1 b2 : Board} {v1 w1 k1 k2 : Nat} {pcol : Colour}
    (hv1 : valToPiece v1 = Except.ok (some (k1, pcol)))
    (hw1 : valToPiece w1 = Except.ok (some (k2, pcol)))
    (hb : ∀ sq : Sq, boardGetE b2 sq = boardGetE b1 sq ∨
      (boardGetE b1 sq = Except.ok v1 ∧ boardGetE b2 sq = Except.ok w1))
    (sq : Sq) :
    boardGetE b2 sq = boardGetE b1 sq ∨
    ∃ v w kv kw, boardGetE b1 sq = Except.ok v ∧ boardGetE b2 sq = Except.ok w ∧
      v ≠ 0 ∧ 0 < v ∧ w ≠ 0 ∧ 0 < w ∧
      valToPiece v = Except.ok (some (kv, pcol)) ∧
      valToPiece w = Except.ok (some (kw, pcol)) := by
  rcases hb sq with he | ⟨h1, h2⟩
  · exact Or.inl he
  · have p1 := valToPiece_pos hv1
    have p2 := valToPiece_pos hw1
    exact Or.inr ⟨v1, w1, k1, k2, h1, h2, by omega, p1, by omega, p2, hv1, hw1⟩

theorem pawn_congr {b1 b2 : Board} {v1 w1 k1 k2 : Nat} {pcol : Colour}
    (hv1 : valToPiece v1 = Except.ok (some (k1, pcol)))
    (hw1 : valToPiece w1 = Except.ok (some (k2, pcol)))
    (hb : ∀ sq : Sq, boardGetE b2 sq = boardGetE b1 sq ∨
      (boardGetE b1 sq = Except.ok v1 ∧ boardGetE b2 sq = Except.ok w1))
    (ep : Option Sq) (start : Sq) (colr : Colour) :
    pawnFields b2 ep start colr = pawnFields b1 ep start colr := by
  have site := site_cases hv1 hw1 hb
  cases colr with
  | white =>
    simp only [pawnFields, show (Colour.white = Colour.white) = True by simp, if_true]
    rcases site (start.1 + 1, start.2) with he1 |
        ⟨va, wa, ka1, ka2, ha1, ha2, ha0, ha0b, haw0, haw0b, hpa1, hpa2⟩ <;>
      rcases site (start.1 + 2, start.2) with he2 |
          ⟨vb, wb, kb1, kb2, hb1, hb2, hb0, hb0b, hbw0, hbw0b, hpb1, hpb2⟩ <;>
        rcases site (start.1 + 1, start.2 - 1) with he3 |
            ⟨vc, wc, kc1, kc2, hc1, hc2, hc0, hc0b, hcw0, hcw0b, hpc1, hpc2⟩ <;>
          rcases site (start.1 + 1, start.2 + 1) with he4 |
              ⟨vd, wd, kd1, kd2, hd1, hd2, hd0, hd0b, hdw0, hdw0b, hpd1, hpd2⟩ <;>
            simp only [*, gt_iff_lt, ite_true, ite_false]
  | black =>
    simp only [pawnFields, show (Colour.black = Colour.white) = False by simp, if_false]
    rcases site (start.1 - 1, start.2) with he1 |
        ⟨va, wa, ka1, ka2, ha1, ha2, ha0, ha0b, haw0, haw0b, hpa1, hpa2⟩ <;>
      rcases site (start.1 - 2, start.2) with he2 |
          ⟨vb, wb, kb1, kb2, hb1, hb2, hb0, hb0b, hbw0, hbw0b, hpb1, hpb2⟩ <;>
        rcases site (start.1 - 1, start.2 - 1) with he3 |
            ⟨vc, wc, kc1, kc2, hc1, hc2, hc0, hc0b, hcw0, hcw0b, hpc1, hpc2⟩ <;>
          rcases site (start.1 - 1, start.2 + 1) with he4 |
              ⟨vd, wd, kd1, kd2, hd1, hd2, hd0, hd0b, hdw0, hdw0b, hpd1, hpd2⟩ <;>
            simp only [*, gt_iff_lt, ite_true, ite_false]

theorem knight_congr {b1 b2 : Board} {v1 w1 k1 k2 : Nat} {pcol : Colour}
    (hv1 : valToPiece v1 = Except.ok (some (k1, pcol)))
    (hw1 : valToPiece w1 = Except.ok (some (k2, pcol)))
    (hb : ∀ sq : Sq, boardGetE b2 sq = boardGetE b1 sq ∨
      (boardGetE b1 sq = Except.ok v1 ∧ boardGetE b2 sq = Except.ok w1))
    (colr : Colour) (start : Sq) :
    ∀ ks : List (Int × Int), knightGo b2 colr start ks = knightGo b1 colr start ks := by
  intro ks
  induction ks with
  | nil => rfl
  | cons k rest ih =>
    simp only [knightGo]
    rcases site_cases hv1 hw1 hb (start.1 + k.1, start.2 + k.2) with he |
        ⟨v, w, kv, kw, h1, h2, h0, h0b, hw0, hw0b, hp1, hp2⟩ <;>
      simp only [*, gt_iff_lt, ite_true, ite_false]

theorem knightF_congr {b1 b2 : Board} {v1 w1 k1 k2 : Nat} {pcol : Colour}
    (hv1 : valToPiece v1 = Except.ok (some (k1, pcol)))
    (hw1 : valToPiece w1 = Except.ok (some (k2, pcol)))
    (hb : ∀ sq : Sq, boardGetE b2 sq = boardGetE b1 sq ∨
      (boardGetE b1 sq = Except.ok v1 ∧ boardGetE b2 sq = Except.ok w1))
    (colr : Colour) (start : Sq) :
    knightFields b2 colr start = knightFields b1 colr start :=
  knight_congr hv1 hw1 hb colr start knightOffsets

theorem ray_congr {b1 b2 : Board} {v1 w1 k1 k2 : Nat} {pcol : Colour}
    (hv1 : valToPiece v1 = Except.ok (some (k1, pcol)))
    (hw1 : valToPiece w1 = Except.ok (some (k2, pcol)))
    (hb : ∀ sq : Sq, boardGetE b2 sq = boardGetE b1 sq ∨
      (boardGetE b1 sq = Except.ok v1 ∧ boardGetE b2 sq = Except.ok w1))
    (colr : Colour) (d : Int × Int) :
    ∀ (fuel : Nat) (cur : Sq), rayGo b2 colr d fuel cur = rayGo b1 colr d fuel cur := by
  intro fuel
  induction fuel with
  | zero => intro cur; rfl
  | succ n ih =>
    intro cur
    simp only [rayGo]
    rcases site_cases hv1 hw1 hb (cur.1 + d.1, cur.2 + d.2) with he |
        ⟨v, w, kv, kw, h1, h2, h0, h0b, hw0, hw0b, hp1, hp2⟩ <;>
      simp only [*, gt_iff_lt, ite_true, ite_false]

theorem rays_congr {b1 b2 : Board} {v1 w1 k1 k2 : Nat} {pcol : Colour}
    (hv1 : valToPiece v1 = Except.ok (some (k1, pcol)))
    (hw1 : valToPiece w1 = Except.ok (some (k2, pcol)))
    (hb : ∀ sq : Sq, boardGetE b2 sq = boardGetE b1 sq ∨
      (boardGetE b1 sq = Except.ok v1 ∧ boardGetE b2 sq = Except.ok w1))
    (colr : Colour) (start : Sq) :
    ∀ ds : List (Int × Int), raysGo b2 colr start ds = raysGo b1 colr start ds := by
  intro ds
  induction ds with
  | nil => rfl
  | cons d rest ih =>
    simp only [raysGo, ih, ray_congr hv1 hw1 hb colr d]

theorem bishop_congr {b1 b2 : Board} {v1 w1 k1 k2 : Nat} {pcol : Colour}
    (hv1 : valToPiece v1 = Except.ok (some (k1, pcol)))
    (hw1 : valToPiece w1 = Except.ok (some (k2, pcol)))
    (hb : ∀ sq : Sq, boardGetE b2 sq = boardGetE b1 sq ∨
      (boardGetE b1 sq = Except.ok v1 ∧ boardGetE b2 sq = Except.ok w1))
    (colr : Colour) (start : Sq) :
    bishopFields b2 colr start = bishopFields b1 colr start :=
  rays_congr hv1 hw1 hb colr start _

theorem rook_congr {b1 b2 : Board} {v1 w1 k1 k2 : Nat} {pcol : Colour}
    (hv1 : valToPiece v1 = Except.ok (some (k1, pcol)))
    (hw1 : valToPiece w1 = Except.ok (some (k2, pcol)))
    (hb : ∀ sq : Sq, boardGetE b2 sq = boardGetE b1 sq ∨
      (boardGetE b1 sq = Except.ok v1 ∧ boardGetE b2 sq = Except.ok w1))
    (colr : Colour) (start : Sq) :
    rookFields b2 colr start = rookFields b1 colr start :=
  rays_congr hv1 hw1 hb colr start _

theorem kingRow_congr {b1 b2 : Board} {v1 w1 k1 k2 : Nat} {pcol : Colour}
    (hv1 : valToPiece v1 = Except.ok (some (k1, pcol)))
    (hw1 : valToPiece w1 = Except.ok (some (k2, pcol)))
    (hb : ∀ sq : Sq, boardGetE b2 sq = boardGetE b1 sq ∨
      (boardGetE b1 sq = Except.ok v1 ∧ boardGetE b2 sq = Except.ok w1))
    (colr : Colour) (i : Int) :
    ∀ js : List Int, kingRowGo b2 colr i js = kingRowGo b1 colr i js := by
  intro js
  induction js with
  | nil => rfl
  | cons j rest ih =>
    simp only [kingRowGo]
    rcases site_cases hv1 hw1 hb (i, j) with he |
        ⟨v, w, kv, kw, h1, h2, h0, h0b, hw0, hw0b, hp1, hp2⟩ <;>
      simp only [*, gt_iff_lt, ite_true, ite_false]

theorem kingG_congr {b1 b2 : Board} {v1 w1 k1 k2 : Nat} {pcol : Colour}
    (hv1 : valToPiece v1 = Except.ok (some (k1, pcol)))
    (hw1 : valToPiece w1 = Except.ok (some (k2, pcol)))
    (hb : ∀ sq : Sq, boardGetE b2 sq = boardGetE b1 sq ∨
      (boardGetE b1 sq = Except.ok v1 ∧ boardGetE b2 sq = Except.ok w1))
    (colr : Colour) (start : Sq) :
    ∀ is : List Int, kingGo b2 colr start is = kingGo b1 colr start is := by
  intro is
  induction is with
  | nil => rfl
  | cons i rest ih =>
    simp only [kingGo, ih, kingRow_congr hv1 hw1 hb colr i]

theorem king_congr {b1 b2 : Board} {v1 w1 k1 k2 : Nat} {pcol : Colour}
    (hv1 : valToPiece v1 = Except.ok (some (k1, pcol)))
    (hw1 : valToPiece w1 = Except.ok (some (k2, pcol)))
    (hb : ∀ sq : Sq, boardGetE b2 sq = boardGetE b1 sq ∨
      (boardGetE b1 sq = Except.ok v1 ∧ boardGetE b2 sq = Except.ok w1))
    (colr : Colour) (start : Sq) :
    kingFields b2 colr start = kingFields b1 colr start :=
  kingG_congr hv1 hw1 hb colr start _

theorem list_filterMap_congr {A B : Type} (f g : A → Option B) :
    ∀ l : List A, (∀ a ∈ l, f a = g a) → l.filterMap f = l.filterMap g := by
  intro l
  induction l with
  | nil => intro h; rfl
  | cons a rest ih =>
    intro h
    simp only [List.filterMap_cons]
    rw [h a (List.mem_cons_self a rest),
      ih (fun x hx => h x (List.mem_cons_of_mem a hx))]

theorem piecesScan_congr {b1 b2 : Board} {v1 w1 k1 k2 : Nat} {pcol : Colour}
    (hv1 : valToPiece v1 = Except.ok (some (k1, pcol)))
    (hw1 : valToPiece w1 = Except.ok (some (k2, pcol)))
    (hd : ∀ r f : Nat, r < 8 → f < 8 →
      boardGetD b2 r f = boardGetD b1 r f ∨
      (boardGetD b1 r f = v1 ∧ boardGetD b2 r f = w1))
    (colr : Colour) : piecesScan b2 colr = piecesScan b1 colr := by
  unfold piecesScan
  congr 1
  apply List.map_congr_left
  intro r hr
  apply list_filterMap_congr
  intro f hf
  rcases hd r f (List.mem_range.mp hr) (List.mem_range.mp hf) with he | ⟨h1, h2⟩
  · simp only [he]
  · simp only [h1, h2]
    by_cases hpc : pcol = colr
    · rw [if_pos ((cell_class hw1 colr).mpr hpc), if_pos ((cell_class hv1 colr).mpr hpc)]
    · rw [if_neg (fun hcc => hpc ((cell_class hw1 colr).mp hcc)),
        if_neg (fun hcc => hpc ((cell_class hv1 colr).mp hcc))]

theorem kingScan_congr {b1 b2 : Board} {v1 w1 k1 k2 : Nat} {pcol : Colour}
    (hv1 : valToPiece v1 = Except.ok (some (k1, pcol)))
    (hw1 : valToPiece w1 = Except.ok (some (k2, pcol)))
    (hk1 : k1 ≠ kingV) (hk2 : k2 ≠ kingV)
    (hd : ∀ r f : Nat, r < 8 → f < 8 →
      boardGetD b2 r f = boardGetD b1 r f ∨
      (boardGetD b1 r f = v1 ∧ boardGetD b2 r f = w1))
    (colr : Colour) : kingScan b2 colr = kingScan b1 colr := by
  unfold kingScan
  congr 1
  apply List.map_congr_left
  intro r hr
  apply list_filterMap_congr
  intro f hf
  rcases hd r f (List.mem_range.mp hr) (List.mem_range.mp hf) with he | ⟨h1, h2⟩
  · simp only [he]
  · simp only [h1, h2]
    rw [if_neg (cell_not_king hw1 hk2 colr), if_neg (cell_not_king hv1 hk1 colr)]

theorem reachable_congr {b1 b2 : Board} {v1 w1 k1 k2 : Nat} {pcol : Colour}
    (hv1 : valToPiece v1 = Except.ok (some (k1, pcol)))
    (hw1 : valToPiece w1 = Except.ok (some (k2, pcol)))
    (hb : ∀ sq : Sq, boardGetE b2 sq = boardGetE b1 sq ∨
      (boardGetE b1 sq = Except.ok v1 ∧ boardGetE b2 sq = Except.ok w1))
    (ep : Option Sq) (co : Sq)
    (hco : boardGetE b2 co = boardGetE b1 co) :
    reachableFields b2 ep co = reachableFields b1 ep co := by
  unfold reachableFields
  rw [hco]
  simp only [pawn_congr hv1 hw1 hb, knightF_congr hv1 hw1 hb,
    bishop_congr hv1 hw1 hb, rook_congr hv1 hw1 hb, king_congr hv1 hw1 hb]

theorem inCheckGo_congr {b1 b2 : Board} {v1 w1 k1 k2 : Nat} {pcol : Colour}
    (hv1 : valToPiece v1 = Except.ok (some (k1, pcol)))
    (hw1 : valToPiece w1 = Except.ok (some (k2, pcol)))
    (hb : ∀ sq : Sq, boardGetE b2 sq = boardGetE b1 sq ∨
      (boardGetE b1 sq = Except.ok v1 ∧ boardGetE b2 sq = Except.ok w1))
    (ep : Option Sq) (kc : Sq) :
    ∀ cs : List Sq, (∀ c0 ∈ cs, boardGetE b2 c0 = boardGetE b1 c0) →
      inCheckGo b2 ep kc cs = inCheckGo b1 ep kc cs := by
  intro cs
  induction cs with
  | nil => intro h; rfl
  | cons c0 rest ih =>
    intro hcs
    simp only [inCheckGo,
      reachable_congr hv1 hw1 hb ep c0 (hcs c0 (List.mem_cons_self c0 rest)),
      ih (fun x hx => hcs x (List.mem_cons_of_mem c0 hx))]

theorem mem_piecesScan {b : Board} {colr : Colour} {c : Sq}
    (h : c ∈ piecesScan b colr) :
    ∃ r f : Nat, r < 8 ∧ f < 8 ∧ c = ((r : Int), (f : Int)) ∧
      colourVal colr < boardGetD b r f ∧ boardGetD b r f < colourVal colr + 64 := by
  unfold piecesScan at h
  rw [List.mem_flatten] at h
  obtain ⟨l, hl, hc⟩ := h
  rw [List.mem_map] at hl
  obtain ⟨r, hr, rfl⟩ := hl
  rw [List.mem_filterMap] at hc
  obtain ⟨f, hf, hmf⟩ := hc
  refine ⟨r, f, List.mem_range.mp hr, List.mem_range.mp hf, ?_⟩
  dsimp only at hmf
  split at hmf
  · rename_i hP
    injection hmf with hmf2
    exact ⟨hmf2.symm, hP.1, hP.2⟩
  · exact absurd hmf (by simp)

theorem boardGetD_of_getE {b : Board} {r f : Nat} {v : Nat} (hr : r < 8) (hf : f < 8)
    (h : boardGetE b ((r : Int), (f : Int)) = Except.ok v) : boardGetD b r f = v := by
  unfold boardGetE at h
  dsimp only at h
  rw [idxWrap_nat r hr, idxWrap_nat f hf] at h
  dsimp only at h
  unfold boardGetD
  cases hrow : b.get? r with
  | none =>
    rw [hrow] at h
    exact absurd h (by simp)
  | some row =>
    rw [hrow] at h
    dsimp only at h ⊢
    cases hcell : row.get? f with
    | none =>
      rw [hcell] at h
      exact absurd h (by simp)
    | some w =>
      rw [hcell] at h
      dsimp only at h
      simp only [Option.getD_some]
      injection h with hh

theorem opposite_ne (colr : Colour) : colr ≠ colr.opposite := by
  cases colr <;> simp [Colour.opposite]

theorem inCheck_congr {b1 b2 : Board} {v1 w1 k1 k2 : Nat} {pcol : Colour}
    (hv1 : valToPiece v1 = Except.ok (some (k1, pcol)))
    (hw1 : valToPiece w1 = Except.ok (some (k2, pcol)))
    (hk1 : k1 ≠ kingV) (hk2 : k2 ≠ kingV)
    (hb : ∀ sq : Sq, boardGetE b2 sq = boardGetE b1 sq ∨
      (boardGetE b1 sq = Except.ok v1 ∧ boardGetE b2 sq = Except.ok w1))
    (hd : ∀ r f : Nat, r < 8 → f < 8 →
      boardGetD b2 r f = boardGetD b1 r f ∨
      (boardGetD b1 r f = v1 ∧ boardGetD b2 r f = w1))
    (ep : Option Sq) :
    inCheckE b2 ep pcol = inCheckE b1 ep pcol := by
  have hcs : ∀ c0 ∈ piecesScan b1 pcol.opposite, boardGetE b2 c0 = boardGetE b1 c0 := by
    intro c0 hc0
    rcases hb c0 with he | ⟨h1, h2⟩
    · exact he
    · exfalso
      obtain ⟨r, f, hr, hf, rfl, hlo, hhi⟩ := mem_piecesScan hc0
      rw [boardGetD_of_getE hr hf h1] at hlo hhi
      exact opposite_ne pcol ((cell_class hv1 pcol.opposite).mp ⟨hlo, hhi⟩)
  unfold inCheckE
  rw [kingScan_congr hv1 hw1 hk1 hk2 hd pcol,
    piecesScan_congr hv1 hw1 hd pcol.opposite]
  cases hks : (kingScan b1 pcol).head? with
  | none => rfl
  | some kc =>
    dsimp only
    exact inCheckGo_congr hv1 hw1 hb ep kc (piecesScan b1 pcol.opposite) hcs

theorem valToPiece_pieceToVal (promo : Nat) (col : Colour) (hp : promo ∈ pieceKinds) :
    valToPiece (pieceToVal promo col) = Except.ok (some (promo, col)) := by
  rcases pieceKinds_cases hp with rfl | rfl | rfl | rfl | rfl | rfl <;>
    cases col <;> rfl

theorem boardSetE_inv {b : Board} {sq : Sq} {v : Nat} {b2 : Board}
    (h : boardSetE b sq v = Except.ok b2) :
    ∃ r f row, idxWrap sq.1 = some r ∧ idxWrap sq.2 = some f ∧
      b.get? r = some row ∧ f < row.length ∧ b2 = b.set r (row.set f v) := by
  unfold boardSetE at h
  cases h1 : idxWrap sq.1 with
  | none => rw [h1] at h; exact absurd h (by simp)
  | some r =>
    rw [h1] at h
    cases h2 : idxWrap sq.2 with
    | none => rw [h2] at h; exact absurd h (by simp)
    | some f =>
      rw [h2] at h
      dsimp only at h
      cases hrow : b.get? r with
      | none => rw [hrow] at h; exact absurd h (by simp)
      | some row =>
        rw [hrow] at h
        dsimp only at h
        split at h
        · rename_i hlt
          injection h with hh
          exact ⟨r, f, row, rfl, rfl, hrow, hlt, hh.symm⟩
        · exact absurd h (by simp)

theorem bset_inv {b : Board} {sq : Sq} {v : Nat} {b2 : Board}
    (h : bset b sq v = (b2, none)) : boardSetE b sq v = Except.ok b2 := by
  unfold bset at h
  cases hs : boardSetE b sq v with
  | ok bb =>
    rw [hs] at h
    dsimp only at h
    injection h with h1 h2
    rw [h1]
  | error e =>
    rw [hs] at h
    exact absurd h (by simp)

theorem bset_of_parts {b : Board} {sq : Sq} {r f : Nat} {row : List Nat}
    (h1 : idxWrap sq.1 = some r) (h2 : idxWrap sq.2 = some f)
    (hrow : b.get? r = some row) (hlt : f < row.length) (v : Nat) :
    bset b sq v = (b.set r (row.set f v), none) := by
  unfold bset boardSetE
  rw [h1, h2]
  dsimp only
  rw [hrow]
  dsimp only
  rw [if_pos hlt]

theorem get?_set_ne_helper {A : Type} (l : List A) (i j : Nat) (a : A) (h : i ≠ j) :
    (l.set i a).get? j = l.get? j := by
  simp [List.get?_eq_getElem?, List.getElem?_set_ne h]

theorem get?_set_self_helper {A : Type} (l : List A) (i : Nat) (a : A)
    (h : i < l.length) : (l.set i a).get? i = some a := by
  rw [List.get?_eq_getElem?, List.getElem?_set_self h]

theorem get?_some_lt {A : Type} {l : List A} {i : Nat} {a : A}
    (h : l.get? i = some a) : i < l.length := by
  cases Nat.lt_or_ge i l.length with
  | inl hlt => exact hlt
  | inr hge =>
    rw [List.get?_eq_getElem?, List.getElem?_eq_none hge] at h
    cases h

theorem getE_set_rel (b5 : Board) (r f : Nat) (row : List Nat)
    (hrow : b5.get? r = some row) (hf : f < row.length) (v w : Nat) (sq : Sq) :
    boardGetE (b5.set r (row.set f w)) sq = boardGetE (b5.set r (row.set f v)) sq ∨
    (boardGetE (b5.set r (row.set f v)) sq = Except.ok v ∧
     boardGetE (b5.set r (row.set f w)) sq = Except.ok w) := by
  unfold boardGetE
  cases hq1 : idxWrap sq.1 with
  | none => exact Or.inl rfl
  | some r2 =>
    cases hq2 : idxWrap sq.2 with
    | none => exact Or.inl rfl
    | some f2 =>
      dsimp only
      by_cases hr : r2 = r
      · subst hr
        have hrl : r2 < b5.length := get?_some_lt hrow
        rw [get?_set_self_helper _ _ _ hrl, get?_set_self_helper _ _ _ hrl]
        dsimp only
        by_cases hfq : f2 = f
        · subst hfq
          rw [get?_set_self_helper _ _ _ hf, get?_set_self_helper _ _ _ hf]
          exact Or.inr ⟨rfl, rfl⟩
        · rw [get?_set_ne_helper _ _ _ _ (fun hh => hfq hh.symm),
            get?_set_ne_helper _ _ _ _ (fun hh => hfq hh.symm)]
          exact Or.inl rfl
      · rw [get?_set_ne_helper _ _ _ _ (fun hh => hr hh.symm),
          get?_set_ne_helper _ _ _ _ (fun hh => hr hh.symm)]
        exact Or.inl rfl

theorem getD_set_rel (b5 : Board) (r f : Nat) (row : List Nat)
    (hrow : b5.get? r = some row) (hf : f < row.length) (v w : Nat) (r2 f2 : Nat) :
    boardGetD (b5.set r (row.set f w)) r2 f2 = boardGetD (b5.set r (row.set f v)) r2 f2 ∨
    (boardGetD (b5.set r (row.set f v)) r2 f2 = v ∧
     boardGetD (b5.set r (row.set f w)) r2 f2 = w) := by
  unfold boardGetD
  by_cases hr : r2 = r
  · subst hr
    have hrl : r2 < b5.length := get?_some_lt hrow
    rw [get?_set_self_helper _ _ _ hrl, get?_set_self_helper _ _ _ hrl]
    dsimp only
    by_cases hfq : f2 = f
    · subst hfq
      rw [get?_set_self_helper _ _ _ hf, get?_set_self_helper _ _ _ hf]
      exact Or.inr ⟨rfl, rfl⟩
    · rw [get?_set_ne_helper _ _ _ _ (fun hh => hfq hh.symm),
        get?_set_ne_helper _ _ _ _ (fun hh => hfq hh.symm)]
      exact Or.inl rfl
  · rw [get?_set_ne_helper _ _ _ _ (fun hh => hr hh.symm),
      get?_set_ne_helper _ _ _ _ (fun hh => hr hh.symm)]
    exact Or.inl rfl

theorem bstep_ok (b : Board) (g : Board → Board × Option Err) :
    bstep (b, none) g = g b := rfl

theorem bstep_none {r : Board × Option Err} {g : Board → Board × Option Err}
    {b : Board} (h : bstep r g = (b, none)) :
    ∃ bm, r = (bm, none) ∧ g bm = (b, none) := by
  rcases r with ⟨bm, oe⟩
  cases oe with
  | none => exact ⟨bm, rfl, h⟩
  | some e => exact absurd h (by simp [bstep])

theorem pushBoard_promo (b0 : Board) (ep : Option Sq) (start dst : Sq)
    (p : Nat × Colour) (promo : Nat) (bq : Board)
    (h : pushBoard b0 ep start dst p queenV = (bq, none)) :
    ∃ br, pushBoard b0 ep start dst p promo = (br, none) ∧
      (br = bq ∨
       ∃ (b5 : Board) (r f : Nat) (row : List Nat),
         b5.get? r = some row ∧ f < row.length ∧
         bq = b5.set r (row.set f (pieceToVal queenV p.2)) ∧
         br = b5.set r (row.set f (pieceToVal promo p.2))) := by
  simp only [pushBoard] at h ⊢
  obtain ⟨c1, hr1, h⟩ := bstep_none h
  obtain ⟨c2, hr2, h⟩ := bstep_none h
  obtain ⟨c3, hr3, h⟩ := bstep_none h
  rw [hr1, bstep_ok, hr2, bstep_ok, hr3, bstep_ok]
  cases hsv : boardGetE c3 start with
  | error e => rw [hsv] at h; exact absurd h (by simp)
  | ok sv =>
    rw [hsv] at h
    dsimp only at h ⊢
    obtain ⟨c4, hc4, h⟩ := bstep_none h
    obtain ⟨c5, hc5, h⟩ := bstep_none h
    rw [hc4, bstep_ok, hc5, bstep_ok]
    by_cases hpp : p.1 = pawnV ∧ (dst.1 = 0 ∨ dst.1 = 7)
    · rw [if_pos hpp] at h ⊢
      obtain ⟨r, f, row, h1, h2, hrow, hlt, rfl⟩ := boardSetE_inv (bset_inv h)
      refine ⟨c5.set r (row.set f (pieceToVal promo p.2)),
        bset_of_parts h1 h2 hrow hlt _,
        Or.inr ⟨c5, r, f, row, hrow, hlt, rfl, rfl⟩⟩
    · rw [if_neg hpp] at h ⊢
      injection h with hb1 hb2
      exact ⟨c5, rfl, Or.inl hb1⟩

theorem inCheck_promo (p : Nat × Colour) (promo : Nat)
    (hpromo : promo ∈ pieceKinds) (hpk : promo ≠ kingV)
    (b5 : Board) (r f : Nat) (row : List Nat)
    (hrow : b5.get? r = some row) (hlt : f < row.length) (ep : Option Sq) :
    inCheckE (b5.set r (row.set f (pieceToVal promo p.2))) ep p.2 =
    inCheckE (b5.set r (row.set f (pieceToVal queenV p.2))) ep p.2 :=
  inCheck_congr (valToPiece_pieceToVal queenV p.2 (by decide))
    (valToPiece_pieceToVal promo p.2 hpromo)
    (by decide) hpk
    (fun sq => getE_set_rel b5 r f row hrow hlt _ _ sq)
    (fun r2 f2 _ _ => getD_set_rel b5 r f row hrow hlt _ _ r2 f2)
    ep

theorem candCheck_inv {s : Chess} {c : Sq} {p : Nat × Colour} {f : Sq}
    (h : candCheck s c p f = Except.ok false) :
    ∃ bq, pushBoard s.board s.enPassantTarget c f p queenV = (bq, none) ∧
      inCheckE bq s.enPassantTarget p.2 = Except.ok false := by
  unfold candCheck pushedBoard at h
  rcases hpb : pushBoard s.board s.enPassantTarget c f p queenV with ⟨bq, oe⟩
  rw [hpb] at h
  cases oe with
  | some e =>
    dsimp only at h
    exact absurd h (by simp)
  | none =>
    dsimp only at h
    exact ⟨bq, rfl, h⟩

theorem mem_postFilter {c : Sq} {lm : List Sq} {d : Sq}
    (h : d ∈ postFilter c lm) : d ∈ lm := by
  have step : ∀ (l : List Sq) (a : Sq) (P : Prop) (inst : Decidable P),
      d ∈ (if P then l.erase a else l) → d ∈ l := by
    intro l a P inst hm
    split at hm
    · exact List.mem_of_mem_erase hm
    · exact hm
  simp only [postFilter] at h
  exact step _ _ _ _ (step _ _ _ _ h)

theorem mem_pureLM {s : Chess} {c : Sq} {p : Nat × Colour} {cands : List Sq}
    {d : Sq} (h : d ∈ pureLM s c p cands) :
    candCheck s c p d = Except.ok false := by
  simp only [pureLM] at h
  have h2 : d ∈ cands.filter
      (fun f => decide (candCheck s c p f = Except.ok false)) := by
    by_cases hk : p.1 = kingV
    · rw [if_pos hk] at h
      exact mem_postFilter h
    · rw [if_neg hk] at h
      exact h
  exact of_decide_eq_true (List.mem_filter.mp h2).2

/-- C1: every destination contained in the list returned by `legal_moves` is
safe — executing that move on the board (with any promotion choice among the
non-king piece kinds) succeeds, and the resulting board does not leave the
moving side's own king attacked, as computed by `in_check`. -/
theorem claim_C1 (s : Chess) (c d : Sq) (s2 : Chess) (lm : List Sq)
    (v : Nat) (p : Nat × Colour) (promo : Nat)
    (hv : validB s = true)
    (hget : boardGetE s.board c = Except.ok v)
    (hvp : valToPiece v = Except.ok (some p))
    (hlm : legalMovesE c s = (s2, Except.ok lm))
    (hd : d ∈ lm)
    (hpromo : promo ∈ pieceKinds) (hpk : promo ≠ kingV) :
    ∃ br, pushBoard s.board s.enPassantTarget c d p promo = (br, none) ∧
      inCheckE br s.enPassantTarget p.2 = Except.ok false := by
  obtain ⟨v2, p2, hget2, hvp2, hcases⟩ := legalMoves_inv s c s2 lm hv hlm
  rw [hget] at hget2
  injection hget2 with hveq
  subst hveq
  rw [hvp] at hvp2
  injection hvp2 with hpeq
  rcases hcases with ⟨hnone, _, _⟩ | ⟨p3, rf, cas, fenS, hp2, hfen, hrf, hcas, hchk, hlmEq, hs2⟩
  · rw [hnone] at hpeq
    cases hpeq
  · rw [hp2] at hpeq
    injection hpeq with hpeq2
    subst hpeq2
    rw [hlmEq] at hd
    obtain ⟨bq, hpush, hchk0⟩ := candCheck_inv (mem_pureLM hd)
    obtain ⟨br, hpushP, hrel⟩ :=
      pushBoard_promo s.board s.enPassantTarget c d p promo bq hpush
    refine ⟨br, hpushP, ?_⟩
    rcases hrel with rfl | ⟨b5, r, f, row, hrow, hlt, rfl, rfl⟩
    · exact hchk0
    · rw [inCheck_promo p promo hpromo hpk b5 r f row hrow hlt s.enPassantTarget]
      exact hchk0

theorem claim_C1_witness :
    ∃ br, pushBoard sStart.board sStart.enPassantTarget (1, 4) (3, 4)
        (1, Colour.white) 16 = (br, none) ∧
      inCheckE br sStart.enPassantTarget Colour.white = Except.ok false :=
  claim_C1 sStart (1, 4) (3, 4) (legalMovesE (1, 4) sStart).1
    [(2, 4), (3, 4)] 1 (1, Colour.white) 16
    (by decide) (by decide) (by decide) (by decide) (by decide) (by decide)
    (by decide)

/-- C2 counterexample: a state decoded from a FEN whose half-move field is
written `00`; rejecting an illegal move rewrites the current history entry
with the canonical form, so the state is not byte-for-byte unchanged. -/
theorem claim_C2_cex :
    (moveFn sC2 (0, 4) (2, 4) 16).2 = Except.error Err.illegalMove ∧
    (moveFn sC2 (0, 4) (2, 4) 16).1 ≠ sC2 := by decide

/-- C3 counterexample: in `sC3` white is in check, yet the castling
destination g1 is offered by `legal_moves` of the king square. -/
theorem claim_C3_cex :
    inCheckE sC3.board sC3.enPassantTarget Colour.white = Except.ok true ∧
    ((0 : Int), (6 : Int)) ∈ ((legalMovesE (0, 4) sC3).2.toOption.getD []) := by
  decide

/-- C4: a black pawn on e4 advancing straight to the injected en-passant
target e3 is accepted, but the en-passant removal line zeroes the moving
pawn's own square first, so the pawn vanishes from the board entirely. -/
theorem claim_C4 :
    (moveFn sC4 (3, 4) (2, 4) 16).2 = Except.ok ((3, 4), (2, 4)) ∧
    boardGetD (moveFn sC4 (3, 4) (2, 4) 16).1.board 2 4 = 0 ∧
    boardGetD (moveFn sC4 (3, 4) (2, 4) 16).1.board 3 4 = 0 := by decide

/-- C5 counterexample: the two recorded snapshots differ in their en-passant
field, yet the rook move is rejected as a threefold repetition because only
the first three FEN fields are compared. -/
theorem claim_C5_cex :
    (moveFn sC5 (0, 7) (1, 7) 16).2 =
      Except.error (Err.draw DrawReason.repetition) ∧
    prefix4 f1C5 ≠ prefix4 f2C5 ∧ prefix3 f1C5 = prefix3 f2C5 := by decide

/-- C6: with the half-move clock at 49 plies, a quiet rook move is rejected
as a fifty-move draw: the code triggers at 50 plies (25 full moves), not at
the claimed 100 plies. -/
theorem claim_C6 :
    (moveFn sC6 (1, 7) (0, 7) 16).2 =
      Except.error (Err.draw DrawReason.fiftyMove) ∧
    (moveFn sC6 (1, 7) (0, 7) 16).1.halfMoveClock = 50 := by decide

/-- C7 counterexample: a black rook moving from white's corner a1 clears
black's queenside castling right. -/
theorem claim_C7_cex :
    sC7.longCastleB = true ∧
    (moveFn sC7 (0, 0) (1, 0) 16).2 = Except.ok ((0, 0), (1, 0)) ∧
    (moveFn sC7 (0, 0) (1, 0) 16).1.longCastleB = false := by decide

/-- C10 counterexample: `get_piece` swallows the IndexError for ranks or
files at 8 or above (returning none instead of failing), and negative
components wrap around instead of failing. -/
theorem claim_C10_cex :
    getPieceE sStart (8, 0) = Except.ok none ∧
    getPieceE sStart (-1, 0) = Except.ok (some (8, Colour.black)) := by decide

/-- C2 (amended): a `move` call rejected with the no-piece, not-your-turn or
illegal-move condition leaves every FEN-visible field of the state (board,
side to move, en-passant target, castling rights, clocks) unchanged; for the
first two conditions the state is byte-for-byte untouched, but an
illegal-move rejection may additionally rewrite `lastFen` and the current
ply's history entry with the canonical FEN snapshot taken during
`legal_moves`, so the history is not byte-for-byte unchanged. -/
theorem claim_C2 (s : Chess) (a b : Sq) (promo : Nat) (v : Nat)
    (hv : validB s = true) (hget : boardGetE s.board a = Except.ok v) :
    (valToPiece v = Except.ok none →
      moveFn s a b promo = (s, Except.error Err.noPiecePresent)) ∧
    (∀ p, valToPiece v = Except.ok (some p) → p.2 ≠ s.toMove →
      moveFn s a b promo = (s, Except.error Err.notYourTurn)) ∧
    (∀ p s1 lm, valToPiece v = Except.ok (some p) → p.2 = s.toMove →
      legalMovesE a s = (s1, Except.ok lm) → b ∉ lm →
      moveFn s a b promo = (s1, Except.error Err.illegalMove) ∧ CoreEq s1 s ∧
      (s1 = s ∨ ∃ fenS, getFenE s = Except.ok fenS ∧ s1 = stab s fenS)) := by
  refine ⟨?_, ?_, ?_⟩
  · intro hnone
    unfold moveFn
    rw [hget]
    dsimp only
    rw [hnone]
  · intro p hp hturn
    unfold moveFn
    rw [hget]
    dsimp only
    rw [hp]
    dsimp only
    rw [if_pos hturn]
  · intro p s1 lm hp hturn hlm hdst
    have hmv : moveFn s a b promo = (s1, Except.error Err.illegalMove) := by
      unfold moveFn
      rw [hget]
      dsimp only
      rw [hp]
      dsimp only
      rw [if_neg (fun hc => hc hturn)]
      rw [hlm]
      dsimp only
      rw [if_pos hdst]
    refine ⟨hmv, ?_, ?_⟩
    all_goals
      obtain ⟨v2, p2, hget2, hvp2, hcases⟩ := legalMoves_inv s a s1 lm hv hlm
    all_goals
      rcases hcases with ⟨hnone2, hs1, hlm2⟩ |
        ⟨p3, rf, cas, fenS, hp2, hfen, hrf, hcas, hchk, hlmEq, hs1⟩
    · rw [hs1]
      exact coreEq_refl s
    · rw [hs1]
      by_cases hemp : (rf ++ cas).isEmpty
      · rw [if_pos hemp]
        exact coreEq_refl s
      · rw [if_neg hemp]
        exact coreEq_stab s fenS
    · exact Or.inl hs1
    · rw [hs1]
      by_cases hemp : (rf ++ cas).isEmpty
      · rw [if_pos hemp]
        exact Or.inl rfl
      · rw [if_neg hemp]
        exact Or.inr ⟨fenS, hfen, rfl⟩

theorem claim_C2_witness :
    moveFn sStart (3, 3) (4, 3) 16 = (sStart, Except.error Err.noPiecePresent) :=
  (claim_C2 sStart (3, 3) (4, 3) 16 0 (by decide) (by decide)).1 (by decide)

theorem idxWrap_lt {x : Int} {n : Nat} (h : idxWrap x = some n) : n < 8 := by
  unfold idxWrap at h
  split at h
  · rename_i hc
    injection h with hh
    omega
  · split at h
    · rename_i hc
      injection h with hh
      omega
    · cases h

/-- C10 (amended): `get_piece` never raises an out-of-range condition.  On a
valid position, a square both of whose components resolve under numpy index
semantics (values in [0,7] used directly, values in [-8,-1] wrapped) returns
the piece-or-none decoding of the resolved cell; a square with a component
outside [-8,7] has its IndexError swallowed and returns none. -/
theorem claim_C10 (s : Chess) (r f : Int) (hv : validB s = true) :
    (∀ ri fi : Nat, idxWrap r = some ri → idxWrap f = some fi →
      getPieceE s (r, f) = valToPiece (boardGetD s.board ri fi)) ∧
    ((idxWrap r = none ∨ idxWrap f = none) →
      getPieceE s (r, f) = Except.ok none) := by
  have hvb : validBoardB s.board = true := by
    unfold validB at hv
    simp only [Bool.and_eq_true] at hv
    exact hv.1
  have hlen : s.board.length = 8 := by
    unfold validBoardB at hvb
    simp only [Bool.and_eq_true, beq_iff_eq, List.all_eq_true] at hvb
    exact hvb.1
  constructor
  · intro ri fi h1 h2
    have hri : ri < 8 := idxWrap_lt h1
    have hfi : fi < 8 := idxWrap_lt h2
    have hri2 : ri < s.board.length := by omega
    have hrow2 : s.board.get? ri = some s.board[ri] := by
      rw [List.get?_eq_getElem?]
      exact List.getElem?_eq_getElem hri2
    have hrlen : (s.board[ri]).length = 8 :=
      (validBoard_rows hvb _ (List.getElem_mem hri2)).1
    have hfi2 : fi < (s.board[ri]).length := by omega
    have hcell : (s.board[ri]).get? fi = some (s.board[ri])[fi] := by
      rw [List.get?_eq_getElem?]
      exact List.getElem?_eq_getElem hfi2
    unfold getPieceE boardGetE
    dsimp only
    rw [h1, h2]
    dsimp only
    rw [hrow2]
    dsimp only
    rw [hcell]
    dsimp only
    unfold boardGetD
    rw [hrow2]
    dsimp only
    rw [hcell]
    rfl
  · intro hor
    unfold getPieceE boardGetE
    dsimp only
    rcases hor with h1 | h1
    · rw [h1]
    · rw [h1]
      cases hx : idxWrap r <;> rfl

theorem claim_C10_witness :
    getPieceE sStart (8, 0) = Except.ok none ∧
    getPieceE sStart (0, 0) = valToPiece (boardGetD sStart.board 0 0) :=
  ⟨(claim_C10 sStart 8 0 (by decide)).2 (Or.inl (by decide)),
   (claim_C10 sStart 0 0 (by decide)).1 0 0 (by decide) (by decide)⟩

theorem castleShortE_inv {s : Chess} {c : Sq} {p : Nat × Colour} {sh : List Sq}
    (h : castleShortE s c p = Except.ok sh) :
    (sh = [((c.1, c.2 + 2) : Sq)] ∧ shortCastle s p.2 = true ∧
     boardGetE s.board (c.1, c.2 + 1) = Except.ok 0 ∧
     boardGetE s.board (c.1, c.2 + 2) = Except.ok 0) ∨
    (sh = [] ∧ ¬(shortCastle s p.2 = true ∧
     boardGetE s.board (c.1, c.2 + 1) = Except.ok 0 ∧
     boardGetE s.board (c.1, c.2 + 2) = Except.ok 0)) := by
  unfold castleShortE at h
  by_cases hsc : shortCastle s p.2 = true
  · rw [if_pos hsc] at h
    cases hr1 : boardGetE s.board (c.1, c.2 + 1) with
    | error e => rw [hr1] at h; exact absurd h (by simp)
    | ok v1 =>
      rw [hr1] at h
      dsimp only at h
      by_cases hz1 : v1 = 0
      · rw [if_pos hz1] at h
        cases hr2 : boardGetE s.board (c.1, c.2 + 2) with
        | error e => rw [hr2] at h; exact absurd h (by simp)
        | ok v2 =>
          rw [hr2] at h
          dsimp only at h
          injection h with hh
          by_cases hz2 : v2 = 0
          · rw [if_pos hz2] at hh
            subst hz1
            subst hz2
            exact Or.inl ⟨hh.symm, hsc, rfl, rfl⟩
          · rw [if_neg hz2] at hh
            refine Or.inr ⟨hh.symm, ?_⟩
            rintro ⟨-, -, h2⟩
            injection h2 with hv2e
            exact hz2 hv2e
      · rw [if_neg hz1] at h
        injection h with hh
        refine Or.inr ⟨hh.symm, ?_⟩
        rintro ⟨-, h1, -⟩
        injection h1 with hv1e
        exact hz1 hv1e
  · rw [if_neg hsc] at h
    injection h with hh
    exact Or.inr ⟨hh.symm, fun hc => hsc hc.1⟩

theorem castleLongE_inv {s : Chess} {c : Sq} {p : Nat × Colour} {lo : List Sq}
    (h : castleLongE s c p = Except.ok lo) :
    (lo = [((c.1, c.2 - 2) : Sq)] ∧ longCastle s p.2 = true ∧
     boardGetE s.board (c.1, c.2 - 1) = Except.ok 0 ∧
     boardGetE s.board (c.1, c.2 - 2) = Except.ok 0 ∧
     boardGetE s.board (c.1, c.2 - 3) = Except.ok 0) ∨
    (lo = [] ∧ ¬(longCastle s p.2 = true ∧
     boardGetE s.board (c.1, c.2 - 1) = Except.ok 0 ∧
     boardGetE s.board (c.1, c.2 - 2) = Except.ok 0 ∧
     boardGetE s.board (c.1, c.2 - 3) = Except.ok 0)) := by
  unfold castleLongE at h
  by_cases hsc : longCastle s p.2 = true
  · rw [if_pos hsc] at h
    cases hr1 : boardGetE s.board (c.1, c.2 - 1) with
    | error e => rw [hr1] at h; exact absurd h (by simp)
    | ok v1 =>
      rw [hr1] at h
      dsimp only at h
      by_cases hz1 : v1 = 0
      · rw [if_pos hz1] at h
        cases hr2 : boardGetE s.board (c.1, c.2 - 2) with
        | error e => rw [hr2] at h; exact absurd h (by simp)
        | ok v2 =>
          rw [hr2] at h
          dsimp only at h
          by_cases hz2 : v2 = 0
          · rw [if_pos hz2] at h
            cases hr3 : boardGetE s.board (c.1, c.2 - 3) with
            | error e => rw [hr3] at h; exact absurd h (by simp)
            | ok v3 =>
              rw [hr3] at h
              dsimp only at h
              injection h with hh
              by_cases hz3 : v3 = 0
              · rw [if_pos hz3] at hh
                subst hz1
                subst hz2
                subst hz3
                exact Or.inl ⟨hh.symm, hsc, rfl, rfl, rfl⟩
              · rw [if_neg hz3] at hh
                refine Or.inr ⟨hh.symm, ?_⟩
                rintro ⟨-, -, -, h3⟩
                injection h3 with hv3e
                exact hz3 hv3e
          · rw [if_neg hz2] at h
            injection h with hh
            refine Or.inr ⟨hh.symm, ?_⟩
            rintro ⟨-, -, h2, -⟩
            injection h2 with hv2e
            exact hz2 hv2e
      · rw [if_neg hz1] at h
        injection h with hh
        refine Or.inr ⟨hh.symm, ?_⟩
        rintro ⟨-, h1, -, -⟩
        injection h1 with hv1e
        exact hz1 hv1e
  · rw [if_neg hsc] at h
    injection h with hh
    exact Or.inr ⟨hh.symm, fun hc => hsc hc.1⟩

theorem castleAppend_inv {s : Chess} {c : Sq} {p : Nat × Colour} {cas : List Sq}
    (hking : p.1 = kingV) (h : castleAppend s c p = Except.ok cas) :
    ∃ sh lo, cas = sh ++ lo ∧
      ((sh = [((c.1, c.2 + 2) : Sq)] ∧ shortCastle s p.2 = true ∧
        boardGetE s.board (c.1, c.2 + 1) = Except.ok 0 ∧
        boardGetE s.board (c.1, c.2 + 2) = Except.ok 0) ∨
       (sh = [] ∧ ¬(shortCastle s p.2 = true ∧
        boardGetE s.board (c.1, c.2 + 1) = Except.ok 0 ∧
        boardGetE s.board (c.1, c.2 + 2) = Except.ok 0))) ∧
      ((lo = [((c.1, c.2 - 2) : Sq)] ∧ longCastle s p.2 = true ∧
        boardGetE s.board (c.1, c.2 - 1) = Except.ok 0 ∧
        boardGetE s.board (c.1, c.2 - 2) = Except.ok 0 ∧
        boardGetE s.board (c.1, c.2 - 3) = Except.ok 0) ∨
       (lo = [] ∧ ¬(longCastle s p.2 = true ∧
        boardGetE s.board (c.1, c.2 - 1) = Except.ok 0 ∧
        boardGetE s.board (c.1, c.2 - 2) = Except.ok 0 ∧
        boardGetE s.board (c.1, c.2 - 3) = Except.ok 0))) := by
  unfold castleAppend at h
  rw [if_neg (fun hc => hc hking)] at h
  cases hsh : castleShortE s c p with
  | error e => rw [hsh] at h; exact absurd h (by simp)
  | ok sh =>
    rw [hsh] at h
    dsimp only at h
    cases hlo : castleLongE s c p with
    | error e => rw [hlo] at h; exact absurd h (by simp)
    | ok lo =>
      rw [hlo] at h
      dsimp only at h
      injection h with hh
      exact ⟨sh, lo, hh.symm, castleShortE_inv hsh, castleLongE_inv hlo⟩

theorem mem_postFilter_iff (c : Sq) (flt : List Sq)
    (hcnt : flt.count ((c.1, c.2 + 2) : Sq) ≤ 1) :
    (((c.1, c.2 + 2) : Sq) ∈ postFilter c flt ↔
      ((c.1, c.2 + 2) : Sq) ∈ flt ∧ ((c.1, c.2 + 1) : Sq) ∈ flt) := by
  have hneL : ((c.1, c.2 + 2) : Sq) ≠ (c.1, c.2 - 2) := by
    intro hc
    have := congrArg Prod.snd hc
    simp at this
    omega
  simp only [postFilter]
  have hstep2 : ∀ l : List Sq,
      (((c.1, c.2 + 2) : Sq) ∈
        (if ((c.1, c.2 - 2) : Sq) ∈ l ∧ ((c.1, c.2 - 1) : Sq) ∉ l then
          l.erase (c.1, c.2 - 2) else l) ↔ ((c.1, c.2 + 2) : Sq) ∈ l) := by
    intro l
    split
    · exact List.mem_erase_of_ne hneL
    · exact Iff.rfl
  rw [hstep2]
  by_cases hP : ((c.1, c.2 + 2) : Sq) ∈ flt ∧ ((c.1, c.2 + 1) : Sq) ∉ flt
  · rw [if_pos hP]
    constructor
    · intro hmem
      exfalso
      have hc := List.count_erase_self ((c.1, c.2 + 2) : Sq) flt
      have hm : 0 < (flt.erase ((c.1, c.2 + 2) : Sq)).count ((c.1, c.2 + 2) : Sq) :=
        List.count_pos_iff.mpr hmem
      omega
    · rintro ⟨h1, h2⟩
      exact absurd h2 hP.2
  · rw [if_neg hP]
    constructor
    · intro h1
      refine ⟨h1, ?_⟩
      by_contra h2
      exact hP ⟨h1, h2⟩
    · exact fun h => h.1

theorem mem_postFilter_iff_long (c : Sq) (flt : List Sq)
    (hcnt : flt.count ((c.1, c.2 - 2) : Sq) ≤ 1) :
    (((c.1, c.2 - 2) : Sq) ∈ postFilter c flt ↔
      ((c.1, c.2 - 2) : Sq) ∈ flt ∧ ((c.1, c.2 - 1) : Sq) ∈ flt) := by
  have hne2 : ((c.1, c.2 - 2) : Sq) ≠ (c.1, c.2 + 2) := by
    intro hc
    have := congrArg Prod.snd hc
    simp at this
    omega
  have hne1 : ((c.1, c.2 - 1) : Sq) ≠ (c.1, c.2 + 2) := by
    intro hc
    have := congrArg Prod.snd hc
    simp at this
    omega
  simp only [postFilter]
  have h2mem : ∀ l : List Sq,
      (((c.1, c.2 - 2) : Sq) ∈
        (if ((c.1, c.2 + 2) : Sq) ∈ l ∧ ((c.1, c.2 + 1) : Sq) ∉ l then
          l.erase (c.1, c.2 + 2) else l) ↔ ((c.1, c.2 - 2) : Sq) ∈ l) := by
    intro l
    split
    · exact List.mem_erase_of_ne hne2
    · exact Iff.rfl
  have h1mem : ∀ l : List Sq,
      (((c.1, c.2 - 1) : Sq) ∈
        (if ((c.1, c.2 + 2) : Sq) ∈ l ∧ ((c.1, c.2 + 1) : Sq) ∉ l then
          l.erase (c.1, c.2 + 2) else l) ↔ ((c.1, c.2 - 1) : Sq) ∈ l) := by
    intro l
    split
    · exact List.mem_erase_of_ne hne1
    · exact Iff.rfl
  have hcnt2 :
      (if ((c.1, c.2 + 2) : Sq) ∈ flt ∧ ((c.1, c.2 + 1) : Sq) ∉ flt then
        flt.erase (c.1, c.2 + 2) else flt).count ((c.1, c.2 - 2) : Sq) ≤ 1 := by
    split
    · rw [List.count_erase_of_ne hne2]
      exact hcnt
    · exact hcnt
  generalize hL : (if ((c.1, c.2 + 2) : Sq) ∈ flt ∧
      ((c.1, c.2 + 1) : Sq) ∉ flt then flt.erase (c.1, c.2 + 2) else flt) = L
  rw [hL] at hcnt2
  have hd2 : (((c.1, c.2 - 2) : Sq) ∈ L) ↔ ((c.1, c.2 - 2) : Sq) ∈ flt := by
    rw [← hL]
    exact h2mem flt
  have hd1 : (((c.1, c.2 - 1) : Sq) ∈ L) ↔ ((c.1, c.2 - 1) : Sq) ∈ flt := by
    rw [← hL]
    exact h1mem flt
  by_cases hP : ((c.1, c.2 - 2) : Sq) ∈ L ∧ ((c.1, c.2 - 1) : Sq) ∉ L
  · rw [if_pos hP]
    constructor
    · intro hmem
      exfalso
      have hc := List.count_erase_self ((c.1, c.2 - 2) : Sq) L
      have hm : 0 < (L.erase ((c.1, c.2 - 2) : Sq)).count ((c.1, c.2 - 2) : Sq) :=
        List.count_pos_iff.mpr hmem
      omega
    · rintro ⟨h1, h2⟩
      exact absurd (hd1.mpr h2) hP.2
  · rw [if_neg hP]
    constructor
    · intro h1
      refine ⟨hd2.mp h1, ?_⟩
      by_contra h2
      exact hP ⟨h1, fun hc => h2 (hd1.mp hc)⟩
    · rintro ⟨h1, h2⟩
      exact hd2.mpr h1

/-- C3 (amended): for a king square, a two-file castling destination
(kingside `c.2 + 2` or queenside `c.2 - 2`) is in `legal_moves` iff the
castling candidate was appended (rights flag set and the squares the
`and`-chain reads are empty: one- and two-step squares for kingside, the
three squares between king and rook for queenside) and *both* the two-step
destination and the one-step destination pass the simulate-and-check test
(mover not in check after the simulated king move).  The king's *current*
square being attacked is not part of the condition: castling out of check
is offered. -/
theorem claim_C3 (s : Chess) (c : Sq) (s2 : Chess) (lm : List Sq) (v : Nat)
    (p : Nat × Colour) (rf cas : List Sq)
    (hv : validB s = true)
    (hget : boardGetE s.board c = Except.ok v)
    (hvp : valToPiece v = Except.ok (some p))
    (hking : p.1 = kingV)
    (hlm : legalMovesE c s = (s2, Except.ok lm))
    (hrf : reachableFields s.board s.enPassantTarget c = Except.ok rf)
    (hcas : castleAppend s c p = Except.ok cas)
    (hcnt : ((rf ++ cas).filter
        (fun g => decide (candCheck s c p g = Except.ok false))).count
      ((c.1, c.2 + 2) : Sq) ≤ 1)
    (hcntL : ((rf ++ cas).filter
        (fun g => decide (candCheck s c p g = Except.ok false))).count
      ((c.1, c.2 - 2) : Sq) ≤ 1) :
    (((c.1, c.2 + 2) : Sq) ∈ lm ↔
      ((c.1, c.2 + 2) : Sq) ∈ rf ++ cas ∧
      candCheck s c p (c.1, c.2 + 2) = Except.ok false ∧
      ((c.1, c.2 + 1) : Sq) ∈ rf ++ cas ∧
      candCheck s c p (c.1, c.2 + 1) = Except.ok false) ∧
    (((c.1, c.2 + 2) : Sq) ∈ cas ↔
      shortCastle s p.2 = true ∧
      boardGetE s.board (c.1, c.2 + 1) = Except.ok 0 ∧
      boardGetE s.board (c.1, c.2 + 2) = Except.ok 0) ∧
    (((c.1, c.2 - 2) : Sq) ∈ lm ↔
      ((c.1, c.2 - 2) : Sq) ∈ rf ++ cas ∧
      candCheck s c p (c.1, c.2 - 2) = Except.ok false ∧
      ((c.1, c.2 - 1) : Sq) ∈ rf ++ cas ∧
      candCheck s c p (c.1, c.2 - 1) = Except.ok false) ∧
    (((c.1, c.2 - 2) : Sq) ∈ cas ↔
      longCastle s p.2 = true ∧
      boardGetE s.board (c.1, c.2 - 1) = Except.ok 0 ∧
      boardGetE s.board (c.1, c.2 - 2) = Except.ok 0 ∧
      boardGetE s.board (c.1, c.2 - 3) = Except.ok 0) := by
  obtain ⟨v2, p2, hget2, hvp2, hcases⟩ := legalMoves_inv s c s2 lm hv hlm
  rw [hget] at hget2
  injection hget2 with hveq
  subst hveq
  rw [hvp] at hvp2
  injection hvp2 with hpeq
  rcases hcases with ⟨hnone2, _, _⟩ | ⟨p3, rf2, cas2, fenS, hp2, hfen, hrf2, hcas2, hchk, hlmEq, hs2⟩
  · rw [hnone2] at hpeq
    cases hpeq
  · rw [hp2] at hpeq
    injection hpeq with hpeq2
    subst hpeq2
    rw [hrf] at hrf2
    injection hrf2 with hrfeq
    subst hrfeq
    rw [hcas] at hcas2
    injection hcas2 with hcaseq
    subst hcaseq
    refine ⟨?_, ?_, ?_, ?_⟩
    · rw [hlmEq]
      simp only [pureLM]
      rw [if_pos hking]
      rw [mem_postFilter_iff c _ hcnt]
      rw [List.mem_filter, List.mem_filter]
      simp only [decide_eq_true_eq]
      tauto
    · obtain ⟨sh, lo, hcat, hshd, hlod⟩ := castleAppend_inv hking hcas
      subst hcat
      rw [List.mem_append]
      constructor
      · rintro (hm | hm)
        · rcases hshd with ⟨rfl, hfacts⟩ | ⟨rfl, hnf⟩
          · exact hfacts
          · cases hm
        · rcases hlod with ⟨rfl, _⟩ | ⟨rfl, _⟩
          · rw [List.mem_singleton] at hm
            have := congrArg Prod.snd hm
            simp at this
            omega
          · cases hm
      · intro hfacts
        rcases hshd with ⟨rfl, _⟩ | ⟨rfl, hnf⟩
        · exact Or.inl (List.mem_singleton.mpr rfl)
        · exact absurd hfacts hnf
    · rw [hlmEq]
      simp only [pureLM]
      rw [if_pos hking]
      rw [mem_postFilter_iff_long c _ hcntL]
      rw [List.mem_filter, List.mem_filter]
      simp only [decide_eq_true_eq]
      tauto
    · obtain ⟨sh, lo, hcat, hshd, hlod⟩ := castleAppend_inv hking hcas
      subst hcat
      rw [List.mem_append]
      constructor
      · rintro (hm | hm)
        · rcases hshd with ⟨rfl, _⟩ | ⟨rfl, _⟩
          · rw [List.mem_singleton] at hm
            have := congrArg Prod.snd hm
            simp at this
            omega
          · cases hm
        · rcases hlod with ⟨rfl, hfacts⟩ | ⟨rfl, hnf⟩
          · exact hfacts
          · cases hm
      · intro hfacts
        rcases hlod with ⟨rfl, _⟩ | ⟨rfl, hnf⟩
        · exact Or.inr (List.mem_singleton.mpr rfl)
        · exact absurd hfacts hnf

theorem claim_C3_witness :
    (((0 : Int), (6 : Int)) ∈ [((0 : Int), (3 : Int)), (0, 5), (1, 3), (1, 4),
        (1, 5), (0, 6)] ↔
      ((0 : Int), (6 : Int)) ∈
        [((0 : Int), (3 : Int)), (0, 5), (1, 3), (1, 4), (1, 5)] ++ [(0, 6)] ∧
      candCheck sC2 (0, 4) (32, Colour.white) (0, 6) = Except.ok false ∧
      ((0 : Int), (5 : Int)) ∈
        [((0 : Int), (3 : Int)), (0, 5), (1, 3), (1, 4), (1, 5)] ++ [(0, 6)] ∧
      candCheck sC2 (0, 4) (32, Colour.white) (0, 5) = Except.ok false) ∧
    (((0 : Int), (6 : Int)) ∈ [((0 : Int), (6 : Int))] ↔
      shortCastle sC2 (32, Colour.white).2 = true ∧
      boardGetE sC2.board (0, 5) = Except.ok 0 ∧
      boardGetE sC2.board (0, 6) = Except.ok 0) ∧
    (((0 : Int), (2 : Int)) ∈ [((0 : Int), (3 : Int)), (0, 5), (1, 3), (1, 4),
        (1, 5), (0, 6)] ↔
      ((0 : Int), (2 : Int)) ∈
        [((0 : Int), (3 : Int)), (0, 5), (1, 3), (1, 4), (1, 5)] ++ [(0, 6)] ∧
      candCheck sC2 (0, 4) (32, Colour.white) (0, 2) = Except.ok false ∧
      ((0 : Int), (3 : Int)) ∈
        [((0 : Int), (3 : Int)), (0, 5), (1, 3), (1, 4), (1, 5)] ++ [(0, 6)] ∧
      candCheck sC2 (0, 4) (32, Colour.white) (0, 3) = Except.ok false) ∧
    (((0 : Int), (2 : Int)) ∈ [((0 : Int), (6 : Int))] ↔
      longCastle sC2 (32, Colour.white).2 = true ∧
      boardGetE sC2.board (0, 3) = Except.ok 0 ∧
      boardGetE sC2.board (0, 2) = Except.ok 0 ∧
      boardGetE sC2.board (0, 1) = Except.ok 0) :=
  claim_C3 sC2 (0, 4) (legalMovesE (0, 4) sC2).1
    [((0 : Int), (3 : Int)), (0, 5), (1, 3), (1, 4), (1, 5), (0, 6)] 32
    (32, Colour.white)
    [((0 : Int), (3 : Int)), (0, 5), (1, 3), (1, 4), (1, 5)] [(0, 6)]
    (by decide) (by decide) (by decide) (by decide) (by decide) (by decide)
    (by decide) (by decide) (by decide)

theorem boardGetE_sys {b : Board} {sq : Sq} {e : Err}
    (h : boardGetE b sq = Except.error e) : sysErrB e = true := by
  unfold boardGetE at h
  repeat' split at h
  all_goals first
    | (injection h with hh; subst hh; rfl)
    | simp at h

theorem boardSetE_sys {b : Board} {sq : Sq} {v : Nat} {e : Err}
    (h : boardSetE b sq v = Except.error e) : sysErrB e = true := by
  unfold boardSetE at h
  repeat' split at h
  all_goals first
    | (injection h with hh; subst hh; rfl)
    | simp at h

theorem valToPiece_sys {v : Nat} {e : Err}
    (h : valToPiece v = Except.error e) : sysErrB e = true := by
  unfold valToPiece at h
  split at h
  · simp at h
  · dsimp only at h
    by_cases hgt : v > 64
    · rw [if_pos hgt] at h
      split at h
      · simp at h
      · injection h with hh
        subst hh
        rfl
    · rw [if_neg hgt] at h
      split at h
      · simp at h
      · injection h with hh
        subst hh
        rfl

theorem coorToStr_sys {c : Sq} {e : Err}
    (h : coorToStr c = Except.error e) : sysErrB e = true := by
  unfold coorToStr at h
  repeat' split at h
  all_goals first
    | (injection h with hh; subst hh; rfl)
    | simp at h

theorem strToCoor_sys {l : List Char} {e : Err}
    (h : strToCoor l = Except.error e) : sysErrB e = true := by
  unfold strToCoor at h
  repeat' split at h
  all_goals first
    | (injection h with hh; subst hh; rfl)
    | simp at h

theorem parseInt_sys {l : List Char} {e : Err}
    (h : parseInt l = Except.error e) : sysErrB e = true := by
  unfold parseInt at h
  repeat' split at h
  all_goals first
    | (injection h with hh; subst hh; rfl)
    | simp at h

theorem getFenE_sys {s : Chess} {e : Err}
    (h : getFenE s = Except.error e) : sysErrB e = true := by
  unfold getFenE at h
  cases hep : s.enPassantTarget with
  | none => rw [hep] at h; exact absurd h (by simp)
  | some c =>
    rw [hep] at h
    dsimp only at h
    cases hc : coorToStr c with
    | error e2 =>
      rw [hc] at h
      dsimp only at h
      injection h with hh
      subst hh
      exact coorToStr_sys hc
    | ok l => rw [hc] at h; exact absurd h (by simp)

theorem repetitionE_sys {s : Chess} {e : Err}
    (h : repetitionE s = Except.error e) : sysErrB e = true := by
  unfold repetitionE at h
  repeat' split at h
  all_goals first
    | (injection h with hh; subst hh; rfl)
    | simp at h

theorem parseRowGo_sys {rank : Nat} {e : Err} :
    ∀ (b : Board) (cs : List Char) (file : Nat) (b2 : Board),
      parseRowGo b rank cs file = (b2, some e) → sysErrB e = true := by
  intro b cs
  induction cs generalizing b with
  | nil =>
    intro file b2 h
    exact absurd h (by simp [parseRowGo])
  | cons c rest ih =>
    intro file b2 h
    unfold parseRowGo at h
    by_cases hd : c.isDigit
    · rw [if_pos hd] at h
      exact ih b _ _ h
    · rw [if_neg hd] at h
      cases hpv : pieceValue c with
      | none =>
        rw [hpv] at h
        dsimp only at h
        injection h with h1 h2
        injection h2 with h2
        subst h2
        rfl
      | some v =>
        rw [hpv] at h
        dsimp only at h
        cases hbs : boardSetE b ((rank : Int), (file : Int)) v with
        | ok bb =>
          rw [hbs] at h
          exact ih bb _ _ h
        | error e2 =>
          rw [hbs] at h
          dsimp only at h
          injection h with h1 h2
          injection h2 with h2
          subst h2
          exact boardSetE_sys hbs

theorem parseRanksGo_sys {e : Err} :
    ∀ (rs : List (List Char)) (b : Board) (rank : Nat) (b2 : Board),
      parseRanksGo b rs rank = (b2, some e) → sysErrB e = true := by
  intro rs
  induction rs with
  | nil =>
    intro b rank b2 h
    exact absurd h (by simp [parseRanksGo])
  | cons r rest ih =>
    intro b rank b2 h
    unfold parseRanksGo at h
    cases hrow : parseRowGo b rank r 0 with
    | mk bb oe =>
      cases oe with
      | none =>
        rw [hrow] at h
        exact ih bb _ _ h
      | some e2 =>
        rw [hrow] at h
        dsimp only at h
        injection h with h1 h2
        injection h2 with h2
        subst h2
        exact parseRowGo_sys _ _ _ _ hrow

theorem setFenE_sys {s : Chess} {fen : List Char} {s2 : Chess} {e : Err}
    (h : setFenE s fen = (s2, Except.error e)) : sysErrB e = true := by
  unfold setFenE at h
  split at h
  · rename_i b0 b1 b2 b3 b4 b5 heq
    cases hpr : parseRanksGo zeroBoard (splitOnChar '/' b0).reverse 0 with
    | mk bd oe =>
      cases oe with
      | some e2 =>
        rw [hpr] at h
        dsimp only at h
        injection h with h1 h2
        injection h2 with h2
        subst h2
        exact parseRanksGo_sys _ _ _ _ hpr
      | none =>
        rw [hpr] at h
        dsimp only at h
        split at h
        · rename_i hepv
          split at hepv
          · exact absurd hepv (by simp)
          · split at hepv
            · exact absurd hepv (by simp)
            · rename_i e3 hstc
              injection hepv with hh
              injection h with h1 h2
              injection h2 with h2
              subst h2
              subst hh
              exact strToCoor_sys hstc
        · rename_i ep hepv
          cases hpi : parseInt b4 with
          | error e3 =>
            rw [hpi] at h
            dsimp only at h
            injection h with h1 h2
            injection h2 with h2
            subst h2
            exact parseInt_sys hpi
          | ok hm =>
            rw [hpi] at h
            dsimp only at h
            cases hpi2 : parseInt b5 with
            | error e3 =>
              rw [hpi2] at h
              dsimp only at h
              injection h with h1 h2
              injection h2 with h2
              subst h2
              exact parseInt_sys hpi2
            | ok m =>
              rw [hpi2] at h
              dsimp only at h
              exact absurd h (by simp)
  · injection h with h1 h2
    injection h2 with h2
    subst h2
    rfl

theorem pawnFields_sys {b : Board} {ep : Option Sq} {start : Sq} {colour : Colour}
    {e : Err} (h : pawnFields b ep start colour = Except.error e) :
    sysErrB e = true := by
  simp only [pawnFields] at h
  repeat' split at h
  all_goals first
    | (injection h with hh; subst hh; rfl)
    | (simp at h; done)
    | (injection h with hh
       subst hh
       rename_i heq
       first
         | exact boardGetE_sys heq
         | exact valToPiece_sys heq
         | ((repeat' split at heq) <;>
             first
               | (injection heq with hh2; subst hh2; rfl)
               | (simp at heq; done)
               | (injection heq with hh2
                  subst hh2
                  rename_i heq2
                  first
                    | exact boardGetE_sys heq2
                    | exact valToPiece_sys heq2)))

theorem knightGo_sys {b : Board} {colour : Colour} {start : Sq} {e : Err} :
    ∀ ks : List (Int × Int), knightGo b colour start ks = Except.error e →
      sysErrB e = true := by
  intro ks
  induction ks with
  | nil => intro h; simp [knightGo] at h
  | cons k rest ih =>
    intro h
    simp only [knightGo] at h
    repeat' split at h
    all_goals first
      | (injection h with hh; subst hh; rfl)
      | (simp at h; done)
      | exact ih h
      | (injection h with hh
         subst hh
         rename_i heq
         first
           | exact boardGetE_sys heq
           | exact valToPiece_sys heq
           | exact ih heq)

theorem rayGo_sys {b : Board} {colour : Colour} {d : Int × Int} {e : Err} :
    ∀ (fuel : Nat) (cur : Sq), rayGo b colour d fuel cur = Except.error e →
      sysErrB e = true := by
  intro fuel
  induction fuel with
  | zero => intro cur h; simp [rayGo] at h
  | succ n ih =>
    intro cur h
    simp only [rayGo] at h
    repeat' split at h
    all_goals first
      | (injection h with hh; subst hh; rfl)
      | (simp at h; done)
      | exact ih _ h
      | (injection h with hh
         subst hh
         rename_i heq
         first
           | exact boardGetE_sys heq
           | exact valToPiece_sys heq
           | exact ih _ heq)

theorem raysGo_sys {b : Board} {colour : Colour} {start : Sq} {e : Err} :
    ∀ ds : List (Int × Int), raysGo b colour start ds = Except.error e →
      sysErrB e = true := by
  intro ds
  induction ds with
  | nil => intro h; simp [raysGo] at h
  | cons d rest ih =>
    intro h
    simp only [raysGo] at h
    repeat' split at h
    all_goals first
      | (injection h with hh; subst hh; rfl)
      | (simp at h; done)
      | exact ih h
      | (injection h with hh
         subst hh
         rename_i heq
         first
           | exact rayGo_sys _ _ heq
           | exact ih heq)

theorem kingRowGo_sys {b : Board} {colour : Colour} {i : Int} {e : Err} :
    ∀ js : List Int, kingRowGo b colour i js = Except.error e →
      sysErrB e = true := by
  intro js
  induction js with
  | nil => intro h; simp [kingRowGo] at h
  | cons j rest ih =>
    intro h
    simp only [kingRowGo] at h
    repeat' split at h
    all_goals first
      | (injection h with hh; subst hh; rfl)
      | (simp at h; done)
      | exact ih h
      | (injection h with hh
         subst hh
         rename_i heq
         first
           | exact boardGetE_sys heq
           | exact valToPiece_sys heq
           | exact ih heq)

theorem kingGo_sys {b : Board} {colour : Colour} {start : Sq} {e : Err} :
    ∀ is : List Int, kingGo b colour start is = Except.error e →
      sysErrB e = true := by
  intro is
  induction is with
  | nil => intro h; simp [kingGo] at h
  | cons i rest ih =>
    intro h
    simp only [kingGo] at h
    repeat' split at h
    all_goals first
      | (injection h with hh; subst hh; rfl)
      | (simp at h; done)
      | exact ih h
      | (injection h with hh
         subst hh
         rename_i heq
         first
           | exact kingRowGo_sys _ heq
           | exact ih heq)

theorem reachableFields_sys {b : Board} {ep : Option Sq} {c : Sq} {e : Err}
    (h : reachableFields b ep c = Except.error e) : sysErrB e = true := by
  simp only [reachableFields] at h
  repeat' split at h
  all_goals first
    | (injection h with hh; subst hh; rfl)
    | (simp at h; done)
    | exact pawnFields_sys h
    | exact knightGo_sys _ h
    | exact raysGo_sys _ h
    | exact kingGo_sys _ h
    | (injection h with hh
       subst hh
       rename_i heq
       first
         | exact boardGetE_sys heq
         | exact valToPiece_sys heq
         | exact raysGo_sys _ heq)

theorem inCheckGo_sys {b : Board} {ep : Option Sq} {kc : Sq} {e : Err} :
    ∀ cs : List Sq, inCheckGo b ep kc cs = Except.error e →
      sysErrB e = true := by
  intro cs
  induction cs with
  | nil => intro h; simp [inCheckGo] at h
  | cons c rest ih =>
    intro h
    simp only [inCheckGo] at h
    repeat' split at h
    all_goals first
      | (injection h with hh; subst hh; rfl)
      | (simp at h; done)
      | exact ih h
      | (injection h with hh
         subst hh
         rename_i heq
         exact reachableFields_sys heq)

theorem inCheckE_sys {b : Board} {ep : Option Sq} {colour : Colour} {e : Err}
    (h : inCheckE b ep colour = Except.error e) : sysErrB e = true := by
  simp only [inCheckE] at h
  repeat' split at h
  all_goals first
    | (injection h with hh; subst hh; rfl)
    | (simp at h; done)
    | exact inCheckGo_sys _ h

theorem castleShortE_sys {s : Chess} {c : Sq} {p : Nat × Colour} {e : Err}
    (h : castleShortE s c p = Except.error e) : sysErrB e = true := by
  simp only [castleShortE] at h
  repeat' split at h
  all_goals first
    | (injection h with hh; subst hh; rfl)
    | (simp at h; done)
    | (injection h with hh
       subst hh
       rename_i heq
       exact boardGetE_sys heq)

theorem castleLongE_sys {s : Chess} {c : Sq} {p : Nat × Colour} {e : Err}
    (h : castleLongE s c p = Except.error e) : sysErrB e = true := by
  simp only [castleLongE] at h
  repeat' split at h
  all_goals first
    | (injection h with hh; subst hh; rfl)
    | (simp at h; done)
    | (injection h with hh
       subst hh
       rename_i heq
       exact boardGetE_sys heq)

theorem castleAppend_sys {s : Chess} {c : Sq} {p : Nat × Colour} {e : Err}
    (h : castleAppend s c p = Except.error e) : sysErrB e = true := by
  simp only [castleAppend] at h
  repeat' split at h
  all_goals first
    | (injection h with hh; subst hh; rfl)
    | (simp at h; done)
    | (injection h with hh
       subst hh
       rename_i heq
       first
         | exact castleShortE_sys heq
         | exact castleLongE_sys heq)

theorem pushBoard_sys {b0 : Board} {ep : Option Sq} {start dst : Sq}
    {p : Nat × Colour} {promo : Nat} {b2 : Board} {e : Err}
    (h : pushBoard b0 ep start dst p promo = (b2, some e)) :
    sysErrB e = true := by
  simp only [pushBoard, bstep, bset] at h
  repeat' split at h
  all_goals first
    | (simp at h; done)
    | (injection h with h1 h2
       injection h2 with h2
       subst h2
       first
         | rfl
         | (rename_i heq
            first
              | exact boardSetE_sys heq
              | exact boardGetE_sys heq
              | ((repeat' split at heq) <;>
                  first
                    | (simp at heq; done)
                    | (injection heq with g1 g2
                       injection g2 with g2
                       subst g2
                       first
                         | rfl
                         | (rename_i heq2
                            first
                              | exact boardSetE_sys heq2
                              | exact boardGetE_sys heq2
                              | ((repeat' split at heq2) <;>
                                  first
                                    | (simp at heq2; done)
                                    | (injection heq2 with k1 k2
                                       injection k2 with k2
                                       subst k2
                                       first
                                         | rfl
                                         | (rename_i heq3
                                            first
                                              | exact boardSetE_sys heq3
                                              | exact boardGetE_sys heq3))))))))

theorem pushMoveOp_sys {s : Chess} {start dst : Sq} {p : Nat × Colour}
    {promo : Nat} {s2 : Chess} {e : Err}
    (h : pushMoveOp s start dst p promo = (s2, Except.error e)) :
    sysErrB e = true := by
  simp only [pushMoveOp] at h
  repeat' split at h
  all_goals first
    | (simp at h; done)
    | (injection h with h1 h2
       injection h2 with h2
       subst h2
       rename_i heq
       first
         | exact getFenE_sys heq
         | exact pushBoard_sys heq)

theorem simLoop_sys {c : Sq} {p : Nat × Colour} {e : Err} :
    ∀ (fs : List Sq) (acc : List Sq) (s0 s2 : Chess),
      simLoop c p fs acc s0 = (s2, Except.error e) → sysErrB e = true := by
  intro fs
  induction fs with
  | nil => intro acc s0 s2 h; simp [simLoop] at h
  | cons f rest ih =>
    intro acc s0 s2 h
    simp only [simLoop] at h
    repeat' split at h
    all_goals first
      | (simp at h; done)
      | exact ih _ _ _ h
      | (injection h with h1 h2
         injection h2 with h2
         subst h2
         rename_i heq
         first
           | exact pushMoveOp_sys heq
           | exact setFenE_sys heq)
      | (injection h with h1 h2
         injection h2 with h2
         subst h2
         rename_i heq heq2
         first
           | exact inCheckE_sys heq2
           | exact inCheckE_sys heq)

theorem legalMovesE_sys {c : Sq} {s s2 : Chess} {e : Err}
    (h : legalMovesE c s = (s2, Except.error e)) : sysErrB e = true := by
  simp only [legalMovesE] at h
  repeat' split at h
  all_goals first
    | (simp at h; done)
    | (injection h with h1 h2
       injection h2 with h2
       subst h2
       rename_i heq
       first
         | exact reachableFields_sys heq
         | exact boardGetE_sys heq
         | exact valToPiece_sys heq
         | exact castleAppend_sys heq
         | exact simLoop_sys _ _ _ _ heq)
    | (injection h with h1 h2
       injection h2 with h2
       subst h2
       rename_i heq heq2
       first
         | exact simLoop_sys _ _ _ _ heq2
         | exact simLoop_sys _ _ _ _ heq)

theorem countLoop_sys {e : Err} :
    ∀ (cs : List Sq) (acc : Nat) (s0 s2 : Chess),
      countLoop cs acc s0 = (s2, Except.error e) → sysErrB e = true := by
  intro cs
  induction cs with
  | nil => intro acc s0 s2 h; simp [countLoop] at h
  | cons c rest ih =>
    intro acc s0 s2 h
    simp only [countLoop] at h
    repeat' split at h
    all_goals first
      | (simp at h; done)
      | exact ih _ _ _ h
      | (injection h with h1 h2
         injection h2 with h2
         subst h2
         rename_i heq
         exact legalMovesE_sys heq)
      | (injection h with h1 h2
         injection h2 with h2
         subst h2
         rename_i heq heq2
         first
           | exact legalMovesE_sys heq2
           | exact legalMovesE_sys heq)

theorem moveUpdates_board (s2 : Chess) (start dst : Sq) (p : Nat × Colour)
    (capV : Nat) : (moveUpdates s2 start dst p capV).board = s2.board := by
  obtain ⟨k, pc⟩ := p
  cases pc <;>
    simp only [moveUpdates, counterUpd, clockUpd, cornerShortUpd,
      cornerLongUpd, kingCastleUpd, epUpd, setLongCastle, setShortCastle,
      apply_ite (Chess.board), ite_self]

theorem moveUpdates_moves (s2 : Chess) (start dst : Sq) (p : Nat × Colour)
    (capV : Nat) : (moveUpdates s2 start dst p capV).moves = s2.moves := by
  obtain ⟨k, pc⟩ := p
  cases pc <;>
    simp only [moveUpdates, counterUpd, clockUpd, cornerShortUpd,
      cornerLongUpd, kingCastleUpd, epUpd, setLongCastle, setShortCastle,
      apply_ite (Chess.moves), ite_self]

theorem moveUpdates_lastFen (s2 : Chess) (start dst : Sq) (p : Nat × Colour)
    (capV : Nat) : (moveUpdates s2 start dst p capV).lastFen = s2.lastFen := by
  obtain ⟨k, pc⟩ := p
  cases pc <;>
    simp only [moveUpdates, counterUpd, clockUpd, cornerShortUpd,
      cornerLongUpd, kingCastleUpd, epUpd, setLongCastle, setShortCastle,
      apply_ite (Chess.lastFen), ite_self]

theorem moveUpdates_toMove (s2 : Chess) (start dst : Sq) (p : Nat × Colour)
    (capV : Nat) :
    (moveUpdates s2 start dst p capV).toMove = s2.toMove.opposite := by
  obtain ⟨k, pc⟩ := p
  cases pc <;>
    simp only [moveUpdates, counterUpd, clockUpd, cornerShortUpd,
      cornerLongUpd, kingCastleUpd, epUpd, setLongCastle, setShortCastle,
      apply_ite (Chess.toMove), ite_self]

theorem moveUpdates_counter (s2 : Chess) (start dst : Sq) (p : Nat × Colour)
    (capV : Nat) :
    (moveUpdates s2 start dst p capV).moveCounter =
      (if s2.toMove = Colour.black then s2.moveCounter + 1
       else s2.moveCounter) := by
  obtain ⟨k, pc⟩ := p
  cases pc <;>
    simp only [moveUpdates, counterUpd, clockUpd, cornerShortUpd,
      cornerLongUpd, kingCastleUpd, epUpd, setLongCastle, setShortCastle,
      apply_ite (Chess.toMove), apply_ite (Chess.moveCounter), ite_self] <;>
    cases h2 : s2.toMove <;> simp [Colour.opposite]

theorem moveUpdates_hmc (s2 : Chess) (start dst : Sq) (p : Nat × Colour)
    (capV : Nat) : hmc (moveUpdates s2 start dst p capV) = hmc s2 + 1 := by
  unfold hmc
  rw [moveUpdates_toMove, moveUpdates_counter]
  cases h2 : s2.toMove <;> simp [Colour.opposite] <;> ring

theorem moveUpdates_long (s2 : Chess) (start dst : Sq) (p : Nat × Colour)
    (capV : Nat) (col : Colour) :
    longCastle (moveUpdates s2 start dst p capV) col =
      (if p.2 = col ∧ (p.1 = kingV ∨ start = ((0 : Int), (0 : Int)) ∨
          start = ((7 : Int), (0 : Int))) then false
       else longCastle s2 col) := by
  obtain ⟨k, pc⟩ := p
  cases pc <;> cases col <;>
    simp only [moveUpdates, counterUpd, clockUpd, cornerShortUpd,
      cornerLongUpd, kingCastleUpd, epUpd, setLongCastle, setShortCastle,
      longCastle, apply_ite (Chess.longCastleW), apply_ite (Chess.longCastleB),
      ite_self] <;>
    repeat' split <;> simp_all

theorem moveUpdates_short (s2 : Chess) (start dst : Sq) (p : Nat × Colour)
    (capV : Nat) (col : Colour) :
    shortCastle (moveUpdates s2 start dst p capV) col =
      (if p.2 = col ∧ (p.1 = kingV ∨ start = ((0 : Int), (7 : Int)) ∨
          start = ((7 : Int), (7 : Int))) then false
       else shortCastle s2 col) := by
  obtain ⟨k, pc⟩ := p
  cases pc <;> cases col <;>
    simp only [moveUpdates, counterUpd, clockUpd, cornerShortUpd,
      cornerLongUpd, kingCastleUpd, epUpd, setLongCastle, setShortCastle,
      shortCastle, apply_ite (Chess.shortCastleW),
      apply_ite (Chess.shortCastleB), ite_self] <;>
    repeat' split <;> simp_all

theorem rankChar_range {x : Int} {ch : Char} (h : rankChar x = some ch) :
    0 ≤ x ∧ x < 8 := by
  unfold rankChar at h
  split at h
  all_goals first
    | (simp at h; done)
    | omega

theorem fileChar_range {x : Int} {ch : Char} (h : fileChar x = some ch) :
    0 ≤ x ∧ x < 8 := by
  unfold fileChar at h
  split at h
  all_goals first
    | (simp at h; done)
    | omega

theorem coorToStr_range {c : Sq} {l : List Char}
    (h : coorToStr c = Except.ok l) :
    0 ≤ c.1 ∧ c.1 < 8 ∧ 0 ≤ c.2 ∧ c.2 < 8 := by
  unfold coorToStr at h
  cases h1 : rankChar c.1 with
  | none => rw [h1] at h; simp at h
  | some rc =>
    cases h2 : fileChar c.2 with
    | none => rw [h1, h2] at h; simp at h
    | some fc =>
      obtain ⟨ha, hb⟩ := rankChar_range h1
      obtain ⟨hc2, hd⟩ := fileChar_range h2
      exact ⟨ha, hb, hc2, hd⟩

theorem getFenE_ok_validEp {s : Chess} {f : List Char}
    (h : getFenE s = Except.ok f) : validEpB s.enPassantTarget = true := by
  unfold getFenE at h
  cases hep : s.enPassantTarget with
  | none => rfl
  | some c =>
    rw [hep] at h
    dsimp only at h
    cases hc : coorToStr c with
    | error e => rw [hc] at h; simp at h
    | ok l =>
      obtain ⟨h1, h2, h3, h4⟩ := coorToStr_range hc
      obtain ⟨cr, cf⟩ := c
      simp only [validEpB, decide_eq_true_eq]
      exact ⟨h1, h2, h3, h4⟩

theorem get?_mem_helper {A : Type} {l : List A} {i : Nat} {a : A}
    (h : l.get? i = some a) : a ∈ l := by
  rw [List.get?_eq_getElem?] at h
  exact List.getElem?_mem h

theorem boardGetE_valid {b : Board} {sq : Sq} {v : Nat}
    (hvb : validBoardB b = true) (h : boardGetE b sq = Except.ok v) :
    validCellB v = true := by
  unfold boardGetE at h
  cases i1 : idxWrap sq.1 with
  | none => rw [i1] at h; simp at h
  | some r =>
    rw [i1] at h
    cases i2 : idxWrap sq.2 with
    | none => rw [i2] at h; simp at h
    | some f =>
      rw [i2] at h
      dsimp only at h
      cases hrow : b.get? r with
      | none => rw [hrow] at h; simp at h
      | some row =>
        rw [hrow] at h
        dsimp only at h
        cases hc : row.get? f with
        | none => rw [hc] at h; simp at h
        | some w =>
          rw [hc] at h
          injection h with hh
          subst hh
          have hrow8 := (validBoard_rows hvb row (get?_mem_helper hrow)).2
          exact hrow8 _ (get?_mem_helper hc)

theorem validCell_zero : validCellB 0 = true := by decide

theorem validCell_pieceToVal {promo : Nat} (col : Colour)
    (h : promo ∈ pieceKinds) : validCellB (pieceToVal promo col) = true := by
  rcases pieceKinds_cases h with rfl | rfl | rfl | rfl | rfl | rfl <;>
    cases col <;> decide

theorem boardSetE_valid {b : Board} {sq : Sq} {v : Nat} {b2 : Board}
    (hvb : validBoardB b = true) (hc : validCellB v = true)
    (h : boardSetE b sq v = Except.ok b2) : validBoardB b2 = true := by
  obtain ⟨r, f, row, h1, h2, hrow, hlt, rfl⟩ := boardSetE_inv h
  unfold validBoardB at hvb ⊢
  simp only [Bool.and_eq_true, beq_iff_eq, List.all_eq_true] at hvb ⊢
  constructor
  · rw [List.length_set]
    exact hvb.1
  · intro row2 hmem
    rcases List.mem_or_eq_of_mem_set hmem with hm | hm
    · exact hvb.2 row2 hm
    · subst hm
      have hrow8 := hvb.2 row (get?_mem_helper hrow)
      constructor
      · rw [List.length_set]
        exact hrow8.1
      · intro w hw
        rcases List.mem_or_eq_of_mem_set hw with hm2 | hm2
        · exact hrow8.2 w hm2
        · subst hm2
          exact hc

theorem pushBoard_valid {b0 : Board} {ep : Option Sq} {start dst : Sq}
    {p : Nat × Colour} {promo : Nat} {b2 : Board}
    (hvb : validBoardB b0 = true) (hpromo : promo ∈ pieceKinds)
    (h : pushBoard b0 ep start dst p promo = (b2, none)) :
    validBoardB b2 = true := by
  simp only [pushBoard] at h
  obtain ⟨c1, hr1, h⟩ := bstep_none h
  obtain ⟨c2, hr2, h⟩ := bstep_none h
  obtain ⟨c3, hr3, h⟩ := bstep_none h
  have hv1 : validBoardB c1 = true := by
    split at hr1
    · exact boardSetE_valid hvb validCell_zero (bset_inv hr1)
    · injection hr1 with hb1 hb2
      rw [← hb1]
      exact hvb
  have hv2 : validBoardB c2 = true := by
    split at hr2
    · cases hg : boardGetE c1 (start.1, 7) with
      | error er => rw [hg] at hr2; exact absurd hr2 (by simp)
      | ok v =>
        rw [hg] at hr2
        dsimp only at hr2
        obtain ⟨cm, hm1, hm2⟩ := bstep_none hr2
        exact boardSetE_valid
          (boardSetE_valid hv1 (boardGetE_valid hv1 hg) (bset_inv hm1))
          validCell_zero (bset_inv hm2)
    · injection hr2 with hb1 hb2
      rw [← hb1]
      exact hv1
  have hv3 : validBoardB c3 = true := by
    split at hr3
    · cases hg : boardGetE c2 (start.1, 0) with
      | error er => rw [hg] at hr3; exact absurd hr3 (by simp)
      | ok v =>
        rw [hg] at hr3
        dsimp only at hr3
        obtain ⟨cm, hm1, hm2⟩ := bstep_none hr3
        exact boardSetE_valid
          (boardSetE_valid hv2 (boardGetE_valid hv2 hg) (bset_inv hm1))
          validCell_zero (bset_inv hm2)
    · injection hr3 with hb1 hb2
      rw [← hb1]
      exact hv2
  cases hsv : boardGetE c3 start with
  | error er => rw [hsv] at h; exact absurd h (by simp)
  | ok sv =>
    rw [hsv] at h
    dsimp only at h
    obtain ⟨c4, hc4, h⟩ := bstep_none h
    obtain ⟨c5, hc5, h⟩ := bstep_none h
    have hv4 : validBoardB c4 = true :=
      boardSetE_valid hv3 (boardGetE_valid hv3 hsv) (bset_inv hc4)
    have hv5 : validBoardB c5 = true :=
      boardSetE_valid hv4 validCell_zero (bset_inv hc5)
    split at h
    · exact boardSetE_valid hv5 (validCell_pieceToVal p.2 hpromo) (bset_inv h)
    · injection h with hb1 hb2
      rw [← hb1]
      exact hv5

theorem good_not_sys {r : Except Err (Sq × Sq)} {e : Err}
    (hgood : goodOutcome r) (hr : r = Except.error e)
    (hs : sysErrB e = true) : False := by
  subst hr
  rcases hgood with ⟨a, ha⟩ | ha | ha | ha | ha
  · exact absurd ha (by simp)
  all_goals (injection ha with hh; subst hh; simp [sysErrB] at hs)

theorem coreEq_trans {a b c : Chess} (h1 : CoreEq a b) (h2 : CoreEq b c) :
    CoreEq a c := by
  obtain ⟨x1, x2, x3, x4, x5, x6, x7, x8, x9⟩ := h1
  obtain ⟨y1, y2, y3, y4, y5, y6, y7, y8, y9⟩ := h2
  exact ⟨x1.trans y1, x2.trans y2, x3.trans y3, x4.trans y4, x5.trans y5,
    x6.trans y6, x7.trans y7, x8.trans y8, x9.trans y9⟩

theorem coreEq_validB {a b : Chess} (h : CoreEq a b) : validB a = validB b := by
  unfold validB
  rw [h.1, h.2.2.1]

theorem coreEq_hmc {a b : Chess} (h : CoreEq a b) : hmc a = hmc b := by
  unfold hmc
  rw [h.2.1, h.2.2.2.2.2.2.2.2]

theorem countLoop_pres {f0 : List Char} :
    ∀ (cs : List Sq) (acc : Nat) (s0 s2 : Chess) (n : Nat),
      validB s0 = true → getFenE s0 = Except.ok f0 →
      lookupA s0.moves (hmc s0) = some f0 →
      countLoop cs acc s0 = (s2, Except.ok n) →
      CoreEq s2 s0 ∧ s2.moves = s0.moves := by
  intro cs
  induction cs with
  | nil =>
    intro acc s0 s2 n hv hf hl h
    unfold countLoop at h
    injection h with h1 h2
    rw [← h1]
    exact ⟨coreEq_refl s0, rfl⟩
  | cons c rest ih =>
    intro acc s0 s2 n hv hf hl h
    unfold countLoop at h
    rcases hlm : legalMovesE c s0 with ⟨s1, res⟩
    rw [hlm] at h
    cases res with
    | error e => simp at h
    | ok lm =>
      dsimp only at h
      obtain ⟨v, p2, hget, hvp, hcases⟩ := legalMoves_inv s0 c s1 lm hv hlm
      have hs1 : CoreEq s1 s0 ∧ s1.moves = s0.moves := by
        rcases hcases with ⟨_, hs1eq, _⟩ |
          ⟨p, rf, cas, fenS, _, hfen, _, _, _, _, hs1eq⟩
        · rw [hs1eq]
          exact ⟨coreEq_refl s0, rfl⟩
        · rw [hf] at hfen
          injection hfen with hfeq
          subst hfeq
          rw [hs1eq]
          split
          · exact ⟨coreEq_refl s0, rfl⟩
          · refine ⟨coreEq_stab s0 f0, ?_⟩
            exact insertA_lookup_self s0.moves (hmc s0) f0 hl
      have hv1 : validB s1 = true := by
        rw [coreEq_validB hs1.1]
        exact hv
      have hf1 : getFenE s1 = Except.ok f0 := by
        rw [getFen_congr s1 s0 hs1.1]
        exact hf
      have hl1 : lookupA s1.moves (hmc s1) = some f0 := by
        rw [hs1.2, coreEq_hmc hs1.1]
        exact hl
      obtain ⟨hc2, hm2⟩ := ih _ _ _ _ hv1 hf1 hl1 h
      exact ⟨coreEq_trans hc2 hs1.1, by rw [hm2, hs1.2]⟩

theorem good_not_rej {r : Except Err (Sq × Sq)} (hgood : goodOutcome r) :
    r ≠ Except.error Err.noPiecePresent ∧ r ≠ Except.error Err.notYourTurn ∧
    r ≠ Except.error Err.illegalMove := by
  rcases hgood with ⟨a, ha⟩ | ha | ha | ha | ha <;> subst ha <;>
    refine ⟨by simp, by simp, by simp⟩

theorem pureLM_nil (s : Chess) (c : Sq) (p : Nat × Colour) :
    pureLM s c p [] = [] := by
  simp [pureLM, postFilter]

theorem moveFn_accept_inv (s : Chess) (start dst : Sq) (promo : Nat)
    (sF : Chess) (r : Except Err (Sq × Sq))
    (hv : validB s = true) (hpromo : promo ∈ pieceKinds)
    (hm : moveFn s start dst promo = (sF, r)) (hgood : goodOutcome r) :
    ∃ v p lm fenS capV bpush fenNew,
      boardGetE s.board start = Except.ok v ∧
      valToPiece v = Except.ok (some p) ∧
      p.2 = s.toMove ∧
      getFenE s = Except.ok fenS ∧
      legalMovesE start s = (stab s fenS, Except.ok lm) ∧
      dst ∈ lm ∧
      boardGetE (stab s fenS).board dst = Except.ok capV ∧
      pushBoard s.board s.enPassantTarget start dst p promo = (bpush, none) ∧
      getFenE (moveUpdates (midState s fenS bpush) start dst p capV) =
        Except.ok fenNew ∧
      validB (postMove s fenS bpush start dst p capV fenNew) = true ∧
      hmc (moveUpdates (midState s fenS bpush) start dst p capV) = hmc s + 1 ∧
      (postMove s fenS bpush start dst p capV fenNew).moves =
        insertA (insertA s.moves (hmc s) fenS) (hmc s + 1) fenNew ∧
      getFenE (postMove s fenS bpush start dst p capV fenNew) =
        Except.ok fenNew ∧
      CoreEq sF (postMove s fenS bpush start dst p capV fenNew) ∧
      sF.moves = (postMove s fenS bpush start dst p capV fenNew).moves ∧
      ((r = Except.error (Err.draw DrawReason.repetition) ∧
        sF = postMove s fenS bpush start dst p capV fenNew ∧
        repetitionE (postMove s fenS bpush start dst p capV fenNew) =
          Except.ok true) ∨
       (repetitionE (postMove s fenS bpush start dst p capV fenNew) =
          Except.ok false ∧
        r ≠ Except.error (Err.draw DrawReason.repetition))) := by
  unfold moveFn at hm
  cases hget : boardGetE s.board start with
  | error e =>
    rw [hget] at hm
    dsimp only at hm
    injection hm with h1 h2
    exact (good_not_sys hgood h2.symm (boardGetE_sys hget)).elim
  | ok v =>
    rw [hget] at hm
    dsimp only at hm
    cases hvp : valToPiece v with
    | error e =>
      rw [hvp] at hm
      dsimp only at hm
      injection hm with h1 h2
      exact (good_not_sys hgood h2.symm (valToPiece_sys hvp)).elim
    | ok p2 =>
      rw [hvp] at hm
      cases p2 with
      | none =>
        dsimp only at hm
        injection hm with h1 h2
        exact absurd h2.symm (good_not_rej hgood).1
      | some p =>
        dsimp only at hm
        by_cases hturn : p.2 = s.toMove
        · rw [if_neg (fun hc => hc hturn)] at hm
          rcases hlm : legalMovesE start s with ⟨s1, res⟩
          rw [hlm] at hm
          cases res with
          | error e =>
            dsimp only at hm
            injection hm with h1 h2
            exact (good_not_sys hgood h2.symm (legalMovesE_sys hlm)).elim
          | ok lm =>
            dsimp only at hm
            by_cases hdst : dst ∈ lm
            · rw [if_neg (fun hc => hc hdst)] at hm
              obtain ⟨v2, p2', hget2, hvp2, hcases⟩ :=
                legalMoves_inv s start s1 lm hv hlm
              rw [hget] at hget2
              injection hget2 with hveq
              subst hveq
              rw [hvp] at hvp2
              injection hvp2 with hpeq
              rcases hcases with ⟨hnone2, _, hlmnil⟩ |
                ⟨p3, rf, cas, fenS, hp2, hfen, hrf2, hcas2, hchk, hlmEq, hs1⟩
              · rw [hnone2] at hpeq
                cases hpeq
              · rw [hp2] at hpeq
                injection hpeq with hpeq2
                subst hpeq2
                have hnonempty : ¬(rf ++ cas).isEmpty = true := by
                  intro hemp
                  rw [List.isEmpty_iff] at hemp
                  rw [hlmEq, hemp, pureLM_nil] at hdst
                  cases hdst
                rw [if_neg hnonempty] at hs1
                subst hs1
                cases hcap : boardGetE (stab s fenS).board dst with
                | error e =>
                  rw [hcap] at hm
                  dsimp only at hm
                  injection hm with h1 h2
                  exact (good_not_sys hgood h2.symm (boardGetE_sys hcap)).elim
                | ok capV =>
                  rw [hcap] at hm
                  dsimp only at hm
                  unfold moveApply at hm
                  have hfenStab : getFenE (stab s fenS) = Except.ok fenS := by
                    rw [getFen_stab]
                    exact hfen
                  rcases hpm : pushMoveOp (stab s fenS) start dst p promo with
                    ⟨s2m, pres⟩
                  rw [hpm] at hm
                  unfold pushMoveOp at hpm
                  rw [hfenStab] at hpm
                  dsimp only at hpm
                  rcases hpb : pushBoard (stab s fenS).board
                      (stab s fenS).enPassantTarget start dst p promo with
                    ⟨bpush, obe⟩
                  rw [hpb] at hpm
                  cases obe with
                  | some e =>
                    dsimp only at hpm
                    injection hpm with g1 g2
                    rw [← g2] at hm
                    dsimp only at hm
                    injection hm with h1 h2
                    exact (good_not_sys hgood h2.symm (pushBoard_sys hpb)).elim
                  | none =>
                    dsimp only at hpm
                    injection hpm with g1 g2
                    rw [← g2] at hm
                    dsimp only at hm
                    rw [← g1] at hm
                    have hmid : ({stab s fenS with lastFen := fenS, board := bpush} : Chess) = midState s fenS bpush := rfl
                    rw [hmid] at hm
                    cases hfN : getFenE
                        (moveUpdates (midState s fenS bpush) start dst p capV) with
                    | error e =>
                      rw [hfN] at hm
                      dsimp only at hm
                      injection hm with h1 h2
                      exact (good_not_sys hgood h2.symm (getFenE_sys hfN)).elim
                    | ok fenNew =>
                      rw [hfN] at hm
                      dsimp only at hm
                      have hpost : ({moveUpdates (midState s fenS bpush) start dst
                          p capV with moves := insertA (moveUpdates (midState s
                          fenS bpush) start dst p capV).moves (hmc (moveUpdates
                          (midState s fenS bpush) start dst p capV)) fenNew} :
                          Chess) = postMove s fenS bpush start dst p capV fenNew :=
                        rfl
                      rw [hpost] at hm
                      -- facts about the post state
                      have hvb0 : validBoardB s.board = true := by
                        unfold validB at hv
                        simp only [Bool.and_eq_true] at hv
                        exact hv.1
                      have hvbp : validBoardB bpush = true :=
                        pushBoard_valid hvb0 hpromo hpb
                      have hb10 : (moveUpdates (midState s fenS bpush) start dst
                          p capV).board = bpush := by
                        rw [moveUpdates_board]
                        rfl
                      have hvpost : validB (postMove s fenS bpush start dst p
                          capV fenNew) = true := by
                        unfold validB
                        rw [Bool.and_eq_true]
                        constructor
                        · show validBoardB (moveUpdates (midState s fenS bpush)
                            start dst p capV).board = true
                          rw [hb10]
                          exact hvbp
                        · show validEpB (moveUpdates (midState s fenS bpush)
                            start dst p capV).enPassantTarget = true
                          exact getFenE_ok_validEp hfN
                      have hmc10 : hmc (moveUpdates (midState s fenS bpush)
                          start dst p capV) = hmc s + 1 := by
                        rw [moveUpdates_hmc]
                        rfl
                      have hmoves10 : (moveUpdates (midState s fenS bpush) start
                          dst p capV).moves = insertA s.moves (hmc s) fenS := by
                        rw [moveUpdates_moves]
                        rfl
                      have hmovesPost : (postMove s fenS bpush start dst p capV
                          fenNew).moves = insertA (insertA s.moves (hmc s) fenS)
                          (hmc s + 1) fenNew := by
                        show insertA (moveUpdates (midState s fenS bpush) start
                          dst p capV).moves (hmc (moveUpdates (midState s fenS
                          bpush) start dst p capV)) fenNew = _
                        rw [hmoves10, hmc10]
                      have hcorePost : CoreEq (postMove s fenS bpush start dst p
                          capV fenNew) (moveUpdates (midState s fenS bpush)
                          start dst p capV) :=
                        ⟨rfl, rfl, rfl, rfl, rfl, rfl, rfl, rfl, rfl⟩
                      have hfPost : getFenE (postMove s fenS bpush start dst p
                          capV fenNew) = Except.ok fenNew := by
                        rw [getFen_congr _ _ hcorePost]
                        exact hfN
                      have hlPost : lookupA (postMove s fenS bpush start dst p
                          capV fenNew).moves (hmc (postMove s fenS bpush start
                          dst p capV fenNew)) = some fenNew := by
                        have hmcPost : hmc (postMove s fenS bpush start dst p
                            capV fenNew) = hmc (moveUpdates (midState s fenS
                            bpush) start dst p capV) := coreEq_hmc hcorePost
                        rw [hmcPost]
                        exact lookupA_insertA_self _ _ _
                      refine ⟨v, p, lm, fenS, capV, bpush, fenNew, rfl, hvp,
                        hturn, hfen, rfl, hdst, hcap, hpb, hfN, hvpost, hmc10,
                        hmovesPost, hfPost, ?_⟩
                      cases hrep : repetitionE
                          (postMove s fenS bpush start dst p capV fenNew) with
                      | error e =>
                        rw [hrep] at hm
                        dsimp only at hm
                        injection hm with h1 h2
                        exact (good_not_sys hgood h2.symm
                          (repetitionE_sys hrep)).elim
                      | ok rep =>
                        rw [hrep] at hm
                        dsimp only at hm
                        cases rep with
                        | true =>
                          rw [if_pos rfl] at hm
                          injection hm with h1 h2
                          refine ⟨h1.symm ▸ (coreEq_refl _), by rw [← h1], ?_⟩
                          exact Or.inl ⟨h2.symm, h1.symm, rfl⟩
                        | false =>
                          rw [if_neg (by simp)] at hm
                          rcases hcl : countLoop (piecesScan (moveUpdates
                              (midState s fenS bpush) start dst p capV).board
                              (moveUpdates (midState s fenS bpush) start dst p
                              capV).toMove) 0
                              (postMove s fenS bpush start dst p capV fenNew)
                            with ⟨s12, cres⟩
                          rw [hcl] at hm
                          cases cres with
                          | error e =>
                            dsimp only at hm
                            injection hm with h1 h2
                            exact (good_not_sys hgood h2.symm
                              (countLoop_sys _ _ _ _ hcl)).elim
                          | ok n =>
                            dsimp only at hm
                            obtain ⟨hc12, hm12⟩ := countLoop_pres _ _ _ _ _
                              hvpost hfPost hlPost hcl
                            have hfin : s12 = sF ∧
                                r ≠ Except.error (Err.draw DrawReason.repetition)
                                := by
                              by_cases hn : n = 0
                              · rw [if_pos hn] at hm
                                cases hic : inCheckE s12.board
                                    s12.enPassantTarget s12.toMove with
                                | error e =>
                                  rw [hic] at hm
                                  dsimp only at hm
                                  injection hm with h1 h2
                                  exact (good_not_sys hgood h2.symm
                                    (inCheckE_sys hic)).elim
                                | ok chk =>
                                  rw [hic] at hm
                                  dsimp only at hm
                                  cases chk with
                                  | true =>
                                    rw [if_pos rfl] at hm
                                    injection hm with h1 h2
                                    exact ⟨h1, by rw [← h2]; simp⟩
                                  | false =>
                                    rw [if_neg (by simp)] at hm
                                    injection hm with h1 h2
                                    exact ⟨h1, by rw [← h2]; simp⟩
                              · rw [if_neg hn] at hm
                                by_cases hfifty : s12.halfMoveClock ≥ 50
                                · rw [if_pos hfifty] at hm
                                  injection hm with h1 h2
                                  exact ⟨h1, by rw [← h2]; simp⟩
                                · rw [if_neg hfifty] at hm
                                  injection hm with h1 h2
                                  exact ⟨h1, by rw [← h2]; simp⟩
                            obtain ⟨h12F, hrne⟩ := hfin
                            subst h12F
                            exact ⟨hc12, hm12, Or.inr ⟨rfl, hrne⟩⟩
            · rw [if_pos hdst] at hm
              injection hm with h1 h2
              exact absurd h2.symm (good_not_rej hgood).2.2
        · rw [if_pos hturn] at hm
          injection hm with h1 h2
          exact absurd h2.symm (good_not_rej hgood).2.1

theorem coreEq_long {x y : Chess} (h : CoreEq x y) (col : Colour) :
    longCastle x col = longCastle y col := by
  cases col
  · exact h.2.2.2.1
  · exact h.2.2.2.2.1

theorem coreEq_short {x y : Chess} (h : CoreEq x y) (col : Colour) :
    shortCastle x col = shortCastle y col := by
  cases col
  · exact h.2.2.2.2.2.1
  · exact h.2.2.2.2.2.2.1

theorem hmc_postMove (s : Chess) (fenS : List Char) (bpush : Board)
    (start dst : Sq) (p : Nat × Colour) (capV : Nat) (fenNew : List Char) :
    hmc (postMove s fenS bpush start dst p capV fenNew) =
      hmc (moveUpdates (midState s fenS bpush) start dst p capV) := rfl

theorem reachable_inv (s : Chess) (h : Reachable s) :
    validB s = true ∧
    ∃ f, getFenE s = Except.ok f ∧ lookupA s.moves (hmc s) = some f := by
  induction h with
  | start => exact ⟨by decide, startFen, by decide, by decide⟩
  | step hre hpromo hmov hgood ih =>
    obtain ⟨hv, f, hf, hl⟩ := ih
    obtain ⟨v, p, lm, fenS, capV, bpush, fenNew, hget, hvp, hturn, hfen, hlm,
      hdst, hcap, hpb, hfN, hvpost, hmc10, hmovesPost, hfPost, hcore, hmeq,
      hor⟩ := moveFn_accept_inv _ _ _ _ _ _ hv hpromo hmov hgood
    refine ⟨?_, fenNew, ?_, ?_⟩
    · rw [coreEq_validB hcore]
      exact hvpost
    · rw [getFen_congr _ _ hcore]
      exact hfPost
    · rw [hmeq, coreEq_hmc hcore, hmc_postMove, hmc10, hmovesPost]
      exact lookupA_insertA_self _ _ _

/-- C8: every position reachable from the standard start through accepted
moves decodes its own encoding: `set_fen (get_fen ())` reproduces the state
exactly (board, side to move, castling rights, en-passant target, clocks,
and even the history and `lastFen`, since the current ply's history entry
already holds the canonical FEN). -/
theorem claim_C8 (s : Chess) (h : Reachable s) :
    ∃ f, getFenE s = Except.ok f ∧ setFenE s f = (s, Except.ok ()) := by
  obtain ⟨hv, f, hf, hl⟩ := reachable_inv s h
  refine ⟨f, hf, ?_⟩
  rw [setFen_getFen s f hv hf s]
  rw [insertA_lookup_self s.moves (hmc s) f hl]

theorem claim_C8_witness :
    ∃ f, getFenE sStart = Except.ok f ∧ setFenE sStart f = (sStart, Except.ok ()) :=
  claim_C8 sStart Reachable.start

/-- C9: after any accepted move on a valid position, `revert_move` decodes
the snapshot recorded for the previous ply, restoring a position whose
notation record equals the pre-move one exactly; and on the start position,
whose history has no previous ply, `revert_move` falls back to
`load_start`, reproducing the start position. -/
theorem claim_C9 (s s2 : Chess) (a b : Sq) (promo : Nat)
    (r : Except Err (Sq × Sq))
    (hv : validB s = true) (hpromo : promo ∈ pieceKinds)
    (hm : moveFn s a b promo = (s2, r)) (hgood : goodOutcome r) :
    (∃ fenS s3, getFenE s = Except.ok fenS ∧
      revertMoveE s2 = (s3, Except.ok ()) ∧ getFenE s3 = Except.ok fenS) ∧
    revertMoveE sStart = (sStart, Except.ok ()) := by
  refine ⟨?_, by decide⟩
  obtain ⟨v, p, lm, fenS, capV, bpush, fenNew, hget, hvp, hturn, hfen, hlm,
    hdst, hcap, hpb, hfN, hvpost, hmc10, hmovesPost, hfPost, hcore, hmeq,
    hor⟩ := moveFn_accept_inv _ _ _ _ _ _ hv hpromo hm hgood
  have hmcs2 : hmc s2 = hmc s + 1 := by
    rw [coreEq_hmc hcore, hmc_postMove, hmc10]
  have hkey : hmc s2 - 1 = hmc s := by omega
  have hlook : lookupA s2.moves (hmc s2 - 1) = some fenS := by
    rw [hkey, hmeq, hmovesPost, lookupA_insertA_ne _ _ _ _ (by omega)]
    exact lookupA_insertA_self _ _ _
  have hrev : revertMoveE s2 = setFenE s2 fenS := by
    unfold revertMoveE
    rw [hlook]
  rw [hrev, setFen_getFen s fenS hv hfen s2]
  refine ⟨fenS, _, hfen, rfl, ?_⟩
  exact (getFen_congr _ s ⟨rfl, rfl, rfl, rfl, rfl, rfl, rfl, rfl, rfl⟩).trans hfen

/-- C5 (amended): after every accepted move, the repetition-draw condition
is raised exactly when the first *three* space-separated fields of the new
snapshot (board layout, side to move, castling rights — the en-passant
field is not compared) occur more than twice among the recorded history
snapshots. -/
theorem claim_C5 (s s2 : Chess) (a b : Sq) (promo : Nat)
    (r : Except Err (Sq × Sq))
    (hv : validB s = true) (hpromo : promo ∈ pieceKinds)
    (hm : moveFn s a b promo = (s2, r)) (hgood : goodOutcome r) :
    ∃ fenNew, lookupA s2.moves (hmc s2) = some fenNew ∧
      (r = Except.error (Err.draw DrawReason.repetition) ↔
        2 < (s2.moves.map (fun kv => prefix3 kv.2)).count (prefix3 fenNew)) := by
  obtain ⟨v, p, lm, fenS, capV, bpush, fenNew, hget, hvp, hturn, hfen, hlm,
    hdst, hcap, hpb, hfN, hvpost, hmc10, hmovesPost, hfPost, hcore, hmeq,
    hor⟩ := moveFn_accept_inv _ _ _ _ _ _ hv hpromo hm hgood
  have hmcs2 : hmc s2 = hmc s + 1 := by
    rw [coreEq_hmc hcore, hmc_postMove, hmc10]
  have hlook2 : lookupA s2.moves (hmc s2) = some fenNew := by
    rw [hmcs2, hmeq, hmovesPost]
    exact lookupA_insertA_self _ _ _
  have hlookP : lookupA (postMove s fenS bpush a b p capV fenNew).moves
      (hmc (postMove s fenS bpush a b p capV fenNew)) = some fenNew := by
    rw [hmc_postMove, hmc10, hmovesPost]
    exact lookupA_insertA_self _ _ _
  have hrepPost : repetitionE (postMove s fenS bpush a b p capV fenNew) =
      Except.ok (decide (2 <
        (s2.moves.map (fun kv => prefix3 kv.2)).count (prefix3 fenNew))) := by
    unfold repetitionE
    rw [hlookP, hmeq]
    simp only [prefix3]
  refine ⟨fenNew, hlook2, ?_⟩
  constructor
  · intro hr
    rcases hor with ⟨h1, h2, h3⟩ | ⟨h1, h2⟩
    · rw [h3] at hrepPost
      injection hrepPost with hh
      exact of_decide_eq_true hh.symm
    · exact absurd hr h2
  · intro hcount
    rcases hor with ⟨h1, _, _⟩ | ⟨h1, h2⟩
    · exact h1
    · exfalso
      rw [h1] at hrepPost
      injection hrepPost with hh
      have hdec : decide (2 < (s2.moves.map (fun kv => prefix3 kv.2)).count
          (prefix3 fenNew)) = true := decide_eq_true hcount
      rw [← hh] at hdec
      simp at hdec

/-- C7 (amended): an accepted move transforms the four castling-right
booleans as follows: the mover's queenside right is cleared exactly when
the king moved or the move *started* on square a1 or a8 — whichever
colour's corner that is — and the mover's kingside right is cleared exactly
when the king moved or the move started on h1 or h8; the opponent's rights
are always unchanged.  Rights are never set back to true, so each boolean
is monotone, but a mover's rook leaving the *other* colour's corner also
clears the mover's right, contrary to the original claim. -/
theorem claim_C7 (s s2 : Chess) (a b : Sq) (promo : Nat)
    (r : Except Err (Sq × Sq))
    (hv : validB s = true) (hpromo : promo ∈ pieceKinds)
    (hm : moveFn s a b promo = (s2, r)) (hgood : goodOutcome r) :
    ∃ v p, boardGetE s.board a = Except.ok v ∧
      valToPiece v = Except.ok (some p) ∧ p.2 = s.toMove ∧
      (∀ col, longCastle s2 col =
        (if p.2 = col ∧ (p.1 = kingV ∨ a = ((0 : Int), (0 : Int)) ∨
            a = ((7 : Int), (0 : Int))) then false
         else longCastle s col)) ∧
      (∀ col, shortCastle s2 col =
        (if p.2 = col ∧ (p.1 = kingV ∨ a = ((0 : Int), (7 : Int)) ∨
            a = ((7 : Int), (7 : Int))) then false
         else shortCastle s col)) := by
  obtain ⟨v, p, lm, fenS, capV, bpush, fenNew, hget, hvp, hturn, hfen, hlm,
    hdst, hcap, hpb, hfN, hvpost, hmc10, hmovesPost, hfPost, hcore, hmeq,
    hor⟩ := moveFn_accept_inv _ _ _ _ _ _ hv hpromo hm hgood
  have hpostCore : CoreEq (postMove s fenS bpush a b p capV fenNew)
      (moveUpdates (midState s fenS bpush) a b p capV) :=
    ⟨rfl, rfl, rfl, rfl, rfl, rfl, rfl, rfl, rfl⟩
  have hmidLong : ∀ col, longCastle (midState s fenS bpush) col =
      longCastle s col := by
    intro col
    cases col <;> rfl
  have hmidShort : ∀ col, shortCastle (midState s fenS bpush) col =
      shortCastle s col := by
    intro col
    cases col <;> rfl
  refine ⟨v, p, hget, hvp, hturn, ?_, ?_⟩
  · intro col
    rw [coreEq_long hcore col, coreEq_long hpostCore col,
      moveUpdates_long, hmidLong]
  · intro col
    rw [coreEq_short hcore col, coreEq_short hpostCore col,
      moveUpdates_short, hmidShort]

theorem claim_C5_witness :
    ∃ fenNew, lookupA (moveFn sC5 (0, 7) (1, 7) 16).1.moves
        (hmc (moveFn sC5 (0, 7) (1, 7) 16).1) = some fenNew ∧
      (Except.error (Err.draw DrawReason.repetition) =
          (Except.error (Err.draw DrawReason.repetition) :
            Except Err (Sq × Sq)) ↔
        2 < (((moveFn sC5 (0, 7) (1, 7) 16).1.moves.map
          (fun kv => prefix3 kv.2)).count (prefix3 fenNew))) :=
  claim_C5 sC5 (moveFn sC5 (0, 7) (1, 7) 16).1 (0, 7) (1, 7) 16
    (Except.error (Err.draw DrawReason.repetition))
    (by decide) (by decide) (by decide)
    (Or.inr (Or.inr (Or.inr (Or.inr rfl))))

theorem claim_C7_witness :
    ∃ v p, boardGetE sC7.board (0, 0) = Except.ok v ∧
      valToPiece v = Except.ok (some p) ∧ p.2 = sC7.toMove ∧
      (∀ col, longCastle (moveFn sC7 (0, 0) (1, 0) 16).1 col =
        (if p.2 = col ∧ (p.1 = kingV ∨ ((0 : Int), (0 : Int)) =
            ((0 : Int), (0 : Int)) ∨ ((0 : Int), (0 : Int)) =
            ((7 : Int), (0 : Int))) then false
         else longCastle sC7 col)) ∧
      (∀ col, shortCastle (moveFn sC7 (0, 0) (1, 0) 16).1 col =
        (if p.2 = col ∧ (p.1 = kingV ∨ ((0 : Int), (0 : Int)) =
            ((0 : Int), (7 : Int)) ∨ ((0 : Int), (0 : Int)) =
            ((7 : Int), (7 : Int))) then false
         else shortCastle sC7 col)) :=
  claim_C7 sC7 (moveFn sC7 (0, 0) (1, 0) 16).1 (0, 0) (1, 0) 16
    (Except.ok ((0, 0), (1, 0)))
    (by decide) (by decide) (by decide)
    (Or.inl ⟨((0, 0), (1, 0)), rfl⟩)

theorem claim_C9_witness :
    (∃ fenS s3, getFenE sC7 = Except.ok fenS ∧
      revertMoveE (moveFn sC7 (0, 0) (1, 0) 16).1 = (s3, Except.ok ()) ∧
      getFenE s3 = Except.ok fenS) ∧
    revertMoveE sStart = (sStart, Except.ok ()) :=
  claim_C9 sC7 (moveFn sC7 (0, 0) (1, 0) 16).1 (0, 0) (1, 0) 16
    (Except.ok ((0, 0), (1, 0)))
    (by decide) (by decide) (by decide)
    (Or.inl ⟨((0, 0), (1, 0)), rfl⟩)

end ChessSpec
